import Mathlib

/-!
# Chatroom reactor: framing, dispatch and outbound drain

A shallow embedding of `chatroom/src/server/server.cpp`, `chatroom/src/client/client.cpp`,
`chatroom/src/common/socket.cpp`, `chatroom/src/common/epoll.cpp` and
`chatroom/include/protocol.h`.

Conventions of the embedding.

* A `std::string` is a list of bytes (`Bytes`); a byte is a `Fin 256`.
* `MessageHeader` is the 8-byte struct `{uint16_t msg_type; uint16_t reserved; uint32_t msg_len}`
  copied with `memcpy` in host byte order; the host is little-endian (x86-64 / AArch64 Linux,
  the only platforms with `epoll`), `size_t` is 64 bits wide.
* Machine integers are natural numbers, reduced modulo `2^w` where the source narrows them.
* A `while (true)` loop that the source does not bound takes a fuel argument; the result
  `none` means that the loop is still running after `fuel` iterations.
* A `Client&` held by a handler is the registry key of the element it refers to. A use of
  the element after `clients_.erase` has destroyed it is undefined behaviour; the state
  records it in the flag `useAfterErase`.
* Operating-system calls whose result the source inspects (`::send`, `::recv`, `::accept`,
  `epoll_ctl`) are answered from a script, a list of call results consumed in order; the
  single results `Client::connect2Server` inspects (`::connect`, `epoll_wait`, `getsockopt`)
  are arguments.
-/

set_option autoImplicit false

namespace Chatroom

/-! ## Bytes and the wire header (`protocol.h`) -/

/-- One `char` of a `std::string`. -/
abbrev Byte := Fin 256

/-- A `std::string`, used by the source as a byte buffer. -/
abbrev Bytes := List Byte

/-- The struct `MessageHeader` of `protocol.h`: `msg_type` and `reserved` are `uint16_t`,
`msg_len` is `uint32_t`. -/
structure MessageHeader where
  msg_type : Nat
  reserved : Nat
  msg_len : Nat
  deriving DecidableEq, Repr

/-- The value of `sizeof(Header)`: 2 + 2 + 4 bytes, no padding. -/
def sizeofHeader : Nat := 8

/-- The constructor `MessageHeader(uint16_t type, uint32_t len)`: the arguments are narrowed to
their parameter types, `reserved` keeps its default member initialiser `0`. -/
def MessageHeader.ofTypeLen (type len : Nat) : MessageHeader :=
  { msg_type := type % 65536, reserved := 0, msg_len := len % 4294967296 }

/-- The byte of buffer `b` at index `i`. The index `b.length` reads the terminating `0` of
`c_str()`; larger indices lie outside the string and read `0` in the model, the loop of
`extractMessage` never uses them. -/
def byteAt (b : Bytes) (i : Nat) : Nat := (b.getD i 0).val

/-- The statement `memcpy(&header, buf.c_str() + pos, sizeof(Header))`: the header stored in
the eight bytes of `buf` that start at `pos`, little-endian. -/
def MessageHeader.read (buf : Bytes) (pos : Nat) : MessageHeader :=
  { msg_type := byteAt buf pos + 256 * byteAt buf (pos + 1)
    reserved := byteAt buf (pos + 2) + 256 * byteAt buf (pos + 3)
    msg_len := byteAt buf (pos + 4) + 256 * byteAt buf (pos + 5)
      + 65536 * byteAt buf (pos + 6) + 16777216 * byteAt buf (pos + 7) }

/-- The statement `memcpy(message.data(), &header, sizeof(Header))` on an 8-byte string:
the eight bytes of the header, little-endian. -/
def MessageHeader.write (h : MessageHeader) : Bytes :=
  [ Fin.ofNat (h.msg_type % 256), Fin.ofNat (h.msg_type / 256 % 256),
    Fin.ofNat (h.reserved % 256), Fin.ofNat (h.reserved / 256 % 256),
    Fin.ofNat (h.msg_len % 256), Fin.ofNat (h.msg_len / 256 % 256),
    Fin.ofNat (h.msg_len / 65536 % 256), Fin.ofNat (h.msg_len / 16777216 % 256) ]

/-- The fields of a header fit their C types. -/
def MessageHeader.InRange (h : MessageHeader) : Prop :=
  h.msg_type < 65536 ∧ h.reserved < 65536 ∧ h.msg_len < 4294967296

instance (h : MessageHeader) : Decidable h.InRange := by
  unfold MessageHeader.InRange; infer_instance

/-- The codes of `enum class MsgType`. -/
def MsgType.ERROR : Nat := 0
def MsgType.ECHO_MSG : Nat := 1
def MsgType.LOGIN : Nat := 2
def MsgType.LOGOUT : Nat := 3
def MsgType.PRIVATE_MSG : Nat := 4
def MsgType.GROUP_MSG : Nat := 5
def MsgType.USER_LIST : Nat := 6

/-- A frame on the wire: the eight header bytes followed by the payload, as assembled in
`Client::loadInput` (`message.append(input_)`) and in the test client
(`header_part + message`). -/
def frameBytes (h : MessageHeader) (payload : Bytes) : Bytes :=
  h.write ++ payload

/-- The message assembled by `Client::loadInput` from the input line: an `ECHO_MSG` header
whose `msg_len` is `static_cast<uint32_t>(input_.length())`, then the line. -/
def Client.loadInput (input_ : Bytes) : Bytes :=
  frameBytes (MessageHeader.ofTypeLen MsgType.ECHO_MSG input_.length) input_

/-- The string `logout_message` built by `Client::sendLogout` before it is sent: eight zero
bytes overwritten with `Header(LOGOUT, 0)`. -/
def Client.sendLogout_message : Bytes :=
  (MessageHeader.ofTypeLen MsgType.LOGOUT 0).write

/-! ## Frame extraction (`Server::extractMessage`, `Client::extractMessage`) -/

/-- The `while (true)` loop of `Server::extractMessage`, with the locals `pos` and `messages`
as arguments. It returns the final `messages` and `pos`; `none` when the loop has not left
after `fuel` iterations. `len` is a `uint32_t`, so the sum wraps modulo `2^32`. -/
def Server.extractLoop : Nat → Bytes → Nat → List Bytes → Option (List Bytes × Nat)
  | 0, _, _, _ => none
  | fuel + 1, buf, pos, messages =>
    if buf.length - pos < sizeofHeader then
      some (messages, pos)
    else
      let header := MessageHeader.read buf pos
      let len := (sizeofHeader + header.msg_len) % 4294967296
      if buf.length - pos ≥ len then
        Server.extractLoop fuel buf (pos + len) (messages ++ [(buf.drop pos).take len])
      else
        some (messages, pos)

/-- The function `Server::extractMessage` on the receive buffer of the client: the returned
vector `messages` and the new contents of `client.recv_buf` (`buf = buf.substr(pos)`). -/
def Server.extractMessage (fuel : Nat) (recv_buf : Bytes) : Option (List Bytes × Bytes) :=
  (Server.extractLoop fuel recv_buf 0 []).map fun r => (r.1, recv_buf.drop r.2)

/-- The `while (true)` loop of `Client::extractMessage` over the member `recv_buf_`. -/
def Client.extractLoop : Nat → Bytes → Nat → List Bytes → Option (List Bytes × Nat)
  | 0, _, _, _ => none
  | fuel + 1, recv_buf_, pos, messages =>
    if recv_buf_.length - pos < sizeofHeader then
      some (messages, pos)
    else
      let header := MessageHeader.read recv_buf_ pos
      let len := (sizeofHeader + header.msg_len) % 4294967296
      if recv_buf_.length - pos ≥ len then
        Client.extractLoop fuel recv_buf_ (pos + len)
          (messages ++ [(recv_buf_.drop pos).take len])
      else
        some (messages, pos)

/-- The function `Client::extractMessage`: the returned `messages` and the new `recv_buf_`. -/
def Client.extractMessage (fuel : Nat) (recv_buf_ : Bytes) : Option (List Bytes × Bytes) :=
  (Client.extractLoop fuel recv_buf_ 0 []).map fun r => (r.1, recv_buf_.drop r.2)

/-- Feeding a stream in chunks: each chunk is appended to the receive buffer
(`buf.append` in `Socket::recv`) and `extractMessage` runs after each append, as in
`Server::handleClientEvent`. The result is the concatenation of the per-call message
vectors and the final receive buffer. -/
def Server.feedChunks (fuel : Nat) : List Bytes → Bytes → Option (List Bytes × Bytes)
  | [], recv_buf => some ([], recv_buf)
  | chunk :: rest, recv_buf =>
    match Server.extractMessage fuel (recv_buf ++ chunk) with
    | none => none
    | some (messages, recv_buf1) =>
      match Server.feedChunks fuel rest recv_buf1 with
      | none => none
      | some (more, recv_buf2) => some (messages ++ more, recv_buf2)

/-- A header and payload as `Client::loadInput` pairs them, short enough that
`sizeof(Header) + msg_len` fits `uint32_t`. -/
def WellFramed (e : MessageHeader × Bytes) : Prop :=
  e.1.InRange ∧ e.1.msg_len = e.2.length ∧ sizeofHeader + e.2.length < 4294967296

instance (e : MessageHeader × Bytes) : Decidable (WellFramed e) := by
  unfold WellFramed; infer_instance

/-! ## Sockets, the epoll interest list and the registry (`socket.h`, `epoll.cpp`, `server.h`) -/

/-- The class `Socket`: its only member is the descriptor `socket_fd_`; `-1` is the unset
value. -/
structure Socket where
  socket_fd_ : Int
  deriving DecidableEq, Repr

/-- The method `Socket::getFD`. -/
def Socket.getFD (sock : Socket) : Int := sock.socket_fd_

/-- The struct `Server::Client`; `send_queue` is the `std::queue`, front element first. -/
structure Server.Client where
  recv_buf : Bytes
  fd : Socket
  send_queue : List Bytes
  deriving DecidableEq, Repr

/-- The part of the operating system the handlers act on: the interest list of the
epoll instance owned by `epoll_` (descriptor and event mask), and the descriptors handed
to `::close` so far, in call order. The state does not say which descriptors are open: the
deterministic calls below are for descriptors that are open, as the registry keys of the
running server are; what the source does with any other answer of `epoll_ctl` is in
`Epoll.addCall`, `Epoll.modifyCall` and `Epoll.removeCall`. -/
structure Kernel where
  interest : List (Int × Nat)
  closed : List Int
  deriving DecidableEq, Repr

/-- The event bits of `sys/epoll.h`. -/
def EPOLLIN : Nat := 1
def EPOLLOUT : Nat := 4

/-- The value stored under `key` in a map given as the list of its elements. -/
def lookup {β : Type} (key : Int) : List (Int × β) → Option β
  | [] => none
  | e :: rest => if e.1 = key then some e.2 else lookup key rest

/-- The event mask registered for `fd`, if any. -/
def Kernel.events (os : Kernel) (fd : Int) : Option Nat :=
  lookup fd os.interest

/-- The system call `::close(fd)`: the call is recorded and the kernel drops the descriptor
from the interest list. -/
def Kernel.close (os : Kernel) (fd : Int) : Kernel :=
  { interest := os.interest.filter fun e => e.1 ≠ fd, closed := os.closed ++ [fd] }

/-- The method `Epoll::modify` on a descriptor that is open: nothing for `fd == -1`; otherwise
`EPOLL_CTL_MOD` replaces the mask of a registered descriptor, and for an open descriptor that
is not registered the call fails with `ENOENT`, which is logged and changes nothing. For a
descriptor that is not open `epoll_ctl` fails with `EBADF` and the method throws: that
outcome is the result `failed` of `Epoll.modifyCall`, and this function does not describe
it. -/
def Epoll.modify (os : Kernel) (fd : Int) (events : Nat) : Kernel :=
  if fd = -1 then os
  else { os with interest := os.interest.map fun e => if e.1 = fd then (fd, events) else e }

/-- The method `Epoll::remove` on a descriptor that is open: nothing for `fd == -1`;
otherwise `EPOLL_CTL_DEL` drops the descriptor, `ENOENT` for an open descriptor that is not
registered is logged and changes nothing. For a descriptor that is not open `epoll_ctl` fails
with `EBADF` and the method throws: that outcome is the result `failed` of
`Epoll.removeCall`, and this function does not describe it. -/
def Epoll.remove (os : Kernel) (fd : Int) : Kernel :=
  if fd = -1 then os
  else { os with interest := os.interest.filter fun e => e.1 ≠ fd }

/-- The method `Socket::close`: `::close` is issued only for a descriptor other than `-1`,
and the member becomes `-1`. -/
def Socket.close (sock : Socket) (os : Kernel) : Socket × Kernel :=
  if sock.socket_fd_ ≠ -1 then ({ socket_fd_ := -1 }, os.close sock.socket_fd_)
  else (sock, os)

/-- The members of `Server` the handlers read and write: the registry `clients_`
(an `unordered_map<int, Client>`, as the list of its elements) and the kernel state reached
through `epoll_` and the sockets. Logging and the terminal are not modelled.

The flag `useAfterErase` is not a member of the class. It is set when a handler uses a
`Client` object that `clients_.erase` has destroyed, through a reference that still refers to
it. From that statement on the behaviour of the program is undefined: the other two fields
then follow the run in which the released storage still holds what was written to it last,
and nothing the source guarantees can be read off them. -/
structure Server where
  clients_ : List (Int × Server.Client)
  os : Kernel
  useAfterErase : Bool := false
  deriving DecidableEq, Repr

/-- The lookup `unordered_map::find`. -/
def Server.find? (s : Server) (key : Int) : Option Server.Client :=
  lookup key s.clients_

/-- A write through a `Client&` that refers to the element stored under `key`: the element
is updated in place; when no element is stored under `key` the registry is unchanged. -/
def Server.update (s : Server) (key : Int) (f : Server.Client → Server.Client) : Server :=
  { s with clients_ := s.clients_.map fun e => if e.1 = key then (e.1, f e.2) else e }

/-- The call `clients_.erase(key)`. -/
def Server.erase (s : Server) (key : Int) : Server :=
  { s with clients_ := s.clients_.filter fun e => e.1 ≠ key }

/-! ## Message handlers (`server.cpp`) -/

/-- The function `Server::echoMsg`. Through a reference to an erased element both statements
use a destroyed `Client`; the model records that and follows nothing else. -/
def Server.echoMsg (s : Server) (client : Int) (message : Bytes) : Server :=
  match s.find? client with
  | some c =>
    let s1 := s.update client fun c0 => { c0 with send_queue := c0.send_queue ++ [message] }
    { s1 with os := Epoll.modify s1.os c.fd.getFD (EPOLLIN ||| EPOLLOUT) }
  | none => { s with useAfterErase := true }

/-- The range-for loop of `Server::broadcast` over the elements `[fd, client]` of `clients_`,
with `sender.fd.getFD()` as `senderFD`. -/
def Server.broadcastLoop (senderFD : Int) (message : Bytes) :
    List (Int × Server.Client) → Kernel → List (Int × Server.Client) × Kernel
  | [], os => ([], os)
  | (fd, client) :: rest, os =>
    if fd ≠ senderFD then
      let r := Server.broadcastLoop senderFD message rest
        (Epoll.modify os fd (EPOLLIN ||| EPOLLOUT))
      ((fd, { client with send_queue := client.send_queue ++ [message] }) :: r.1, r.2)
    else
      let r := Server.broadcastLoop senderFD message rest os
      ((fd, client) :: r.1, r.2)

/-- The function `Server::broadcast`. When `sender` refers to an erased element, each
iteration of the loop reads `sender.fd` in a destroyed `Client`: with a registry that is not
empty this is a use after erase, and the loop is followed with `-1` as the value read, what
`Socket::close` wrote there last. -/
def Server.broadcast (s : Server) (sender : Int) (message : Bytes) : Server :=
  match s.find? sender with
  | some c =>
    let r := Server.broadcastLoop c.fd.getFD message s.clients_ s.os
    { s with clients_ := r.1, os := r.2 }
  | none =>
    let r := Server.broadcastLoop (-1) message s.clients_ s.os
    { clients_ := r.1, os := r.2, useAfterErase := s.useAfterErase || !s.clients_.isEmpty }

/-- The function `Server::userLogout`, statement by statement: `epoll_.remove` and
`clients_.erase` with the descriptor read through the reference, then `client.fd.close()`
through the same reference. When the erased key is the key of the element `client` refers
to, as it is in a registry keyed by descriptor, the erase has destroyed that element and the
last statement is a use after erase; the model records it and follows the run in which the
released storage still holds the descriptor, so that `::close` is issued on it. When the
element is still stored (its key is not its descriptor), `close` runs on it. Through a
reference that dangles already every statement reads a destroyed `Client`; the model
records that and follows nothing else. -/
def Server.userLogout (s : Server) (client : Int) : Server :=
  match s.find? client with
  | none => { s with useAfterErase := true }
  | some c =>
    let fd := c.fd.getFD
    let s1 := { s with os := Epoll.remove s.os fd }
    let s2 := s1.erase fd
    match s2.find? client with
    | some c2 =>
      let r := Socket.close c2.fd s2.os
      { (s2.update client fun c0 => { c0 with fd := r.1 }) with os := r.2 }
    | none =>
      let r := Socket.close c.fd s2.os
      { s2 with os := r.2, useAfterErase := true }

/-- The function `Server::handleMessage`: the header is copied out of the message and the
switch dispatches on `msg_type`; the default branch only logs. -/
def Server.handleMessage (s : Server) (client : Int) (message : Bytes) : Server :=
  let header := MessageHeader.read message 0
  if header.msg_type = MsgType.ECHO_MSG then s.echoMsg client message
  else if header.msg_type = MsgType.GROUP_MSG then s.broadcast client message
  else if header.msg_type = MsgType.LOGOUT then s.userLogout client
  else s

/-- Lines 208 to 211 of `Server::handleClientEvent`: the complete messages are extracted
from the receive buffer of the client, which keeps the remainder, and each message is handled
in order. The reference `client` comes from `clients_[ev.data.fd]` on line 190, so its element
is stored when these lines start; for an absent key the model reads an empty buffer. -/
def Server.extractAndHandle (fuel : Nat) (s : Server) (client : Int) : Option Server :=
  let recv_buf := match s.find? client with
    | some c => c.recv_buf
    | none => []
  match Server.extractMessage fuel recv_buf with
  | none => none
  | some (messages, rest) =>
    some (messages.foldl (fun st msg => st.handleMessage client msg)
      (s.update client fun c => { c with recv_buf := rest }))

/-! ## Sending (`Socket::send`, `Server::sendBuf`) -/

/-- The result of one `::send` system call: `accepted n` is a return value `n`, the number of
bytes taken, never more than asked for; the others are `-1` with `errno` `EAGAIN` or
`EWOULDBLOCK`, `EINTR`, `ECONNRESET` or `EPIPE`, and any other value. -/
inductive SendCall where
  | accepted (n : Nat)
  | eagain
  | eintr
  | reset
  | failed
  deriving DecidableEq, Repr

/-- How a call ends: it returns a value or throws `std::runtime_error`. -/
inductive Outcome (α : Type) where
  | returned (a : α)
  | raised
  deriving DecidableEq, Repr

/-- How the `while (sent_len < send_len)` loop of `Socket::send` ends: it is left with the
final `sent_len`, or the function returns `-2`, or it throws. -/
inductive SendLoopExit where
  | done (sent_len : Nat)
  | reset (sent_len : Nat)
  | raised (sent_len : Nat)
  deriving DecidableEq, Repr

/-- The loop `while (sent_len < send_len)` of `Socket::send`; every `::send` call takes the
next result of the script. The result is `none` when the script ends while the loop still
calls `::send`. -/
def Socket.sendLoop (send_len : Nat) : List SendCall → Nat → Option (SendLoopExit × List SendCall)
  | [], sent_len => if sent_len < send_len then none else some (.done sent_len, [])
  | call :: script, sent_len =>
    if sent_len < send_len then
      match call with
      | .accepted n => Socket.sendLoop send_len script (sent_len + min n (send_len - sent_len))
      | .eagain => some (.done sent_len, script)
      | .eintr => Socket.sendLoop send_len script sent_len
      | .reset => some (.reset sent_len, script)
      | .failed => some (.raised sent_len, script)
    else some (.done sent_len, call :: script)

/-- The bytes the system takes during the loop of `Socket::send`, call by call: a call made
at `sent_len` is handed `message.c_str() + sent_len` and takes the first `tmp_sent_len` bytes
of it. -/
def Socket.sendLoopTaken (message : Bytes) : List SendCall → Nat → Bytes
  | [], _ => []
  | call :: script, sent_len =>
    if sent_len < message.length then
      match call with
      | .accepted n =>
        (message.drop sent_len).take (min n (message.length - sent_len)) ++
          Socket.sendLoopTaken message script (sent_len + min n (message.length - sent_len))
      | .eintr => Socket.sendLoopTaken message script sent_len
      | _ => []
    else []

/-- What a `Socket::send` call leaves behind: the status code and `not_send`, or the
exception; the bytes of the message the system took; the rest of the script. -/
structure SendResult where
  outcome : Outcome (Int × Bytes)
  taken : Bytes
  script : List SendCall
  deriving DecidableEq, Repr

/-- The function `Socket::send`; `not_send` is the value of the out-parameter before the
call, which a `-2` return leaves as it is. -/
def Socket.send (message not_send : Bytes) (script : List SendCall) : Option SendResult :=
  if message.isEmpty then
    some { outcome := .returned (0, message), taken := [], script := script }
  else
    match Socket.sendLoop message.length script 0 with
    | none => none
    | some (.done sent_len, rest) =>
      if sent_len = message.length then
        some { outcome := .returned (0, []), taken := message.take sent_len, script := rest }
      else
        some { outcome := .returned (0, message.drop sent_len),
               taken := message.take sent_len, script := rest }
    | some (.reset sent_len, rest) =>
      some { outcome := .returned (-2, not_send), taken := message.take sent_len, script := rest }
    | some (.raised sent_len, rest) =>
      some { outcome := .raised, taken := message.take sent_len, script := rest }

/-- What a `Server::sendBuf` call leaves behind: the status code or the exception, the
client with its queue, the bytes the system took during the call, the rest of the script. -/
structure SendBufResult where
  outcome : Outcome Int
  client : Server.Client
  taken : Bytes
  script : List SendCall
  deriving DecidableEq, Repr

/-- The function `Server::sendBuf`: the loop `while (!client.send_queue.empty())`. The
result is `none` when the loop is still running after `fuel` iterations or the script ends
while `::send` is still called. -/
def Server.sendBuf : Nat → Server.Client → List SendCall → Option SendBufResult
  | 0, _, _ => none
  | fuel + 1, client, script =>
    match client.send_queue with
    | [] => some { outcome := .returned 0, client := client, taken := [], script := script }
    | front :: rest =>
      match Socket.send front [] script with
      | none => none
      | some r =>
        match r.outcome with
        | .raised =>
          some { outcome := .raised, client := client, taken := r.taken, script := r.script }
        | .returned (send_res, not_send) =>
          if send_res < 0 then
            some { outcome := .returned send_res, client := client, taken := r.taken,
                   script := r.script }
          else
            let client1 : Server.Client :=
              if not_send.isEmpty then { client with send_queue := rest }
              else { client with send_queue := not_send :: rest }
            (Server.sendBuf fuel client1 r.script).map fun q =>
              { q with taken := r.taken ++ q.taken }

/-- Successive `Server::sendBuf` calls on the same client, `n` of them, each one starting
where the previous one returned `0`; the bytes taken by the system are collected in call
order. A call that throws or returns `-2` is the last one. -/
def Server.sendBufCalls (fuel : Nat) : Nat → Server.Client → List SendCall → Option SendBufResult
  | 0, client, script =>
    some { outcome := .returned 0, client := client, taken := [], script := script }
  | n + 1, client, script =>
    match Server.sendBuf fuel client script with
    | none => none
    | some q =>
      match q.outcome with
      | .raised => some q
      | .returned res =>
        if res = 0 then
          (Server.sendBufCalls fuel n q.client q.script).map fun q1 =>
            { q1 with taken := q.taken ++ q1.taken }
        else some q

/-- A script without peer reset and without unclassified failure: full and partial sends,
`EAGAIN` and `EINTR` only. -/
def SendCall.Benign (script : List SendCall) : Prop :=
  ∀ call ∈ script, call ≠ .reset ∧ call ≠ .failed

instance (script : List SendCall) : Decidable (SendCall.Benign script) := by
  unfold SendCall.Benign; infer_instance

/-- A script in which every `::send` call takes at least one byte. -/
def SendCall.Progress (script : List SendCall) : Prop :=
  ∀ call ∈ script, ∃ n, call = .accepted (n + 1)

/-! ## Receiving and accepting (`Socket::recv`, `Socket::accept`) -/

/-- The result of one `::recv` system call. `data chunk` is a return value that is not `-1`:
the system stored `chunk`, cut to the `max_len` bytes asked for, in `tmp_buf` and returned
its length, `0` for an empty chunk. The others are `-1` with `errno` `EAGAIN` or
`EWOULDBLOCK`, `ECONNRESET` or `EPIPE`, `EINTR`, and any other value. -/
inductive RecvCall where
  | data (chunk : Bytes)
  | eagain
  | reset
  | eintr
  | failed
  deriving DecidableEq, Repr

/-- What a `Socket::recv` call leaves behind: the status code or the exception, the buffer
`buf`, the rest of the script. -/
structure RecvResult where
  outcome : Outcome Int
  buf : Bytes
  script : List RecvCall
  deriving DecidableEq, Repr

/-- The function `Socket::recv`: the loop `while (true)` around `::recv`, every call taking
the next result of the script. The result is `none` when the script ends while the loop
still calls `::recv`. -/
def Socket.recv (max_len : Nat) : List RecvCall → Bytes → Option RecvResult
  | [], _ => none
  | call :: script, buf =>
    match call with
    | .eagain => some { outcome := .returned 0, buf := buf, script := script }
    | .reset => some { outcome := .returned (-2), buf := buf, script := script }
    | .eintr => Socket.recv max_len script buf
    | .failed => some { outcome := .raised, buf := buf, script := script }
    | .data chunk =>
      if (chunk.take max_len).length = 0 then
        some { outcome := .returned (-1), buf := buf, script := script }
      else Socket.recv max_len script (buf ++ chunk.take max_len)

/-- A run of reads that keeps `Socket::recv` in its loop: interrupts, and reads of at least
one and at most `max_len` bytes. -/
def RecvCall.Reading (max_len : Nat) (reads : List RecvCall) : Prop :=
  ∀ call ∈ reads, call = .eintr ∨
    ∃ chunk, call = .data chunk ∧ 0 < chunk.length ∧ chunk.length ≤ max_len

/-- The chunks of a run of reads, in order. -/
def RecvCall.bytes : List RecvCall → Bytes
  | [] => []
  | .data chunk :: reads => chunk ++ RecvCall.bytes reads
  | _ :: reads => RecvCall.bytes reads

/-- The result of one `::accept` system call together with the two `fcntl` calls of
`setNonBlock` that follow a success: `conn fd ok` is the new descriptor `fd` (not `-1`),
`ok` telling whether both `fcntl` calls succeed; the others are `-1` with `errno` `EAGAIN`
or `EWOULDBLOCK`, `EINTR`, and any other value. -/
inductive AcceptCall where
  | conn (fd : Nat) (ok : Bool)
  | eagain
  | eintr
  | failed
  deriving DecidableEq, Repr

/-- What a `Socket::accept` call leaves behind: the returned vector or the exception, the
descriptors the system opened during the call, the rest of the script. An exception carries
only its message. -/
structure AcceptResult where
  outcome : Outcome (List Socket)
  opened : List Int
  script : List AcceptCall
  deriving DecidableEq, Repr

/-- The loop `while (true)` of `Socket::accept`, with the local vector `accepted`. -/
def Socket.acceptLoop : List AcceptCall → List Socket → List Int → Option AcceptResult
  | [], _, _ => none
  | call :: script, accepted, opened =>
    match call with
    | .conn fd true =>
      Socket.acceptLoop script (accepted ++ [{ socket_fd_ := fd }]) (opened ++ [(fd : Int)])
    | .conn fd false =>
      some { outcome := .raised, opened := opened ++ [(fd : Int)], script := script }
    | .eagain => some { outcome := .returned accepted, opened := opened, script := script }
    | .eintr => Socket.acceptLoop script accepted opened
    | .failed => some { outcome := .raised, opened := opened, script := script }

/-- The function `Socket::accept`. -/
def Socket.accept (script : List AcceptCall) : Option AcceptResult :=
  Socket.acceptLoop script [] []

/-! ## Moving sockets (`Socket::Socket(Socket&&)`, `Socket::operator=(Socket&&)`) -/

/-- The move constructor `Socket::Socket(Socket&& other)` in a store of `Socket` objects by
address: the object under construction at `self` takes the descriptor of `other`, then
`other.socket_fd_ = -1`. -/
def Socket.moveConstruct (mem : Nat → Socket) (self other : Nat) : Nat → Socket :=
  let mem1 := Function.update mem self { socket_fd_ := (mem other).socket_fd_ }
  Function.update mem1 other { socket_fd_ := -1 }

/-- The move assignment `Socket::operator=(Socket&& other)` in a store of `Socket` objects by
address, guarded by `this != &other`. -/
def Socket.moveAssign (mem : Nat → Socket) (self other : Nat) : Nat → Socket :=
  if self ≠ other then
    let mem1 := Function.update mem self { socket_fd_ := (mem other).socket_fd_ }
    Function.update mem1 other { socket_fd_ := -1 }
  else mem

/-! ## The epoll control calls with their system results (`epoll.cpp`) -/

/-- The result of one `epoll_ctl` system call: `0`, or `-1` with `errno` `EINTR`, `EEXIST`,
`ENOENT`, and any other value. -/
inductive CtlCall where
  | ok
  | eintr
  | eexist
  | enoent
  | failed
  deriving DecidableEq, Repr

/-- The loop `do { ctl_res = epoll_ctl(..); } while (ctl_res == -1 && errno == EINTR)`: the
first result that is not `EINTR`, and the rest of the script; `none` when the script ends
before. -/
def Epoll.ctlLoop : List CtlCall → Option (CtlCall × List CtlCall)
  | [] => none
  | .eintr :: script => Epoll.ctlLoop script
  | call :: script => some (call, script)

/-- What an `Epoll::add`, `Epoll::modify` or `Epoll::remove` call leaves behind: the interest
list after a normal return or the exception, and the rest of the script. -/
structure CtlResult where
  outcome : Outcome (List (Int × Nat))
  script : List CtlCall
  deriving DecidableEq, Repr

/-- The method `Epoll::add` with the results of its `epoll_ctl` calls taken from a script. A
call that succeeds has put the descriptor on the interest list; `EEXIST` is logged; any other
failure throws. -/
def Epoll.addCall (interest : List (Int × Nat)) (fd : Int) (events : Nat)
    (script : List CtlCall) : Option CtlResult :=
  if fd = -1 then some { outcome := .returned interest, script := script }
  else
    match Epoll.ctlLoop script with
    | none => none
    | some (.ok, rest) => some { outcome := .returned (interest ++ [(fd, events)]), script := rest }
    | some (.eexist, rest) => some { outcome := .returned interest, script := rest }
    | some (_, rest) => some { outcome := .raised, script := rest }

/-- The method `Epoll::modify` with the results of its `epoll_ctl` calls taken from a script.
A call that succeeds has replaced the mask of the descriptor; `ENOENT` is logged; any other
failure throws. -/
def Epoll.modifyCall (interest : List (Int × Nat)) (fd : Int) (events : Nat)
    (script : List CtlCall) : Option CtlResult :=
  if fd = -1 then some { outcome := .returned interest, script := script }
  else
    match Epoll.ctlLoop script with
    | none => none
    | some (.ok, rest) =>
      some { outcome := .returned (interest.map fun e => if e.1 = fd then (fd, events) else e),
             script := rest }
    | some (.enoent, rest) => some { outcome := .returned interest, script := rest }
    | some (_, rest) => some { outcome := .raised, script := rest }

/-- The method `Epoll::remove` with the results of its `epoll_ctl` calls taken from a script.
A call that succeeds has dropped the descriptor; `ENOENT` is logged; any other failure
throws. -/
def Epoll.removeCall (interest : List (Int × Nat)) (fd : Int)
    (script : List CtlCall) : Option CtlResult :=
  if fd = -1 then some { outcome := .returned interest, script := script }
  else
    match Epoll.ctlLoop script with
    | none => none
    | some (.ok, rest) =>
      some { outcome := .returned (interest.filter fun e => e.1 ≠ fd), script := rest }
    | some (.enoent, rest) => some { outcome := .returned interest, script := rest }
    | some (_, rest) => some { outcome := .raised, script := rest }

/-- The answer of the kernel of the model to `EPOLL_CTL_MOD` or `EPOLL_CTL_DEL` on `fd`:
success for a registered descriptor, `ENOENT` otherwise. -/
def Kernel.ctlAnswer (os : Kernel) (fd : Int) : CtlCall :=
  match os.events fd with
  | some _ => .ok
  | none => .enoent

/-! ## Shutdown (`Server::shutdown`) -/

/-- The `Server` object with the members `Server::shutdown` reads and writes besides the
registry: the listening socket `socket_` and the flags `launched_` and `shutdown_`. -/
structure ServerProcess where
  server : Server
  socket_ : Socket
  launched_ : Bool
  shutdown_ : Bool
  deriving DecidableEq, Repr

/-- The loop `for (auto [fd, client_info] : clients_) client_info.fd.close();` of
`Server::shutdown`: each element is copied and `close` runs on the socket of the copy. -/
def Server.shutdownLoop : List (Int × Server.Client) → Kernel → Kernel
  | [], os => os
  | e :: rest, os => Server.shutdownLoop rest (Socket.close e.2.fd os).2

/-- The function `Server::shutdown`; `tcflush_ok` and `tcsetattr_ok` tell whether the two
terminal calls succeed, a failure throws before `shutdown_` is set. -/
def Server.shutdown (p : ServerProcess) (tcflush_ok tcsetattr_ok : Bool) :
    Outcome ServerProcess :=
  if p.shutdown_ then .returned p
  else
    let os1 :=
      if !p.server.clients_.isEmpty then Server.shutdownLoop p.server.clients_ p.server.os
      else p.server.os
    let r := Socket.close p.socket_ os1
    let p1 : ServerProcess :=
      { p with server := { p.server with clients_ := [], os := r.2 }, socket_ := r.1 }
    if !tcflush_ok then .raised
    else if !tcsetattr_ok then .raised
    else .returned { p1 with shutdown_ := true }

/-! ## Client events (`Server::handleClientEvent`) -/

/-- The expression `clients_[key]`: an absent key gets a default-constructed `Client`
(empty buffer, descriptor `-1`, empty queue). -/
def Server.index (s : Server) (key : Int) : Server :=
  match s.find? key with
  | some _ => s
  | none =>
    { s with clients_ := s.clients_ ++
        [(key, { recv_buf := [], fd := { socket_fd_ := -1 }, send_queue := [] })] }

/-- Lines 192 to 211 of `Server::handleClientEvent`, the branch `ev.events & EPOLLIN`. The
flag of the result tells whether the branch ended in `return;`. -/
def Server.readReady (fuel max_recv_len : Nat) (s : Server) (client : Int)
    (reads : List RecvCall) : Option (Outcome (Bool × Server)) :=
  let recv_buf := match s.find? client with
    | some c => c.recv_buf
    | none => []
  match Socket.recv max_recv_len reads recv_buf with
  | none => none
  | some r =>
    let s1 := s.update client fun c => { c with recv_buf := r.buf }
    match r.outcome with
    | .raised => some .raised
    | .returned recv_res =>
      if recv_res = -1 then some (.returned (true, s1.userLogout client))
      else if recv_res = -2 then some (.returned (true, s1.userLogout client))
      else
        match s1.extractAndHandle fuel client with
        | none => none
        | some s2 => some (.returned (false, s2))

/-- Lines 215 to 224 of `Server::handleClientEvent`, the branch `ev.events & EPOLLOUT`. When
a `LOGOUT` message handled just before has erased the element, `client` refers to a
destroyed `Client`: the drain reads a destroyed queue, a use after erase, and the
descriptor of the event is closed by then, so that `epoll_ctl` fails with `EBADF` and
`Epoll::modify` throws; the model ends the handler with the exception there. -/
def Server.writeReady (fuel : Nat) (s : Server) (client : Int)
    (sends : List SendCall) : Option (Outcome Server) :=
  match s.find? client with
  | none => some .raised
  | some c =>
    match Server.sendBuf fuel c sends with
    | none => none
    | some q =>
      let s1 := s.update client fun _ => q.client
      match q.outcome with
      | .raised => some .raised
      | .returned res =>
        if res = -2 then some (.returned (s1.userLogout client))
        else some (.returned { s1 with os := Epoll.modify s1.os client EPOLLIN })

/-- The function `Server::handleClientEvent` for the event `(fd, events)`; `reads` and `sends`
are the results of the `::recv` and `::send` calls on the descriptor of the client. -/
def Server.handleClientEvent (fuel max_recv_len : Nat) (s : Server) (fd : Int) (events : Nat)
    (reads : List RecvCall) (sends : List SendCall) : Option (Outcome Server) :=
  let s0 := s.index fd
  if events &&& EPOLLIN ≠ 0 then
    match s0.readReady fuel max_recv_len fd reads with
    | none => none
    | some .raised => some .raised
    | some (.returned (true, s1)) => some (.returned s1)
    | some (.returned (false, s1)) =>
      if events &&& EPOLLOUT ≠ 0 then s1.writeReady fuel fd sends
      else some (.returned s1)
  else if events &&& EPOLLOUT ≠ 0 then s0.writeReady fuel fd sends
  else some (.returned s0)

/-- The interest mask the handlers keep for a connection with the send queue `q`: read and
write while the queue holds something, read only when it is empty. -/
def Server.maskFor (q : List Bytes) : Nat :=
  if q.isEmpty then EPOLLIN else EPOLLIN ||| EPOLLOUT

/-- The write-interest invariant: every registered connection is on the interest list with
read and write interest if its send queue is non-empty and with read interest only if it is
empty. -/
def Server.WriteInterest (s : Server) : Prop :=
  ∀ e ∈ s.clients_, s.os.events e.1 = some (Server.maskFor e.2.send_queue)

instance (s : Server) : Decidable s.WriteInterest := by
  unfold Server.WriteInterest; infer_instance

/-- The registry is keyed by descriptor: the key of each element is the descriptor of its
socket, and it is not the unset value `-1`. -/
def Server.KeyedByFD (s : Server) : Prop :=
  ∀ e ∈ s.clients_, e.2.fd.getFD = e.1 ∧ e.1 ≠ -1

instance (s : Server) : Decidable s.KeyedByFD := by
  unfold Server.KeyedByFD; infer_instance

/-- The interest list after the loop of `Server::broadcast`, in closed form: each listed
descriptor that is a registry key other than the descriptor of the sender and other than
`-1` carries the mask `EPOLLIN | EPOLLOUT`. -/
def Server.broadcastInterest (senderFD : Int) (keys : List Int)
    (interest : List (Int × Nat)) : List (Int × Nat) :=
  interest.map fun e =>
    if e.1 ≠ senderFD ∧ e.1 ≠ -1 ∧ e.1 ∈ keys then (e.1, EPOLLIN ||| EPOLLOUT) else e

/-! ## New connections (`Server::handleNewSocket`) -/

/-- The assignment `clients_[key] = value`: the element stored under `key` is overwritten,
an absent key gets a new element. -/
def Server.assign (s : Server) (key : Int) (value : Server.Client) : Server :=
  match s.find? key with
  | some _ => s.update key fun _ => value
  | none => { s with clients_ := s.clients_ ++ [(key, value)] }

/-- The loop `for (int i = 0; i < connections.size(); i++)` of `Server::handleNewSocket` over
the connections not handled yet; the `epoll_ctl` results of `Epoll::add` come from a script.
When `Epoll::add` throws, the handler closes the remaining connections and rethrows. -/
def Server.handleNewSocketLoop : List Socket → Server → List CtlCall → Option (Outcome Server)
  | [], s, _ => some (.returned s)
  | connection :: rest, s, ctl =>
    match Epoll.addCall s.os.interest connection.getFD EPOLLIN ctl with
    | none => none
    | some r =>
      match r.outcome with
      | .raised => some .raised
      | .returned interest =>
        let s1 : Server := { s with os := { s.os with interest := interest } }
        Server.handleNewSocketLoop rest
          (s1.assign connection.getFD { recv_buf := [], fd := connection, send_queue := [] })
          r.script

/-- The function `Server::handleNewSocket`; `accepts` are the results of the `::accept` calls
on the listening socket, `ctl` the results of the `epoll_ctl` calls. -/
def Server.handleNewSocket (s : Server) (accepts : List AcceptCall) (ctl : List CtlCall) :
    Option (Outcome Server) :=
  match Socket.accept accepts with
  | none => none
  | some a =>
    match a.outcome with
    | .raised => some .raised
    | .returned connections => Server.handleNewSocketLoop connections s ctl

/-! ## Connecting (`Client::connect2Server`) -/

/-- Two more event bits of `sys/epoll.h`. -/
def EPOLLERR : Nat := 8
def EPOLLHUP : Nat := 16

/-- The method `Epoll::add`: nothing for `fd == -1`; otherwise `EPOLL_CTL_ADD` puts the
descriptor on the interest list, and for a descriptor that is already there the call fails
with `EEXIST`, which is logged and changes nothing. Failures other than `EEXIST` are outside
the model. -/
def Epoll.add (os : Kernel) (fd : Int) (events : Nat) : Kernel :=
  if fd = -1 then os
  else
    match os.events fd with
    | some _ => os
    | none => { os with interest := os.interest ++ [(fd, events)] }

/-- The class `Epoll`: its only member is the descriptor `epoll_fd_` of the epoll instance. -/
structure Epoll where
  epoll_fd_ : Int
  deriving DecidableEq, Repr

/-- The method `Epoll::close`: `::close` is issued only for a descriptor other than `-1`,
and the member becomes `-1`. -/
def Epoll.close (ep : Epoll) (os : Kernel) : Epoll × Kernel :=
  if ep.epoll_fd_ ≠ -1 then ({ epoll_fd_ := -1 }, os.close ep.epoll_fd_)
  else (ep, os)

/-- The two lines `Client::connect2Server` writes to `std::cout` after the connection
attempt: `"Connect time out"` and `"Chatroom connected"`. -/
inductive ClientLine where
  | connectTimeOut
  | chatroomConnected
  deriving DecidableEq, Repr

/-- The members of `Client` that `Client::connect2Server` reads and writes: the endpoint
`conn_fd_`, the reactor `epoll_fd_`, the kernel state reached through them, and what has been
written to `std::cout`. -/
structure ClientProcess where
  conn_fd_ : Socket
  epoll_fd_ : Epoll
  os : Kernel
  cout : List ClientLine
  deriving DecidableEq, Repr

/-- The result of the call `conn_fd_.connect(ip, port)`: `::connect` returned `0`; it
returned `-1` with `errno == EINPROGRESS`; or `Socket::connect` threw (invalid address, or
`-1` with any other `errno`). -/
inductive ConnectCall where
  | connected
  | inProgress
  | failed
  deriving DecidableEq, Repr

/-- The result of the call `epoll_fd_.wait(3000)`: the vector of ready events, each a
descriptor with its event bits, empty after a timeout or an interrupt; or the exception. -/
inductive WaitCall where
  | ready (events : List (Int × Nat))
  | failed
  deriving DecidableEq, Repr

/-- The result of the call `getsockopt(.., SO_ERROR, &err, ..)`: `0` with the value stored
in `err`, or `-1`. -/
inductive SockoptCall where
  | value (err : Int)
  | failed
  deriving DecidableEq, Repr

/-- How `Client::connect2Server` ends: the members at that point, and whether it ended by
throwing. -/
structure ConnectResult where
  client : ClientProcess
  threw : Bool
  deriving DecidableEq, Repr

/-- The function `Client::connect2Server` from the call of `Socket::connect` on; `conn`,
`wait` and `opt` are the results of the connect call, of the bounded poll and of the read of
the socket error state. -/
def Client.connect2Server (p : ClientProcess) (conn : ConnectCall) (wait : WaitCall)
    (opt : SockoptCall) : ConnectResult :=
  match conn with
  | .failed => { client := p, threw := true }
  | .connected =>
    { client := { p with os := Epoll.add p.os p.conn_fd_.getFD EPOLLIN,
                         cout := p.cout ++ [.chatroomConnected] },
      threw := false }
  | .inProgress =>
    let p1 : ClientProcess :=
      { p with os := Epoll.add p.os p.conn_fd_.getFD (EPOLLOUT ||| EPOLLERR ||| EPOLLHUP) }
    match wait with
    | .failed => { client := p1, threw := true }
    | .ready [] =>
      let os2 := Epoll.remove p1.os p1.conn_fd_.getFD
      let rc := Socket.close p1.conn_fd_ os2
      let re := Epoll.close p1.epoll_fd_ rc.2
      { client := { conn_fd_ := rc.1, epoll_fd_ := re.1, os := re.2,
                    cout := p1.cout ++ [.connectTimeOut] },
        threw := false }
    | .ready (ev :: _) =>
      if ev.2 &&& EPOLLOUT ≠ 0 then
        match opt with
        | .failed => { client := p1, threw := true }
        | .value err =>
          if err ≠ 0 then
            let re := Epoll.close p1.epoll_fd_ p1.os
            let rc := Socket.close p1.conn_fd_ re.2
            { client := { p1 with conn_fd_ := rc.1, epoll_fd_ := re.1, os := rc.2 },
              threw := true }
          else
            { client := { p1 with os := Epoll.modify p1.os p1.conn_fd_.getFD EPOLLIN,
                                  cout := p1.cout ++ [.chatroomConnected] },
              threw := false }
      else if ev.2 &&& EPOLLERR ≠ 0 then { client := p1, threw := true }
      else { client := { p1 with cout := p1.cout ++ [.chatroomConnected] }, threw := false }

/-! ## Lemmas on the extraction loop -/

theorem byteAt_drop (buf : Bytes) (pos i : Nat) :
    byteAt (buf.drop pos) i = byteAt buf (pos + i) := by
  simp [byteAt, List.getD_eq_getElem?_getD, List.getElem?_drop]

theorem MessageHeader.read_drop (buf : Bytes) (pos : Nat) :
    MessageHeader.read (buf.drop pos) 0 = MessageHeader.read buf pos := by
  simp only [MessageHeader.read, byteAt_drop]
  simp

/-- The loop started at `pos` is the loop started at `0` on the suffix `buf.drop pos`. -/
theorem Server.extractLoop_shift (fuel : Nat) :
    ∀ (buf : Bytes) (pos : Nat) (messages : List Bytes), pos ≤ buf.length →
      Server.extractLoop fuel buf pos messages =
        (Server.extractLoop fuel (buf.drop pos) 0 []).map
          fun r => (messages ++ r.1, pos + r.2) := by
  induction fuel with
  | zero => intro buf pos messages _; simp [Server.extractLoop]
  | succ n ih =>
    intro buf pos messages hpos
    simp only [Server.extractLoop, List.length_drop, Nat.sub_zero, MessageHeader.read_drop,
      List.drop_zero, Nat.zero_add, List.nil_append]
    by_cases h1 : buf.length - pos < sizeofHeader
    · simp [h1]
    · simp only [h1, if_false]
      by_cases h2 : buf.length - pos ≥
          (sizeofHeader + (MessageHeader.read buf pos).msg_len) % 4294967296
      · simp only [h2, if_true]
        rw [ih buf (pos + _) _ (by omega)]
        rw [ih (buf.drop pos) _ [_] (by simp only [List.length_drop]; omega)]
        simp only [Option.map_map, Function.comp_def, List.drop_drop, List.append_assoc,
          List.singleton_append, Nat.add_assoc]
      · simp [h2]

/-- Without fuel the loop has not returned. -/
theorem Server.extractMessage_zero (b : Bytes) : Server.extractMessage 0 b = none := by
  simp [Server.extractMessage, Server.extractLoop]

/-- One iteration of the loop, stated on `extractMessage` itself. -/
theorem Server.extractMessage_succ (fuel : Nat) (b : Bytes) :
    Server.extractMessage (fuel + 1) b =
      if b.length < sizeofHeader then some ([], b)
      else if (sizeofHeader + (MessageHeader.read b 0).msg_len) % 4294967296 ≤ b.length then
        (Server.extractMessage fuel
            (b.drop ((sizeofHeader + (MessageHeader.read b 0).msg_len) % 4294967296))).map
          fun r => (b.take ((sizeofHeader + (MessageHeader.read b 0).msg_len) % 4294967296)
            :: r.1, r.2)
      else some ([], b) := by
  simp only [Server.extractMessage, Server.extractLoop, Nat.sub_zero, List.drop_zero,
    Nat.zero_add, List.nil_append, ge_iff_le]
  by_cases h1 : b.length < sizeofHeader
  · simp [h1]
  · simp only [h1, if_false]
    by_cases h2 : (sizeofHeader + (MessageHeader.read b 0).msg_len) % 4294967296 ≤ b.length
    · simp only [h2, if_true]
      rw [Server.extractLoop_shift fuel b _ _ h2]
      simp only [Option.map_map, Function.comp_def, List.drop_drop, List.singleton_append]
    · simp [h2]

/-- More fuel does not change a result that was reached. -/
theorem Server.extractMessage_mono (fuel : Nat) :
    ∀ (b : Bytes) (r : List Bytes × Bytes),
      Server.extractMessage fuel b = some r → Server.extractMessage (fuel + 1) b = some r := by
  induction fuel with
  | zero => intro b r h; simp [Server.extractMessage_zero] at h
  | succ n ih =>
    intro b r h
    rw [Server.extractMessage_succ] at h ⊢
    by_cases h1 : b.length < sizeofHeader
    · simpa [h1] using h
    · simp only [h1, if_false] at h ⊢
      by_cases h2 : (sizeofHeader + (MessageHeader.read b 0).msg_len) % 4294967296 ≤ b.length
      · simp only [h2, if_true] at h ⊢
        cases hrec : Server.extractMessage n
            (b.drop ((sizeofHeader + (MessageHeader.read b 0).msg_len) % 4294967296)) with
        | none => simp [hrec] at h
        | some q => rw [ih _ q hrec]; simpa [hrec] using h
      · simpa [h2] using h

theorem Server.extractMessage_mono_le (fuel k : Nat) (b : Bytes) (r : List Bytes × Bytes)
    (h : Server.extractMessage fuel b = some r) :
    Server.extractMessage (fuel + k) b = some r := by
  induction k with
  | zero => simpa using h
  | succ k ih => exact Server.extractMessage_mono _ _ _ ih

theorem byteAt_append_left (a b : Bytes) (i : Nat) (h : i < a.length) :
    byteAt (a ++ b) i = byteAt a i := by
  simp [byteAt, List.getD_eq_getElem?_getD, List.getElem?_append_left h]

theorem MessageHeader.read_append (a b : Bytes) (pos : Nat) (h : pos + 8 ≤ a.length) :
    MessageHeader.read (a ++ b) pos = MessageHeader.read a pos := by
  simp only [MessageHeader.read]
  rw [byteAt_append_left a b pos (by omega), byteAt_append_left a b (pos + 1) (by omega),
    byteAt_append_left a b (pos + 2) (by omega), byteAt_append_left a b (pos + 3) (by omega),
    byteAt_append_left a b (pos + 4) (by omega), byteAt_append_left a b (pos + 5) (by omega),
    byteAt_append_left a b (pos + 6) (by omega), byteAt_append_left a b (pos + 7) (by omega)]

/-- Extraction on `a ++ b` factors through extraction on `a`: the messages found in `a`
come first, and the rest is what extraction finds once `b` is appended to the remainder. -/
theorem Server.extractMessage_append (fuel : Nat) :
    ∀ (a b : Bytes) (F : List Bytes) (R : Bytes),
      Server.extractMessage fuel (a ++ b) = some (F, R) →
      ∃ F1 r1 F2, Server.extractMessage fuel a = some (F1, r1) ∧
        Server.extractMessage fuel (r1 ++ b) = some (F2, R) ∧ F = F1 ++ F2 := by
  induction fuel with
  | zero => intro a b F R h; simp [Server.extractMessage_zero] at h
  | succ n ih =>
    intro a b F R h
    by_cases h1 : a.length < sizeofHeader
    · refine ⟨[], a, F, ?_, h, rfl⟩
      rw [Server.extractMessage_succ]; simp [h1]
    · by_cases h2 : (sizeofHeader + (MessageHeader.read a 0).msg_len) % 4294967296 ≤ a.length
      · have h8 : 0 + 8 ≤ a.length := by simp only [sizeofHeader] at h1; omega
        have hlen : ¬ (a ++ b).length < sizeofHeader := by
          simp only [List.length_append]; omega
        have hlen2 : (sizeofHeader + (MessageHeader.read a 0).msg_len) % 4294967296
            ≤ (a ++ b).length := by
          simp only [List.length_append]; omega
        rw [Server.extractMessage_succ] at h
        rw [MessageHeader.read_append a b 0 h8] at h
        simp only [hlen, if_false, hlen2, if_true, List.drop_append_of_le_length h2,
          List.take_append_of_le_length h2] at h
        cases hrec : Server.extractMessage n
            (a.drop ((sizeofHeader + (MessageHeader.read a 0).msg_len) % 4294967296) ++ b) with
        | none => simp [hrec] at h
        | some q =>
          obtain ⟨F', R'⟩ := q
          simp only [hrec, Option.map_some', Option.some.injEq, Prod.mk.injEq] at h
          obtain ⟨hF, hR⟩ := h
          subst hR
          obtain ⟨F1, r1, F2, e1, e2, e3⟩ := ih _ _ _ _ hrec
          refine ⟨a.take ((sizeofHeader + (MessageHeader.read a 0).msg_len) % 4294967296) :: F1,
            r1, F2, ?_, Server.extractMessage_mono _ _ _ e2, ?_⟩
          · rw [Server.extractMessage_succ]; simp [h1, h2, e1]
          · rw [← hF, e3]; rfl
      · refine ⟨[], a, F, ?_, h, rfl⟩
        rw [Server.extractMessage_succ]; simp [h1, h2]

theorem Server.feedChunks_of_extract (fuel : Nat) :
    ∀ (chunks : List Bytes) (buf : Bytes) (F : List Bytes) (R : Bytes),
      Server.extractMessage fuel (buf ++ chunks.flatten) = some (F, R) →
      ∃ F0 r0 F1, Server.extractMessage fuel buf = some (F0, r0) ∧
        Server.feedChunks fuel chunks r0 = some (F1, R) ∧ F = F0 ++ F1 := by
  intro chunks
  induction chunks with
  | nil =>
    intro buf F R h
    refine ⟨F, R, [], ?_, rfl, by simp⟩
    simpa using h
  | cons c cs ih =>
    intro buf F R h
    rw [List.flatten_cons, ← List.append_assoc] at h
    obtain ⟨F0', r0', F1', e1, e2, e3⟩ := ih _ _ _ h
    obtain ⟨F0, r0, F2, e4, e5, e6⟩ := Server.extractMessage_append fuel _ _ _ _ e1
    refine ⟨F0, r0, F2 ++ F1', e4, ?_, ?_⟩
    · simp only [Server.feedChunks, e5, e2]
    · rw [e3, e6, List.append_assoc]

/-- C2 (chunk-split invariance): if one `extractMessage` call on a buffer holding the whole
stream `s` returns the messages `F` and leaves the remainder `R`, then for every way of
cutting `s` into consecutive chunks, appending the chunks one at a time to an empty receive
buffer and calling `extractMessage` after each append also returns, with the same fuel, and
the per-call message vectors concatenated are `F` and the final buffer is `R`. -/
theorem Server.chunk_split_invariance (fuel : Nat) (s : Bytes) (chunks : List Bytes)
    (F : List Bytes) (R : Bytes) (hs : chunks.flatten = s)
    (h : Server.extractMessage fuel s = some (F, R)) :
    Server.feedChunks fuel chunks [] = some (F, R) := by
  subst hs
  obtain ⟨F0, r0, F1, e1, e2, e3⟩ :=
    Server.feedChunks_of_extract fuel chunks [] F R (by simpa using h)
  cases fuel with
  | zero => simp [Server.extractMessage_zero] at h
  | succ n =>
    rw [Server.extractMessage_succ] at e1
    simp only [List.length_nil, sizeofHeader, Nat.lt_add_one, if_true, Nat.zero_lt_succ,
      Option.some.injEq, Prod.mk.injEq] at e1
    obtain ⟨rfl, rfl⟩ := e1
    simpa [e3] using e2

/-- C2 at a stream of two frames and two spare bytes, cut into three chunks. -/
theorem Server.chunk_split_invariance_witness :
    Server.feedChunks 3 [[1, 0, 0, 0, 2], [0, 0, 0, 104, 105, 5, 0, 0], [0, 0, 0, 0, 0, 3, 0]] []
      = some ([[1, 0, 0, 0, 2, 0, 0, 0, 104, 105], [5, 0, 0, 0, 0, 0, 0, 0]], [3, 0]) :=
  Server.chunk_split_invariance 3
    [1, 0, 0, 0, 2, 0, 0, 0, 104, 105, 5, 0, 0, 0, 0, 0, 0, 0, 3, 0]
    [[1, 0, 0, 0, 2], [0, 0, 0, 104, 105, 5, 0, 0], [0, 0, 0, 0, 0, 3, 0]]
    [[1, 0, 0, 0, 2, 0, 0, 0, 104, 105], [5, 0, 0, 0, 0, 0, 0, 0]] [3, 0]
    (by decide) (by decide)

/-! ### Headers written and read back -/

theorem byteAt_lt (b : Bytes) (i : Nat) : byteAt b i < 256 := (b.getD i 0).isLt

theorem MessageHeader.read_msg_len_lt (b : Bytes) (pos : Nat) :
    (MessageHeader.read b pos).msg_len < 4294967296 := by
  have h4 := byteAt_lt b (pos + 4)
  have h5 := byteAt_lt b (pos + 5)
  have h6 := byteAt_lt b (pos + 6)
  have h7 := byteAt_lt b (pos + 7)
  simp only [MessageHeader.read]
  omega

theorem MessageHeader.write_length (h : MessageHeader) : h.write.length = 8 := rfl

theorem MessageHeader.read_write (h : MessageHeader) (rest : Bytes) (hr : h.InRange) :
    MessageHeader.read (h.write ++ rest) 0 = h := by
  obtain ⟨h1, h2, h3⟩ := hr
  obtain ⟨t, r, l⟩ := h
  simp only [MessageHeader.read, MessageHeader.write, byteAt, List.cons_append, Nat.zero_add,
    List.getD_cons_zero, List.getD_cons_succ, Fin.ofNat, Nat.reduceAdd, MessageHeader.mk.injEq]
  simp only at h1 h2 h3
  refine ⟨?_, ?_, ?_⟩ <;> omega

theorem frameBytes_length (h : MessageHeader) (payload : Bytes) :
    (frameBytes h payload).length = 8 + payload.length := by
  simp [frameBytes, MessageHeader.write_length]

/-! ### The wrap-around of `uint32_t len` -/

/-- When the header at the front of the buffer makes `len` wrap to `0`, the loop pushes an
empty message and stays at the same `pos`: it never leaves. -/
theorem Server.extractMessage_len_zero (b : Bytes) (h8 : sizeofHeader ≤ b.length)
    (hz : (sizeofHeader + (MessageHeader.read b 0).msg_len) % 4294967296 = 0) :
    ∀ fuel, Server.extractMessage fuel b = none := by
  intro fuel
  induction fuel with
  | zero => exact Server.extractMessage_zero b
  | succ n ih =>
    rw [Server.extractMessage_succ]
    simp [Nat.not_lt.mpr h8, hz, ih]

theorem Server.extractMessage_wrap_zero_frame (payload : Bytes)
    (hp : payload.length = 4294967288) :
    ∀ fuel, Server.extractMessage fuel
      (frameBytes { msg_type := 1, reserved := 0, msg_len := 4294967288 } payload) = none := by
  apply Server.extractMessage_len_zero
  · rw [frameBytes_length]; simp only [sizeofHeader]; omega
  · rw [frameBytes, MessageHeader.read_write _ _ (by simp [MessageHeader.InRange])]
    rfl

/-! ### Framing below the wrap-around -/

/-- A complete frame at the front of the buffer is emitted whole and the loop goes on with
the bytes after it. -/
theorem Server.extractMessage_frame_step (fuel : Nat) (h : MessageHeader) (payload rest : Bytes)
    (hw : WellFramed (h, payload)) :
    Server.extractMessage (fuel + 1) (frameBytes h payload ++ rest) =
      (Server.extractMessage fuel rest).map fun r => (frameBytes h payload :: r.1, r.2) := by
  obtain ⟨hr, hl, hb⟩ := hw
  simp only at hr hl hb
  have hlen : (frameBytes h payload).length = 8 + payload.length := frameBytes_length h payload
  have hread : MessageHeader.read (frameBytes h payload ++ rest) 0 = h := by
    rw [frameBytes, List.append_assoc, MessageHeader.read_write _ _ hr]
  have hmod : (sizeofHeader + h.msg_len) % 4294967296 = (frameBytes h payload).length := by
    rw [hlen, hl]; simp only [sizeofHeader] at hb ⊢; omega
  rw [Server.extractMessage_succ, hread, hmod]
  have h1 : ¬ (frameBytes h payload ++ rest).length < sizeofHeader := by
    simp only [List.length_append, hlen, sizeofHeader]; omega
  have h2 : (frameBytes h payload).length ≤ (frameBytes h payload ++ rest).length := by
    simp only [List.length_append]; omega
  simp only [h1, if_false, h2, if_true, List.drop_left, List.take_left]

theorem Server.extractMessage_frames (fs : List (MessageHeader × Bytes))
    (hfs : ∀ e ∈ fs, WellFramed e) (k : Nat) :
    Server.extractMessage (fs.length + 1 + k)
        (fs.map fun e => frameBytes e.1 e.2).flatten =
      some (fs.map fun e => frameBytes e.1 e.2, []) := by
  induction fs with
  | nil =>
    simp only [List.length_nil, List.map_nil, List.flatten_nil, Nat.zero_add]
    rw [Nat.add_comm, Server.extractMessage_succ]
    simp [sizeofHeader]
  | cons e es ih =>
    have he : WellFramed (e.1, e.2) := hfs e (List.mem_cons_self _ _)
    have hes : ∀ x ∈ es, WellFramed x := fun x hx => hfs x (List.mem_cons_of_mem _ hx)
    have e1 : (e :: es).length + 1 + k = (es.length + 1 + k) + 1 := by
      simp only [List.length_cons]; omega
    rw [List.map_cons, List.flatten_cons, e1,
      Server.extractMessage_frame_step _ _ _ _ he, ih hes]
    rfl

/-- A strict prefix of a frame below the wrap-around yields no message and stays in the
buffer. -/
theorem Server.extractMessage_strict_prefix (fuel k : Nat) (h : MessageHeader) (payload : Bytes)
    (hw : WellFramed (h, payload)) (hk : k < (frameBytes h payload).length) :
    Server.extractMessage (fuel + 1) ((frameBytes h payload).take k) =
      some ([], (frameBytes h payload).take k) := by
  obtain ⟨hr, hl, hb⟩ := hw
  simp only at hr hl hb
  have hlen : (frameBytes h payload).length = 8 + payload.length := frameBytes_length h payload
  have htl : ((frameBytes h payload).take k).length = k := by
    rw [List.length_take]; omega
  rw [Server.extractMessage_succ, htl]
  by_cases h1 : k < sizeofHeader
  · simp [h1]
  · simp only [h1, if_false]
    have hk8 : 8 ≤ k := by simp only [sizeofHeader] at h1; omega
    have htake : (frameBytes h payload).take k = h.write ++ payload.take (k - 8) := by
      rw [frameBytes, List.take_append_eq_append_take, MessageHeader.write_length,
        List.take_of_length_le (by rw [MessageHeader.write_length]; exact hk8)]
    rw [htake, MessageHeader.read_write _ _ hr]
    have h2 : ¬ (sizeofHeader + h.msg_len) % 4294967296 ≤ k := by
      simp only [sizeofHeader] at hb ⊢; omega
    simp [h2]

/-- Every returned message that is at least a header long has exactly the length its own
header announces. -/
theorem Server.extractMessage_frame_length (fuel : Nat) :
    ∀ (b : Bytes) (F : List Bytes) (R : Bytes), Server.extractMessage fuel b = some (F, R) →
      ∀ f ∈ F, sizeofHeader ≤ f.length →
        f.length = sizeofHeader + (MessageHeader.read f 0).msg_len := by
  induction fuel with
  | zero => intro b F R h; simp [Server.extractMessage_zero] at h
  | succ n ih =>
    intro b F R h f hf hf8
    rw [Server.extractMessage_succ] at h
    by_cases h1 : b.length < sizeofHeader
    · simp only [h1, if_true, Option.some.injEq, Prod.mk.injEq] at h
      rw [← h.1] at hf; simp at hf
    · simp only [h1, if_false] at h
      by_cases h2 : (sizeofHeader + (MessageHeader.read b 0).msg_len) % 4294967296 ≤ b.length
      · simp only [h2, if_true] at h
        cases hrec : Server.extractMessage n
            (b.drop ((sizeofHeader + (MessageHeader.read b 0).msg_len) % 4294967296)) with
        | none => simp [hrec] at h
        | some q =>
          obtain ⟨F', R'⟩ := q
          simp only [hrec, Option.map_some', Option.some.injEq, Prod.mk.injEq] at h
          rw [← h.1] at hf
          rcases List.mem_cons.mp hf with hhead | htail
          · have hfl : f.length =
                (sizeofHeader + (MessageHeader.read b 0).msg_len) % 4294967296 := by
              rw [hhead, List.length_take]; omega
            have hrd : MessageHeader.read f 0 = MessageHeader.read b 0 := by
              have hb : b = f ++ b.drop
                  ((sizeofHeader + (MessageHeader.read b 0).msg_len) % 4294967296) := by
                rw [hhead, List.take_append_drop]
              conv_rhs => rw [hb]
              rw [MessageHeader.read_append]
              simp only [sizeofHeader] at hf8; omega
            have hm := MessageHeader.read_msg_len_lt b 0
            rw [hrd]
            simp only [sizeofHeader] at hfl hf8 ⊢
            omega
          · exact ih _ _ _ hrec f htail hf8
      · simp only [h2, if_false, Option.some.injEq, Prod.mk.injEq] at h
        rw [← h.1] at hf; simp at hf

/-! ### The framing claims at the wrap-around -/

/-- C1 (framing round-trip) at its failing input: the single frame whose payload has
`2^32 - 8` bytes and whose header carries `msg_len` equal to that payload length is `2^32`
bytes long, and `Server::extractMessage` on a receive buffer holding exactly that frame never
returns, whatever the number of loop iterations allowed; the frame is not given back. -/
theorem Server.framing_roundtrip_wrap :
    MessageHeader.InRange { msg_type := 1, reserved := 0, msg_len := 4294967288 } ∧
    (List.replicate 4294967288 (0 : Byte)).length = 4294967288 ∧
    (frameBytes { msg_type := 1, reserved := 0, msg_len := 4294967288 }
        (List.replicate 4294967288 0)).length = 4294967296 ∧
    ∀ fuel, Server.extractMessage fuel
      (frameBytes { msg_type := 1, reserved := 0, msg_len := 4294967288 }
        (List.replicate 4294967288 0)) = none :=
  ⟨by decide, List.length_replicate _ _,
   by rw [frameBytes_length, List.length_replicate],
   Server.extractMessage_wrap_zero_frame _ (List.length_replicate _ _)⟩

/-- C3 (partial-frame stability) at its failing input: the nine bytes
`01 00 00 00 ff ff ff ff 00` are a strict prefix, cut inside the payload, of the frame with
`msg_len = 2^32 - 1` and an all-zero payload of that length, yet `Server::extractMessage` on
a buffer holding only these bytes returns one message, the first seven bytes, and leaves two
bytes in the buffer. -/
theorem Server.partial_frame_wrap :
    (List.replicate 4294967295 (0 : Byte)).length = 4294967295 ∧
    (frameBytes { msg_type := 1, reserved := 0, msg_len := 4294967295 }
        (List.replicate 4294967295 0)).take 9 = [1, 0, 0, 0, 255, 255, 255, 255, 0] ∧
    9 < (frameBytes { msg_type := 1, reserved := 0, msg_len := 4294967295 }
        (List.replicate 4294967295 0)).length ∧
    ∀ fuel, Server.extractMessage (2 + fuel) [1, 0, 0, 0, 255, 255, 255, 255, 0] =
      some ([[1, 0, 0, 0, 255, 255, 255]], [255, 0]) := by
  refine ⟨List.length_replicate _ _, ?_, ?_,
    fun fuel => Server.extractMessage_mono_le 2 fuel _ _ (by decide)⟩
  · rw [frameBytes, List.take_append_eq_append_take, MessageHeader.write_length,
      List.take_replicate]
    decide
  · rw [frameBytes_length, List.length_replicate]; omega

/-- C4 (frame length) at its failing input: on the nine-byte buffer
`05 00 00 00 fa ff ff ff 09`, whose header carries `msg_len = 2^32 - 6`,
`Server::extractMessage` returns one message of two bytes: shorter than a header, and not of
length `8 + msg_len`. -/
theorem Server.frame_length_wrap :
    (MessageHeader.read [5, 0, 0, 0, 250, 255, 255, 255, 9] 0).msg_len = 4294967290 ∧
    ∀ fuel, Server.extractMessage (2 + fuel) [5, 0, 0, 0, 250, 255, 255, 255, 9] =
      some ([[5, 0]], [0, 0, 250, 255, 255, 255, 9]) :=
  ⟨by decide, fun fuel => Server.extractMessage_mono_le 2 fuel _ _ (by decide)⟩

/-! ## Lemmas on the registry -/

theorem lookup_map_self {β : Type} (key : Int) (f : β → β) (l : List (Int × β)) :
    lookup key (l.map fun e => if e.1 = key then (e.1, f e.2) else e) =
      (lookup key l).map f := by
  induction l with
  | nil => rfl
  | cons e es ih =>
    by_cases h : e.1 = key
    · simp [lookup, h]
    · simpa [lookup, h] using ih

theorem lookup_map_ne {β : Type} (key k : Int) (g : Int × β → β) (l : List (Int × β))
    (hk : k ≠ key) :
    lookup k (l.map fun e => if e.1 = key then (e.1, g e) else e) = lookup k l := by
  induction l with
  | nil => rfl
  | cons e es ih =>
    obtain ⟨ke, ce⟩ := e
    by_cases h : ke = key
    · have hne : ¬ ke = k := fun h2 => hk (h2.symm.trans h)
      simp only [List.map_cons, lookup, h, if_true]
      rw [if_neg (fun h2 => hk h2.symm), if_neg (fun h2 => hk h2.symm)]
      exact ih
    · simp only [List.map_cons, lookup, h, if_false]
      rw [ih]

theorem lookup_filter_self {β : Type} (key : Int) (l : List (Int × β)) :
    lookup key (l.filter fun e => e.1 ≠ key) = none := by
  induction l with
  | nil => rfl
  | cons e es ih =>
    by_cases h : e.1 = key
    · simpa [List.filter_cons, h] using ih
    · simpa [List.filter_cons, lookup, h] using ih

theorem lookup_filter_ne {β : Type} (key k : Int) (l : List (Int × β)) (hk : k ≠ key) :
    lookup k (l.filter fun e => e.1 ≠ key) = lookup k l := by
  induction l with
  | nil => rfl
  | cons e es ih =>
    obtain ⟨ke, ce⟩ := e
    by_cases h : ke = key
    · have hne : ¬ ke = k := fun h2 => hk (h2.symm.trans h)
      rw [List.filter_cons_of_neg (by simp [h])]
      simp only [lookup]
      rw [if_neg hne]
      exact ih
    · rw [List.filter_cons_of_pos (by simp [h])]
      simp only [lookup]
      rw [ih]

theorem lookup_mem {β : Type} (key : Int) (l : List (Int × β)) (c : β)
    (h : lookup key l = some c) : (key, c) ∈ l := by
  induction l with
  | nil => simp [lookup] at h
  | cons e es ih =>
    by_cases h1 : e.1 = key
    · simp only [lookup, h1, if_true, Option.some.injEq] at h
      obtain ⟨k, c'⟩ := e
      simp only at h1 h
      subst h1 h
      exact List.mem_cons_self _ _
    · simp only [lookup, h1, if_false] at h
      exact List.mem_cons_of_mem _ (ih h)

theorem filter_absent {β : Type} (key : Int) (l : List (Int × β))
    (h : ∀ e ∈ l, e.1 ≠ key) : (l.filter fun e => e.1 ≠ key) = l := by
  apply List.filter_eq_self.mpr
  intro e he
  simpa using h e he

theorem Server.find?_update_self (s : Server) (key : Int) (f : Server.Client → Server.Client) :
    (s.update key f).find? key = (s.find? key).map f :=
  lookup_map_self key f s.clients_

theorem Server.find?_update_ne (s : Server) (key k : Int) (f : Server.Client → Server.Client)
    (hk : k ≠ key) : (s.update key f).find? k = s.find? k :=
  lookup_map_ne key k (fun e => f e.2) s.clients_ hk

theorem Server.keys_update (s : Server) (key : Int) (f : Server.Client → Server.Client) :
    (s.update key f).clients_.map Prod.fst = s.clients_.map Prod.fst := by
  simp only [Server.update, List.map_map]
  apply List.map_congr_left
  intro e _
  by_cases h : e.1 = key <;> simp [h]

theorem Server.find?_erase_self (s : Server) (key : Int) : (s.erase key).find? key = none :=
  lookup_filter_self key s.clients_

theorem Server.find?_erase_ne (s : Server) (key k : Int) (hk : k ≠ key) :
    (s.erase key).find? k = s.find? k :=
  lookup_filter_ne key k s.clients_ hk

theorem Server.mem_of_find? (s : Server) (key : Int) (c : Server.Client)
    (h : s.find? key = some c) : (key, c) ∈ s.clients_ :=
  lookup_mem key s.clients_ c h

/-! ## The handlers through a reference that refers to a stored element, and through one
that dangles -/

theorem Server.echoMsg_registered (s : Server) (A : Int) (c : Server.Client) (message : Bytes)
    (hA : s.find? A = some c) :
    s.echoMsg A message =
      { clients_ := (s.update A fun c0 =>
          { c0 with send_queue := c0.send_queue ++ [message] }).clients_
        os := Epoll.modify s.os c.fd.getFD (EPOLLIN ||| EPOLLOUT)
        useAfterErase := s.useAfterErase } := by
  simp only [Server.echoMsg, hA]
  rfl

theorem Server.echoMsg_dangling (s : Server) (A : Int) (message : Bytes)
    (hA : s.find? A = none) :
    s.echoMsg A message = { s with useAfterErase := true } := by
  simp only [Server.echoMsg, hA]

theorem Server.broadcast_registered (s : Server) (A : Int) (c : Server.Client)
    (message : Bytes) (hA : s.find? A = some c) :
    s.broadcast A message =
      { clients_ := (Server.broadcastLoop c.fd.getFD message s.clients_ s.os).1
        os := (Server.broadcastLoop c.fd.getFD message s.clients_ s.os).2
        useAfterErase := s.useAfterErase } := by
  simp only [Server.broadcast, hA]

theorem Server.broadcast_dangling (s : Server) (A : Int) (message : Bytes)
    (hA : s.find? A = none) :
    s.broadcast A message =
      { clients_ := (Server.broadcastLoop (-1) message s.clients_ s.os).1
        os := (Server.broadcastLoop (-1) message s.clients_ s.os).2
        useAfterErase := s.useAfterErase || !s.clients_.isEmpty } := by
  simp only [Server.broadcast, hA]

/-! ## The dispatch claims -/

/-- C9 (unsupported types): for every server state, every client reference and every message
whose header `msg_type` is none of `ECHO_MSG` (1), `GROUP_MSG` (5), `LOGOUT` (3),
`Server::handleMessage` returns the state it was given: the registry with every receive
buffer, descriptor and send queue, the epoll interest list and the list of closed descriptors
are all unchanged. -/
theorem Server.handleMessage_unsupported (s : Server) (client : Int) (message : Bytes)
    (h1 : (MessageHeader.read message 0).msg_type ≠ MsgType.ECHO_MSG)
    (h5 : (MessageHeader.read message 0).msg_type ≠ MsgType.GROUP_MSG)
    (h3 : (MessageHeader.read message 0).msg_type ≠ MsgType.LOGOUT) :
    s.handleMessage client message = s := by
  simp [Server.handleMessage, h1, h5, h3]

/-- C9 at a `PRIVATE_MSG` message in a registry of two connections. -/
theorem Server.handleMessage_unsupported_witness :
    Server.handleMessage
        { clients_ := [(7, ⟨[], ⟨7⟩, [[1]]⟩), (8, ⟨[2], ⟨8⟩, []⟩)],
          os := ⟨[(3, 1), (7, 5), (8, 1)], []⟩ } 7 [4, 0, 0, 0, 1, 0, 0, 0, 9] =
      { clients_ := [(7, ⟨[], ⟨7⟩, [[1]]⟩), (8, ⟨[2], ⟨8⟩, []⟩)],
        os := ⟨[(3, 1), (7, 5), (8, 1)], []⟩ } :=
  Server.handleMessage_unsupported
    { clients_ := [(7, ⟨[], ⟨7⟩, [[1]]⟩), (8, ⟨[2], ⟨8⟩, []⟩)],
      os := ⟨[(3, 1), (7, 5), (8, 1)], []⟩ } 7 [4, 0, 0, 0, 1, 0, 0, 0, 9]
    (by decide) (by decide) (by decide)

/-- C6 (echo): for a registered connection `A` and a message whose header `msg_type` is
`ECHO_MSG`, `Server::handleMessage` leaves the registered keys as they are, leaves the
entry of every other key as it is, and changes the entry of `A` only by appending the
message, unaltered, at the back of its send queue. -/
theorem Server.handleMessage_echo (s : Server) (A : Int) (cA : Server.Client) (message : Bytes)
    (hA : s.find? A = some cA)
    (htype : (MessageHeader.read message 0).msg_type = MsgType.ECHO_MSG) :
    (s.handleMessage A message).clients_.map Prod.fst = s.clients_.map Prod.fst ∧
    (s.handleMessage A message).find? A =
      some { cA with send_queue := cA.send_queue ++ [message] } ∧
    ∀ k, k ≠ A → (s.handleMessage A message).find? k = s.find? k := by
  have hm : s.handleMessage A message = s.echoMsg A message := by
    simp [Server.handleMessage, htype]
  rw [hm, Server.echoMsg_registered s A cA message hA]
  refine ⟨Server.keys_update s A
    (fun c => { c with send_queue := c.send_queue ++ [message] }), ?_, fun k hk => ?_⟩
  · have h1 := Server.find?_update_self s A
      fun c => { c with send_queue := c.send_queue ++ [message] }
    rw [hA] at h1
    exact h1
  · exact Server.find?_update_ne s A k
      (fun c => { c with send_queue := c.send_queue ++ [message] }) hk

/-- C6 at an `ECHO_MSG` message with a non-zero `reserved` field. -/
theorem Server.handleMessage_echo_witness :
    (Server.handleMessage
        { clients_ := [(7, ⟨[], ⟨7⟩, [[1]]⟩), (8, ⟨[2], ⟨8⟩, []⟩)],
          os := ⟨[(3, 1), (7, 1), (8, 1)], []⟩ } 7 [1, 0, 3, 0, 1, 0, 0, 0, 9]).find? 7 =
      some ⟨[], ⟨7⟩, [[1], [1, 0, 3, 0, 1, 0, 0, 0, 9]]⟩ :=
  (Server.handleMessage_echo
    { clients_ := [(7, ⟨[], ⟨7⟩, [[1]]⟩), (8, ⟨[2], ⟨8⟩, []⟩)],
      os := ⟨[(3, 1), (7, 1), (8, 1)], []⟩ } 7 ⟨[], ⟨7⟩, [[1]]⟩ [1, 0, 3, 0, 1, 0, 0, 0, 9]
    (by decide) (by decide)).2.1

/-! ### Broadcast -/

theorem Server.broadcastLoop_keys (senderFD : Int) (message : Bytes) :
    ∀ (l : List (Int × Server.Client)) (os : Kernel),
      (Server.broadcastLoop senderFD message l os).1.map Prod.fst = l.map Prod.fst := by
  intro l
  induction l with
  | nil => intro os; rfl
  | cons e es ih =>
    intro os
    obtain ⟨ke, ce⟩ := e
    by_cases h : ke = senderFD
    · simp only [Server.broadcastLoop, h, ne_eq, not_true_eq_false, if_false, List.map_cons, ih]
    · simp only [Server.broadcastLoop, h, ne_eq, not_false_eq_true, if_true, List.map_cons, ih]

theorem Server.broadcastLoop_lookup_ne (senderFD : Int) (message : Bytes) (k : Int)
    (hk : k ≠ senderFD) :
    ∀ (l : List (Int × Server.Client)) (os : Kernel),
      lookup k (Server.broadcastLoop senderFD message l os).1 =
        (lookup k l).map fun c => { c with send_queue := c.send_queue ++ [message] } := by
  intro l
  induction l with
  | nil => intro os; rfl
  | cons e es ih =>
    intro os
    obtain ⟨ke, ce⟩ := e
    by_cases h : ke = senderFD
    · have hne : ¬ ke = k := fun h2 => hk (h2.symm.trans h)
      simp only [Server.broadcastLoop, h, ne_eq, not_true_eq_false, if_false, lookup]
      rw [if_neg (fun h2 => hk h2.symm), if_neg (fun h2 => hk h2.symm)]
      exact ih os
    · simp only [Server.broadcastLoop, h, ne_eq, not_false_eq_true, if_true, lookup]
      by_cases h2 : ke = k
      · simp [h2]
      · simp only [h2, if_false]
        exact ih _

theorem Server.broadcastLoop_lookup_self (senderFD : Int) (message : Bytes) :
    ∀ (l : List (Int × Server.Client)) (os : Kernel),
      lookup senderFD (Server.broadcastLoop senderFD message l os).1 = lookup senderFD l := by
  intro l
  induction l with
  | nil => intro os; rfl
  | cons e es ih =>
    intro os
    obtain ⟨ke, ce⟩ := e
    by_cases h : ke = senderFD
    · simp only [Server.broadcastLoop, h, ne_eq, not_true_eq_false, if_false, lookup, if_true]
    · simp only [Server.broadcastLoop, h, ne_eq, not_false_eq_true, if_true, lookup, if_false]
      exact ih _

/-- The number of `push` calls of the loop is the number of elements whose key differs from
the descriptor of the sender. -/
theorem Server.broadcastLoop_total (senderFD : Int) (message : Bytes) :
    ∀ (l : List (Int × Server.Client)) (os : Kernel),
      ((Server.broadcastLoop senderFD message l os).1.map fun e => e.2.send_queue.length).sum =
        (l.map fun e => e.2.send_queue.length).sum
          + (l.filter fun e => e.1 ≠ senderFD).length := by
  intro l
  induction l with
  | nil => intro os; rfl
  | cons e es ih =>
    intro os
    obtain ⟨ke, ce⟩ := e
    by_cases h : ke = senderFD
    · rw [List.filter_cons_of_neg (by simp [h])]
      simp only [Server.broadcastLoop, h, ne_eq, not_true_eq_false, if_false, List.map_cons,
        List.sum_cons, ih]
      omega
    · rw [List.filter_cons_of_pos (by simp [h])]
      simp only [Server.broadcastLoop, h, ne_eq, not_false_eq_true, if_true, List.map_cons,
        List.sum_cons, ih, List.length_append, List.length_cons, List.length_nil]
      omega

/-- In a map with distinct keys, all elements but one have a key other than a stored key. -/
theorem others_length {β : Type} (key : Int) (c : β) :
    ∀ (l : List (Int × β)), (l.map Prod.fst).Nodup → (key, c) ∈ l →
      (l.filter fun e => e.1 ≠ key).length = l.length - 1 := by
  intro l
  induction l with
  | nil => intro _ h; simp at h
  | cons e es ih =>
    intro hnd hmem
    obtain ⟨ke, ce⟩ := e
    simp only [List.map_cons, List.nodup_cons, List.mem_map, not_exists, not_and] at hnd
    by_cases h : ke = key
    · rw [List.filter_cons_of_neg (by simp [h])]
      rw [filter_absent key es (fun x hx hxk => hnd.1 x hx (hxk.trans h.symm))]
      simp
    · rw [List.filter_cons_of_pos (by simp [h])]
      have hm : (key, c) ∈ es := by
        rcases List.mem_cons.mp hmem with h1 | h1
        · exact absurd (congrArg Prod.fst h1).symm h
        · exact h1
      have hpos : 0 < es.length := List.length_pos_of_mem hm
      simp only [List.length_cons, ih hnd.2 hm]
      omega

/-- C5 (broadcast exclusion): in a registry with distinct keys in which the key of each
entry equals the descriptor of its socket, for a registered sender `A` and a message whose
header `msg_type` is `GROUP_MSG`, `Server::handleMessage` keeps the registered keys, leaves
the entry of `A` (and so its send queue) unchanged, appends one copy of the message at the
back of the send queue of every other registered connection and changes nothing else in
that entry, and the total number of queued elements grows by the number `N` of other
registered connections, the registry size minus one. -/
theorem Server.handleMessage_broadcast (s : Server) (A : Int) (cA : Server.Client)
    (message : Bytes)
    (hkeys : (s.clients_.map Prod.fst).Nodup)
    (hinv : ∀ e ∈ s.clients_, e.2.fd.getFD = e.1)
    (hA : s.find? A = some cA)
    (htype : (MessageHeader.read message 0).msg_type = MsgType.GROUP_MSG) :
    (s.handleMessage A message).clients_.map Prod.fst = s.clients_.map Prod.fst ∧
    (s.handleMessage A message).find? A = some cA ∧
    (∀ k c, k ≠ A → s.find? k = some c →
      (s.handleMessage A message).find? k =
        some { c with send_queue := c.send_queue ++ [message] }) ∧
    ((s.handleMessage A message).clients_.map fun e => e.2.send_queue.length).sum =
      (s.clients_.map fun e => e.2.send_queue.length).sum + (s.clients_.length - 1) := by
  have hm : s.handleMessage A message = s.broadcast A message := by
    simp [Server.handleMessage, htype, MsgType.GROUP_MSG, MsgType.ECHO_MSG]
  have hmem := Server.mem_of_find? s A cA hA
  have hfd : cA.fd.getFD = A := hinv _ hmem
  rw [hm, Server.broadcast_registered s A cA message hA]
  simp only [Server.find?, hfd]
  refine ⟨Server.broadcastLoop_keys _ _ _ _, ?_, ?_, ?_⟩
  · rw [Server.broadcastLoop_lookup_self]; exact hA
  · intro k c hk hc
    rw [Server.broadcastLoop_lookup_ne _ _ _ hk, hc]; rfl
  · rw [Server.broadcastLoop_total, others_length A cA _ hkeys hmem]

/-- C5 at a registry of three connections: two enqueues. -/
theorem Server.handleMessage_broadcast_witness :
    ((Server.handleMessage
        { clients_ := [(7, ⟨[], ⟨7⟩, [[1]]⟩), (8, ⟨[2], ⟨8⟩, []⟩), (9, ⟨[], ⟨9⟩, [[4]]⟩)],
          os := ⟨[(3, 1), (7, 5), (8, 1), (9, 5)], []⟩ } 7
        [5, 0, 0, 0, 1, 0, 0, 0, 9]).clients_.map fun e => e.2.send_queue.length).sum =
      2 + 2 :=
  (Server.handleMessage_broadcast
    { clients_ := [(7, ⟨[], ⟨7⟩, [[1]]⟩), (8, ⟨[2], ⟨8⟩, []⟩), (9, ⟨[], ⟨9⟩, [[4]]⟩)],
      os := ⟨[(3, 1), (7, 5), (8, 1), (9, 5)], []⟩ } 7 ⟨[], ⟨7⟩, [[1]]⟩
    [5, 0, 0, 0, 1, 0, 0, 0, 9] (by decide) (by decide) (by decide) (by decide)).2.2.2

/-! ### Logout -/

theorem Socket.close_fst (fd : Int) (os : Kernel) :
    (Socket.close { socket_fd_ := fd } os).1 = { socket_fd_ := -1 } := by
  by_cases h : fd = -1
  · simp [Socket.close, h]
  · simp [Socket.close, h]

theorem Socket.close_snd (fd : Int) (os : Kernel) :
    (Socket.close { socket_fd_ := fd } os).2 = if fd ≠ -1 then os.close fd else os := by
  by_cases h : fd = -1
  · simp [Socket.close, h]
  · simp [Socket.close, h]

theorem filter_map_key {β : Type} (key : Int) (f : β → β) (l : List (Int × β)) :
    ((l.map fun e => if e.1 = key then (e.1, f e.2) else e).filter fun e => e.1 ≠ key) =
      l.filter fun e => e.1 ≠ key := by
  induction l with
  | nil => rfl
  | cons e es ih =>
    obtain ⟨ke, ce⟩ := e
    by_cases h : ke = key
    · simp only [List.map_cons, h, if_true]
      rw [List.filter_cons_of_neg (by simp), List.filter_cons_of_neg (by simp), ih]
    · simp only [List.map_cons, h, if_false]
      rw [List.filter_cons_of_pos (by simp [h]), List.filter_cons_of_pos (by simp [h]), ih]

/-- Through a reference that dangles `Server::userLogout` only uses the erased element. -/
theorem Server.userLogout_dangling (s : Server) (client : Int)
    (h : s.find? client = none) :
    s.userLogout client = { s with useAfterErase := true } := by
  simp only [Server.userLogout, h]

/-- Logout of a registered connection whose key is its descriptor: `epoll_.remove` takes the
descriptor off the interest list, `clients_.erase` destroys the element, and the `close` that
follows is a use after erase, followed as `::close` on the descriptor. -/
theorem Server.userLogout_registered (s : Server) (A : Int) (cA : Server.Client)
    (hA : s.find? A = some cA) (hfd : cA.fd.getFD = A) :
    s.userLogout A =
      { clients_ := s.clients_.filter fun e => e.1 ≠ A
        os := if A ≠ -1 then (Epoll.remove s.os A).close A else Epoll.remove s.os A
        useAfterErase := true } := by
  have h2 : (Server.erase (Server.mk s.clients_ (Epoll.remove s.os A) s.useAfterErase)
      A).find? A = none := Server.find?_erase_self _ A
  have hs : cA.fd = { socket_fd_ := A } := by
    cases hcf : cA.fd with
    | mk v => simp only [Socket.getFD, hcf] at hfd; rw [hfd]
  simp only [Server.userLogout, hA, hs, Socket.getFD, h2, Socket.close_snd]
  rfl

/-- What the logout of a registered connection whose key is its descriptor leaves behind. -/
theorem Server.userLogout_registered_facts (s : Server) (A : Int) (cA : Server.Client)
    (hA : s.find? A = some cA) (hfd : cA.fd.getFD = A) :
    (s.userLogout A).useAfterErase = true ∧
    (s.userLogout A).clients_ = (s.clients_.filter fun e => e.1 ≠ A) ∧
    (s.userLogout A).find? A = none ∧
    (∀ k, k ≠ A → (s.userLogout A).find? k = s.find? k) ∧
    ∀ k, k ≠ A → (s.userLogout A).os.events k = s.os.events k := by
  rw [Server.userLogout_registered s A cA hA hfd]
  refine ⟨rfl, rfl, lookup_filter_self A _, fun k hk => lookup_filter_ne A k _ hk,
    fun k hk => ?_⟩
  by_cases hA1 : A = -1
  · simp [hA1, Epoll.remove]
  · simp only [ne_eq, hA1, not_false_eq_true, if_true, Epoll.remove, if_false, Kernel.close,
      Kernel.events]
    rw [lookup_filter_ne A k _ hk, lookup_filter_ne A k _ hk]

/-- C7 (logout) at its defect: the message built by `Client::sendLogout` is the eight bytes
of the header with `msg_type = LOGOUT` (3), `reserved = 0`, `msg_len = 0`; and when the
receive buffer of a registered connection `A`, whose key is its descriptor, holds that
message, extracting and handling it returns with the entry of `A` erased from the registry
and every other entry unchanged, but the endpoint is not closed by a defined statement:
`Server::userLogout` calls `client.fd.close()` after `clients_.erase` has destroyed the
element `client` refers to, a use after erase. -/
theorem Server.logout_uses_erased (fuel : Nat) (s : Server) (A : Int) (cA : Server.Client)
    (hA : s.find? A = some cA) (hfd : cA.fd.getFD = A)
    (hbuf : cA.recv_buf = Client.sendLogout_message) :
    Client.sendLogout_message =
      MessageHeader.write { msg_type := MsgType.LOGOUT, reserved := 0, msg_len := 0 } ∧
    Client.sendLogout_message = [3, 0, 0, 0, 0, 0, 0, 0] ∧
    ∃ s1, Server.extractAndHandle (2 + fuel) s A = some s1 ∧
      s1.useAfterErase = true ∧
      s1.find? A = none ∧
      s1.clients_ = (s.clients_.filter fun e => e.1 ≠ A) ∧
      ∀ k, k ≠ A → s1.find? k = s.find? k := by
  refine ⟨by decide, by decide, ?_⟩
  have hext : Server.extractMessage (2 + fuel) Client.sendLogout_message =
      some ([Client.sendLogout_message], []) :=
    Server.extractMessage_mono_le 2 fuel _ _ (by decide)
  have htype : (MessageHeader.read Client.sendLogout_message 0).msg_type = MsgType.LOGOUT := by
    decide
  have hA0 : (s.update A fun c => { c with recv_buf := [] }).find? A =
      some { cA with recv_buf := [] } := by
    rw [Server.find?_update_self, hA]; rfl
  obtain ⟨e0, e1, e2, e3, _⟩ := Server.userLogout_registered_facts _ A _ hA0 hfd
  refine ⟨(s.update A fun c => { c with recv_buf := [] }).userLogout A, ?_, e0, e2, ?_, ?_⟩
  · simp only [Server.extractAndHandle, hA, hbuf, hext, List.foldl_cons, List.foldl_nil,
      Server.handleMessage, htype]
    simp [MsgType.LOGOUT, MsgType.ECHO_MSG, MsgType.GROUP_MSG]
  · rw [e1]
    exact filter_map_key A (fun c => { c with recv_buf := [] }) s.clients_
  · intro k hk
    rw [e3 k hk]
    exact Server.find?_update_ne s A k _ hk

/-- C7 at a registry of two connections. -/
theorem Server.logout_uses_erased_witness :
    ∃ s1, Server.extractAndHandle 2
        { clients_ := [(7, ⟨[3, 0, 0, 0, 0, 0, 0, 0], ⟨7⟩, [[1]]⟩), (8, ⟨[2], ⟨8⟩, []⟩)],
          os := ⟨[(3, 1), (7, 5), (8, 1)], []⟩ } 7 = some s1 ∧
      s1.useAfterErase = true ∧ s1.clients_ = [(8, ⟨[2], ⟨8⟩, []⟩)] :=
  have h := Server.logout_uses_erased 0
    { clients_ := [(7, ⟨[3, 0, 0, 0, 0, 0, 0, 0], ⟨7⟩, [[1]]⟩), (8, ⟨[2], ⟨8⟩, []⟩)],
      os := ⟨[(3, 1), (7, 5), (8, 1)], []⟩ } 7 ⟨[3, 0, 0, 0, 0, 0, 0, 0], ⟨7⟩, [[1]]⟩
    (by decide) (by decide) (by decide)
  match h.2.2 with
  | ⟨s1, h1, h2, _, h4, _⟩ => ⟨s1, h1, h2, h4⟩

/-- C8 (logout idempotence) at its defect: for a registered connection `A` whose key is its
descriptor, the first run of `Server::userLogout` ends in a use of the element it has just
erased, and it leaves the reference dangling: no element is stored under `A`. A second run
through the same reference reads `client.fd` in the destroyed element from its first
statement on, as does every run through a reference that dangles: what it removes, erases
and closes is not determined by the program. -/
theorem Server.second_logout_uses_erased (s : Server) (A : Int) (cA : Server.Client)
    (hA : s.find? A = some cA) (hfd : cA.fd.getFD = A) :
    (s.userLogout A).useAfterErase = true ∧
    (s.userLogout A).find? A = none ∧
    ((s.userLogout A).userLogout A).useAfterErase = true ∧
    ∀ t : Server, t.find? A = none → (t.userLogout A).useAfterErase = true := by
  obtain ⟨e0, _, e2, _, _⟩ := Server.userLogout_registered_facts s A cA hA hfd
  have hd : ∀ t : Server, t.find? A = none → (t.userLogout A).useAfterErase = true := by
    intro t ht
    rw [Server.userLogout_dangling t A ht]
  exact ⟨e0, e2, hd _ e2, hd⟩

/-- C8 at a registry of two connections, and at one read that delivers two `LOGOUT` frames
for connection 7. -/
theorem Server.second_logout_uses_erased_witness :
    (Server.userLogout
        { clients_ := [(7, ⟨[], ⟨7⟩, [[1]]⟩), (8, ⟨[2], ⟨8⟩, []⟩)],
          os := ⟨[(3, 1), (7, 5), (8, 1)], []⟩ } 7).find? 7 = none ∧
    (Server.userLogout (Server.userLogout
        { clients_ := [(7, ⟨[], ⟨7⟩, [[1]]⟩), (8, ⟨[2], ⟨8⟩, []⟩)],
          os := ⟨[(3, 1), (7, 5), (8, 1)], []⟩ } 7) 7).useAfterErase = true ∧
    (Server.handleClientEvent 3 1024
        { clients_ := [(7, ⟨[], ⟨7⟩, [[1]]⟩), (8, ⟨[2], ⟨8⟩, []⟩)],
          os := ⟨[(3, 1), (7, 5), (8, 1)], []⟩ } 7 1
        [.data [3, 0, 0, 0, 0, 0, 0, 0, 3, 0, 0, 0, 0, 0, 0, 0], .eagain] []).isSome = true :=
  ⟨(Server.second_logout_uses_erased
      { clients_ := [(7, ⟨[], ⟨7⟩, [[1]]⟩), (8, ⟨[2], ⟨8⟩, []⟩)],
        os := ⟨[(3, 1), (7, 5), (8, 1)], []⟩ } 7 ⟨[], ⟨7⟩, [[1]]⟩
      (by decide) (by decide)).2.1,
   (Server.second_logout_uses_erased
      { clients_ := [(7, ⟨[], ⟨7⟩, [[1]]⟩), (8, ⟨[2], ⟨8⟩, []⟩)],
        os := ⟨[(3, 1), (7, 5), (8, 1)], []⟩ } 7 ⟨[], ⟨7⟩, [[1]]⟩
      (by decide) (by decide)).2.2.1,
   by decide⟩

/-! ### Draining the send queue -/

/-- One iteration of the `sendBuf` loop whose `send` call came back with status `0` and a
non-empty `not_send`: the front element becomes `not_send` and the loop goes on. -/
theorem Server.sendBuf_step_remainder (fuel : Nat) (client : Server.Client)
    (front : Bytes) (rest : List Bytes) (script : List SendCall) (r : SendResult)
    (not_send : Bytes)
    (hq : client.send_queue = front :: rest)
    (hs : Socket.send front [] script = some r)
    (ho : r.outcome = .returned (0, not_send))
    (hne : not_send ≠ []) :
    Server.sendBuf (fuel + 1) client script =
      (Server.sendBuf fuel { client with send_queue := not_send :: rest } r.script).map
        fun q => { q with taken := r.taken ++ q.taken } := by
  cases not_send with
  | nil => exact absurd rfl hne
  | cons b bs =>
    rw [Server.sendBuf]
    simp only [hq, hs, ho]
    simp

/-- A `sendBuf` call that returns `0` leaves the queue empty. -/
theorem Server.sendBuf_zero_empty (fuel : Nat) :
    ∀ (client : Server.Client) (script : List SendCall) (q : SendBufResult),
      Server.sendBuf fuel client script = some q → q.outcome = .returned 0 →
      q.client.send_queue = [] := by
  induction fuel with
  | zero => intro client script q h; simp [Server.sendBuf] at h
  | succ n ih =>
    intro client script q h h0
    rw [Server.sendBuf] at h
    cases hq : client.send_queue with
    | nil =>
      simp only [hq, Option.some.injEq] at h
      rw [← h]; exact hq
    | cons front rest =>
      simp only [hq] at h
      cases hs : Socket.send front [] script with
      | none => simp [hs] at h
      | some r =>
        simp only [hs] at h
        cases ho : r.outcome with
        | raised =>
          simp only [ho, Option.some.injEq] at h
          rw [← h] at h0; simp at h0
        | returned a =>
          obtain ⟨send_res, not_send⟩ := a
          simp only [ho] at h
          by_cases hneg : send_res < 0
          · simp only [hneg, if_true, Option.some.injEq] at h
            rw [← h] at h0
            simp only [Outcome.returned.injEq] at h0
            omega
          · simp only [hneg, if_false, Option.map_eq_some'] at h
            obtain ⟨q1, hq1, hq2⟩ := h
            rw [← hq2]
            rw [← hq2] at h0
            exact ih _ _ q1 hq1 h0

/-- C10 as stated fails: with the queue `[[1, 2], [3]]` and a system that takes one byte,
then reports `EAGAIN`, then takes one byte per call, the first `Socket::send` on the front
element returns status `0` with the non-empty remainder `[2]`, yet `Server::sendBuf` does not
return with the queue `[[2], [3]]`: in the same call it sends the remainder and the next
element and returns `0` with an empty queue, all four system results used up. -/
theorem Server.sendBuf_does_not_stop :
    Socket.send [1, 2] [] [.accepted 1, .eagain, .accepted 1, .accepted 1] =
      some { outcome := .returned (0, [2]), taken := [1],
             script := [.accepted 1, .accepted 1] } ∧
    Server.sendBuf 4 { recv_buf := [], fd := ⟨7⟩, send_queue := [[1, 2], [3]] }
        [.accepted 1, .eagain, .accepted 1, .accepted 1] =
      some { outcome := .returned 0,
             client := { recv_buf := [], fd := ⟨7⟩, send_queue := [] },
             taken := [1, 2, 3], script := [] } ∧
    Server.sendBuf 4 { recv_buf := [], fd := ⟨7⟩, send_queue := [[1, 2], [3]] }
        [.accepted 1, .eagain, .accepted 1, .accepted 1] ≠
      some { outcome := .returned 0,
             client := { recv_buf := [], fd := ⟨7⟩, send_queue := [[2], [3]] },
             taken := [1], script := [.accepted 1, .accepted 1] } := by
  decide

/-- C10 amended: when `Socket::send` on the front element of a non-empty queue comes back
with status `0` and a non-empty remainder, `Server::sendBuf` replaces the front element with
that remainder, leaves the later elements untouched and goes on draining in the same call:
its result is that of the loop run on the queue `remainder :: rest` with the system results
that are left. A `sendBuf` call that returns `0` returns with an empty queue. -/
theorem Server.sendBuf_remainder (fuel : Nat) (client : Server.Client)
    (front : Bytes) (rest : List Bytes) (script : List SendCall) (r : SendResult)
    (not_send : Bytes)
    (hq : client.send_queue = front :: rest)
    (hs : Socket.send front [] script = some r)
    (ho : r.outcome = .returned (0, not_send))
    (hne : not_send ≠ []) :
    Server.sendBuf (fuel + 1) client script =
      ((Server.sendBuf fuel { client with send_queue := not_send :: rest } r.script).map
        fun q => { q with taken := r.taken ++ q.taken }) ∧
    ∀ q, Server.sendBuf (fuel + 1) client script = some q → q.outcome = .returned 0 →
      q.client.send_queue = [] :=
  ⟨Server.sendBuf_step_remainder fuel client front rest script r not_send hq hs ho hne,
   fun q h h0 => Server.sendBuf_zero_empty (fuel + 1) client script q h h0⟩

/-- C10 amended, at the queue and system results of the counterexample. -/
theorem Server.sendBuf_remainder_witness :
    Server.sendBuf 4 { recv_buf := [], fd := ⟨7⟩, send_queue := [[1, 2], [3]] }
        [.accepted 1, .eagain, .accepted 1, .accepted 1] =
      (Server.sendBuf 3 { recv_buf := [], fd := ⟨7⟩, send_queue := [[2], [3]] }
        [.accepted 1, .accepted 1]).map fun q => { q with taken := [1] ++ q.taken } :=
  (Server.sendBuf_remainder 3 { recv_buf := [], fd := ⟨7⟩, send_queue := [[1, 2], [3]] }
    [1, 2] [[3]] [.accepted 1, .eagain, .accepted 1, .accepted 1]
    { outcome := .returned (0, [2]), taken := [1], script := [.accepted 1, .accepted 1] }
    [2] rfl (by decide) rfl (by decide)).1

/-! ## `Socket::send` -/

/-- On a script without reset and failure the loop of `Socket::send` is left normally, with
`sent_len` between its start value and `send_len`. -/
theorem Socket.sendLoop_benign (send_len : Nat) :
    ∀ (script : List SendCall) (sent_len : Nat) (exit : SendLoopExit) (rest : List SendCall),
      SendCall.Benign script → sent_len ≤ send_len →
      Socket.sendLoop send_len script sent_len = some (exit, rest) →
      ∃ n, exit = .done n ∧ sent_len ≤ n ∧ n ≤ send_len ∧ SendCall.Benign rest ∧
        ∃ used, script = used ++ rest := by
  intro script
  induction script with
  | nil =>
    intro sent_len exit rest _ hle h
    simp only [Socket.sendLoop] at h
    split at h
    · simp at h
    · simp only [Option.some.injEq, Prod.mk.injEq] at h
      exact ⟨sent_len, h.1.symm, le_refl _, hle, by rw [← h.2]; intro c hc; simp at hc,
        [], by rw [← h.2]; rfl⟩
  | cons call script ih =>
    intro sent_len exit rest hb hle h
    have hb1 : SendCall.Benign script := fun c hc => hb c (List.mem_cons_of_mem _ hc)
    have hcall := hb call (List.mem_cons_self _ _)
    simp only [Socket.sendLoop] at h
    by_cases hlt : sent_len < send_len
    · simp only [hlt, if_true] at h
      cases call with
      | accepted n =>
        simp only at h
        obtain ⟨m, e1, e2, e3, e4, used, e5⟩ := ih _ exit rest hb1 (by omega) h
        exact ⟨m, e1, by omega, e3, e4, .accepted n :: used, by rw [e5]; rfl⟩
      | eagain =>
        simp only [Option.some.injEq, Prod.mk.injEq] at h
        exact ⟨sent_len, h.1.symm, le_refl _, hle, by rw [← h.2]; exact hb1,
          [.eagain], by rw [← h.2]; rfl⟩
      | eintr =>
        simp only at h
        obtain ⟨m, e1, e2, e3, e4, used, e5⟩ := ih _ exit rest hb1 hle h
        exact ⟨m, e1, e2, e3, e4, .eintr :: used, by rw [e5]; rfl⟩
      | reset => exact absurd rfl hcall.1
      | failed => exact absurd rfl hcall.2
    · simp only [hlt, if_false, Option.some.injEq, Prod.mk.injEq] at h
      exact ⟨sent_len, h.1.symm, le_refl _, hle, by rw [← h.2]; exact hb,
        [], by rw [← h.2]; rfl⟩

theorem take_drop_split (l : Bytes) (a m n : Nat) (h : a + m ≤ n) :
    (l.drop a).take m ++ (l.take n).drop (a + m) = (l.take n).drop a := by
  have e1 : (l.take n).drop (a + m) = ((l.take n).drop a).drop m := by
    rw [List.drop_drop, Nat.add_comm]
  have e2 : (l.drop a).take m = ((l.take n).drop a).take m := by
    rw [List.drop_take, List.take_take, Nat.min_eq_left (by omega)]
  rw [e1, e2, List.take_append_drop]

/-- The loop of `Socket::send` never lowers `sent_len`. -/
theorem Socket.sendLoop_ge (send_len : Nat) :
    ∀ (script : List SendCall) (sent_len n : Nat) (rest : List SendCall),
      Socket.sendLoop send_len script sent_len = some (.done n, rest) → sent_len ≤ n := by
  intro script
  induction script with
  | nil =>
    intro sent_len n rest h
    simp only [Socket.sendLoop] at h
    split at h
    · simp at h
    · simp only [Option.some.injEq, Prod.mk.injEq, SendLoopExit.done.injEq] at h
      omega
  | cons call script ih =>
    intro sent_len n rest h
    simp only [Socket.sendLoop] at h
    by_cases hlt : sent_len < send_len
    · simp only [hlt, if_true] at h
      cases call with
      | accepted k => have := ih _ n rest h; omega
      | eagain =>
        simp only [Option.some.injEq, Prod.mk.injEq, SendLoopExit.done.injEq] at h
        omega
      | eintr => exact ih _ n rest h
      | reset => simp at h
      | failed => simp at h
    · simp only [hlt, if_false, Option.some.injEq, Prod.mk.injEq, SendLoopExit.done.injEq] at h
      omega

/-- The bytes taken call by call are the bytes of the message between the start value and
the final value of `sent_len`. -/
theorem Socket.sendLoopTaken_eq (message : Bytes) :
    ∀ (script : List SendCall) (sent_len n : Nat) (rest : List SendCall),
      Socket.sendLoop message.length script sent_len = some (.done n, rest) →
      Socket.sendLoopTaken message script sent_len = (message.take n).drop sent_len := by
  intro script
  induction script with
  | nil =>
    intro sent_len n rest h
    simp only [Socket.sendLoop] at h
    split at h
    · simp at h
    · simp only [Option.some.injEq, Prod.mk.injEq, SendLoopExit.done.injEq] at h
      rw [← h.1]
      simp [Socket.sendLoopTaken]
  | cons call script ih =>
    intro sent_len n rest h
    simp only [Socket.sendLoop] at h
    by_cases hlt : sent_len < message.length
    · simp only [hlt, if_true] at h
      cases call with
      | accepted k =>
        simp only at h
        simp only [Socket.sendLoopTaken, hlt, if_true]
        rw [ih _ n rest h]
        exact take_drop_split message sent_len _ n (Socket.sendLoop_ge _ _ _ n rest h)
      | eagain =>
        simp only [Option.some.injEq, Prod.mk.injEq, SendLoopExit.done.injEq] at h
        rw [← h.1]
        simp [Socket.sendLoopTaken, hlt]
      | eintr =>
        simp only at h
        simp only [Socket.sendLoopTaken, hlt, if_true]
        exact ih _ n rest h
      | reset => simp at h
      | failed => simp at h
    · simp only [hlt, if_false, Option.some.injEq, Prod.mk.injEq, SendLoopExit.done.injEq] at h
      rw [← h.1]
      simp [Socket.sendLoopTaken, hlt]

/-- A script that ends with `EAGAIN` lets `Socket::send` return. -/
theorem Socket.sendLoop_returns (send_len : Nat) :
    ∀ (script : List SendCall) (sent_len : Nat),
      (Socket.sendLoop send_len (script ++ [.eagain]) sent_len).isSome = true := by
  intro script
  induction script with
  | nil =>
    intro sent_len
    simp only [List.nil_append, Socket.sendLoop]
    split <;> rfl
  | cons call script ih =>
    intro sent_len
    simp only [List.cons_append, Socket.sendLoop]
    by_cases hlt : sent_len < send_len
    · simp only [hlt, if_true]
      cases call with
      | accepted k => exact ih _
      | eagain => rfl
      | eintr => exact ih _
      | reset => rfl
      | failed => rfl
    · simp only [hlt, if_false]; rfl

/-- On a script without reset and failure a `Socket::send` call that returns gives status
`0` and splits the message into the bytes taken and `not_send`. -/
theorem Socket.send_benign (message not_send0 : Bytes) (script : List SendCall)
    (r : SendResult) (hb : SendCall.Benign script)
    (h : Socket.send message not_send0 script = some r) :
    ∃ not_send, r.outcome = .returned (0, not_send) ∧
      r.taken = Socket.sendLoopTaken message script 0 ∧
      r.taken ++ not_send = message ∧
      (not_send = [] ↔ r.taken = message) ∧
      (∃ used, script = used ++ r.script) ∧
      (message = [] → not_send = [] ∧ r.script = script) := by
  by_cases hm : message = []
  · subst hm
    simp only [Socket.send, List.isEmpty_nil, if_true, Option.some.injEq] at h
    rw [← h]
    refine ⟨[], rfl, ?_, rfl, by simp, ⟨[], rfl⟩, fun _ => ⟨rfl, rfl⟩⟩
    cases script with
    | nil => rfl
    | cons c cs => simp [Socket.sendLoopTaken]
  · have he : message.isEmpty = false := by
      cases message with
      | nil => exact absurd rfl hm
      | cons b bs => rfl
    have hpos : 0 < message.length := List.length_pos.mpr hm
    simp only [Socket.send, he, Bool.false_eq_true, if_false] at h
    cases hl : Socket.sendLoop message.length script 0 with
    | none => simp [hl] at h
    | some x =>
      obtain ⟨exit, rest⟩ := x
      obtain ⟨n, e1, _, e3, _, used, e5⟩ :=
        Socket.sendLoop_benign _ script 0 exit rest hb (Nat.zero_le _) hl
      subst e1
      have ht := Socket.sendLoopTaken_eq message script 0 n rest hl
      rw [List.drop_zero] at ht
      simp only [hl] at h
      by_cases hn : n = message.length
      · simp only [hn, if_true, Option.some.injEq] at h
        rw [← h]
        refine ⟨[], rfl, ?_, by simp, by simp, ⟨used, e5⟩, fun hm1 => absurd hm1 hm⟩
        rw [ht, hn]
      · simp only [hn, if_false, Option.some.injEq] at h
        rw [← h]
        refine ⟨message.drop n, rfl, ht.symm, List.take_append_drop _ _, ?_, ⟨used, e5⟩,
          fun hm1 => absurd hm1 hm⟩
        have hlt : n < message.length := lt_of_le_of_ne e3 hn
        constructor
        · intro hd
          have := congrArg List.length hd
          simp only [List.length_drop, List.length_nil] at this
          omega
        · intro htk
          have := congrArg List.length htk
          simp only [List.length_take] at this
          omega

/-- A `Socket::send` call returns on every script that ends with `EAGAIN`. -/
theorem Socket.send_returns (message not_send0 : Bytes) (history : List SendCall) :
    (Socket.send message not_send0 (history ++ [.eagain])).isSome = true := by
  by_cases hm : message = []
  · subst hm; simp [Socket.send]
  · have he : message.isEmpty = false := by
      cases message with
      | nil => exact absurd rfl hm
      | cons b bs => rfl
    simp only [Socket.send, he, Bool.false_eq_true, if_false]
    have hr := Socket.sendLoop_returns message.length history 0
    cases hl : Socket.sendLoop message.length (history ++ [.eagain]) 0 with
    | none => simp [hl] at hr
    | some x =>
      obtain ⟨exit, rest⟩ := x
      cases exit with
      | done n => simp only; split <;> rfl
      | reset n => rfl
      | raised n => rfl

/-- C13 (`Socket::send` remainder): on a script of system results without peer reset and
without unclassified failure, a `Socket::send` call that has returned gave status `0`; the
bytes the system took call by call, followed by `not_send`, are the message; `not_send` is
empty exactly when the whole message was taken; the results used are the front of the
script; for an empty message no result is used and `not_send` is empty. And the call does
return on every script that ends with `EAGAIN`. -/
theorem Socket.send_remainder (message not_send0 : Bytes) (script : List SendCall)
    (r : SendResult) (hb : SendCall.Benign script)
    (h : Socket.send message not_send0 script = some r) :
    (∃ not_send, r.outcome = .returned (0, not_send) ∧
      r.taken = Socket.sendLoopTaken message script 0 ∧
      r.taken ++ not_send = message ∧
      (not_send = [] ↔ r.taken = message) ∧
      (∃ used, script = used ++ r.script) ∧
      (message = [] → not_send = [] ∧ r.script = script)) ∧
    ∀ history : List SendCall,
      (Socket.send message not_send0 (history ++ [.eagain])).isSome = true :=
  ⟨Socket.send_benign message not_send0 script r hb h,
   fun history => Socket.send_returns message not_send0 history⟩

/-- C13 at a three-byte message and a system that is interrupted, takes two bytes and then
reports `EAGAIN`. -/
theorem Socket.send_remainder_witness :
    SendCall.Benign [.eintr, .accepted 2, .eagain, .accepted 1] ∧
    Socket.send [7, 8, 9] [] [.eintr, .accepted 2, .eagain, .accepted 1] =
      some { outcome := .returned (0, [9]), taken := [7, 8], script := [.accepted 1] } ∧
    ∃ not_send,
      (SendResult.mk (.returned (0, [9])) [7, 8] [.accepted 1]).outcome =
        .returned (0, not_send) ∧
      ([7, 8] : Bytes) ++ not_send = [7, 8, 9] :=
  ⟨by decide, by decide,
   match (Socket.send_remainder [7, 8, 9] [] [.eintr, .accepted 2, .eagain, .accepted 1]
      { outcome := .returned (0, [9]), taken := [7, 8], script := [.accepted 1] }
      (by decide) (by decide)).1 with
   | ⟨ns, h1, _, h3, _⟩ => ⟨ns, h1, h3⟩⟩

/-! ## Conservation of bytes in the drain -/

theorem SendCall.Benign_suffix (used rest : List SendCall)
    (h : SendCall.Benign (used ++ rest)) : SendCall.Benign rest :=
  fun c hc => h c (List.mem_append_right _ hc)

/-- One `Server::sendBuf` call on a script without reset and failure: it returns `0`, and the
bytes taken followed by the queue left are the bytes of the queue it started with. -/
theorem Server.sendBuf_benign (fuel : Nat) :
    ∀ (client : Server.Client) (script : List SendCall) (q : SendBufResult),
      SendCall.Benign script → Server.sendBuf fuel client script = some q →
      q.outcome = .returned 0 ∧
      q.taken ++ q.client.send_queue.flatten = client.send_queue.flatten ∧
      q.client.recv_buf = client.recv_buf ∧ q.client.fd = client.fd ∧
      SendCall.Benign q.script := by
  induction fuel with
  | zero => intro client script q _ h; simp [Server.sendBuf] at h
  | succ n ih =>
    intro client script q hb h
    rw [Server.sendBuf] at h
    cases hq : client.send_queue with
    | nil =>
      simp only [hq, Option.some.injEq] at h
      rw [← h]
      exact ⟨rfl, by simp [hq], rfl, rfl, hb⟩
    | cons front rest =>
      simp only [hq] at h
      cases hs : Socket.send front [] script with
      | none => simp [hs] at h
      | some r =>
        obtain ⟨ns, e1, _, e3, e4, ⟨used, e5⟩, _⟩ := Socket.send_benign front [] script r hb hs
        have hbr : SendCall.Benign r.script := SendCall.Benign_suffix used _ (e5 ▸ hb)
        simp only [hs, e1, Int.lt_irrefl, if_false, Option.map_eq_some'] at h
        obtain ⟨q1, hq1, hq2⟩ := h
        obtain ⟨i1, i2, i3, i4, i5⟩ := ih _ _ q1 hbr hq1
        rw [← hq2]
        refine ⟨i1, ?_, ?_, ?_, i5⟩
        · simp only [List.append_assoc, i2, List.flatten_cons]
          rw [← e3]
          cases ns with
          | nil => simp
          | cons b bs => simp
        · rw [i3]; split <;> rfl
        · rw [i4]; split <;> rfl

/-- Successive `Server::sendBuf` calls on a script without reset and failure. -/
theorem Server.sendBufCalls_benign (fuel : Nat) :
    ∀ (n : Nat) (client : Server.Client) (script : List SendCall) (q : SendBufResult),
      SendCall.Benign script → Server.sendBufCalls fuel n client script = some q →
      q.outcome = .returned 0 ∧
      q.taken ++ q.client.send_queue.flatten = client.send_queue.flatten := by
  intro n
  induction n with
  | zero =>
    intro client script q _ h
    simp only [Server.sendBufCalls, Option.some.injEq] at h
    rw [← h]; exact ⟨rfl, by simp⟩
  | succ n ih =>
    intro client script q hb h
    rw [Server.sendBufCalls] at h
    cases hs : Server.sendBuf fuel client script with
    | none => simp [hs] at h
    | some q0 =>
      obtain ⟨e1, e2, _, _, e5⟩ := Server.sendBuf_benign fuel client script q0 hb hs
      simp only [hs, e1, if_true, Option.map_eq_some'] at h
      obtain ⟨q1, hq1, hq2⟩ := h
      obtain ⟨i1, i2⟩ := ih _ _ q1 e5 hq1
      rw [← hq2]
      refine ⟨i1, ?_⟩
      simp only [List.append_assoc, i2, e2]

theorem SendCall.Progress_tail (call : SendCall) (script : List SendCall)
    (h : SendCall.Progress (call :: script)) : SendCall.Progress script :=
  fun c hc => h c (List.mem_cons_of_mem _ hc)

/-- When every call takes at least one byte and the script has a result for every byte
still to send, the loop of `Socket::send` sends everything. -/
theorem Socket.sendLoop_progress (send_len : Nat) :
    ∀ (script : List SendCall) (sent_len : Nat),
      SendCall.Progress script → sent_len ≤ send_len → send_len - sent_len ≤ script.length →
      ∃ rest, Socket.sendLoop send_len script sent_len = some (.done send_len, rest) ∧
        SendCall.Progress rest ∧ script.length ≤ rest.length + (send_len - sent_len) := by
  intro script
  induction script with
  | nil =>
    intro sent_len hp hle hlen
    simp only [List.length_nil] at hlen
    have : sent_len = send_len := by omega
    subst this
    exact ⟨[], by simp [Socket.sendLoop], hp, by simp⟩
  | cons call script ih =>
    intro sent_len hp hle hlen
    by_cases hlt : sent_len < send_len
    · obtain ⟨k, hk⟩ := hp call (List.mem_cons_self _ _)
      subst hk
      simp only [List.length_cons] at hlen
      obtain ⟨rest, e1, e2, e3⟩ := ih (sent_len + min (k + 1) (send_len - sent_len))
        (SendCall.Progress_tail _ _ hp) (by omega) (by omega)
      refine ⟨rest, ?_, e2, ?_⟩
      · simp only [Socket.sendLoop, hlt, if_true]; exact e1
      · simp only [List.length_cons]; omega
    · have : sent_len = send_len := by omega
      subst this
      exact ⟨call :: script, by simp [Socket.sendLoop], hp, by simp⟩

theorem Socket.send_progress (message not_send0 : Bytes) (script : List SendCall)
    (hp : SendCall.Progress script) (hlen : message.length ≤ script.length) :
    ∃ rest, Socket.send message not_send0 script =
        some { outcome := .returned (0, []), taken := message, script := rest } ∧
      SendCall.Progress rest ∧ script.length ≤ rest.length + message.length := by
  by_cases hm : message = []
  · subst hm
    exact ⟨script, by simp [Socket.send], hp, by simp⟩
  · have he : message.isEmpty = false := by
      cases message with
      | nil => exact absurd rfl hm
      | cons b bs => rfl
    obtain ⟨rest, e1, e2, e3⟩ :=
      Socket.sendLoop_progress message.length script 0 hp (Nat.zero_le _) (by omega)
    refine ⟨rest, ?_, e2, by omega⟩
    simp [Socket.send, he, e1]

/-- With a system that takes at least one byte per call, one `Server::sendBuf` call sends the
whole queue. -/
theorem Server.sendBuf_progress :
    ∀ (queue : List Bytes) (client : Server.Client) (script : List SendCall) (k : Nat),
      client.send_queue = queue → SendCall.Progress script →
      queue.flatten.length ≤ script.length →
      ∃ rest, Server.sendBuf (queue.length + 1 + k) client script =
        some { outcome := .returned 0, client := { client with send_queue := [] },
               taken := queue.flatten, script := rest } := by
  intro queue
  induction queue with
  | nil =>
    intro client script k hq _ _
    refine ⟨script, ?_⟩
    rw [show ([] : List Bytes).length + 1 + k = k + 1 by simp; omega, Server.sendBuf]
    simp only [hq, List.flatten_nil, Option.some.injEq, SendBufResult.mk.injEq, and_true,
      true_and]
    cases client; simp_all
  | cons front queue ih =>
    intro client script k hq hp hlen
    simp only [List.flatten_cons, List.length_append] at hlen
    obtain ⟨rest, e1, e2, e3⟩ := Socket.send_progress front [] script hp (by omega)
    obtain ⟨rest1, e4⟩ := ih { client with send_queue := queue } rest k rfl e2 (by omega)
    refine ⟨rest1, ?_⟩
    rw [show (front :: queue).length + 1 + k = (queue.length + 1 + k) + 1 by
      simp only [List.length_cons]; omega, Server.sendBuf]
    simp only [hq, e1, Int.lt_irrefl, if_false, List.isEmpty_nil, if_true, e4,
      Option.map_some', List.flatten_cons]

/-- C11 (backpressure correctness): for every outbound queue and every script of system
results without peer reset and without failure, after any number of successive
`Server::sendBuf` calls that have returned, every call returned `0` and the bytes the system
took, in call order, followed by the concatenation of what is left in the queue are the
concatenation of the elements queued at the start, in queue order. And with a system that
takes at least one byte per call, as many times as there are bytes queued, a single call
returns with the queue empty and all bytes taken. -/
theorem Server.sendBuf_conserves (fuel n : Nat) (client : Server.Client)
    (script : List SendCall) (q : SendBufResult) (hb : SendCall.Benign script)
    (h : Server.sendBufCalls fuel n client script = some q) :
    (q.outcome = .returned 0 ∧
      q.taken ++ q.client.send_queue.flatten = client.send_queue.flatten) ∧
    ∀ (generous : List SendCall) (k : Nat), SendCall.Progress generous →
      client.send_queue.flatten.length ≤ generous.length →
      ∃ rest, Server.sendBuf (client.send_queue.length + 1 + k) client generous =
        some { outcome := .returned 0, client := { client with send_queue := [] },
               taken := client.send_queue.flatten, script := rest } :=
  ⟨Server.sendBufCalls_benign fuel n client script q hb h,
   fun generous k hp hl => Server.sendBuf_progress client.send_queue client generous k rfl hp hl⟩

/-- C11 at the queue `[[1, 2], [3]]`, two calls, a system that takes one byte, reports
`EAGAIN`, is interrupted, and then takes the rest. -/
theorem Server.sendBuf_conserves_witness :
    SendCall.Benign [.accepted 1, .eagain, .eintr, .accepted 9, .accepted 9] ∧
    Server.sendBufCalls 4 2 { recv_buf := [], fd := ⟨7⟩, send_queue := [[1, 2], [3]] }
        [.accepted 1, .eagain, .eintr, .accepted 9, .accepted 9] =
      some { outcome := .returned 0,
             client := { recv_buf := [], fd := ⟨7⟩, send_queue := [] },
             taken := [1, 2, 3], script := [] } ∧
    ([1, 2, 3] : Bytes) ++ ([] : List Bytes).flatten = ([[1, 2], [3]] : List Bytes).flatten :=
  ⟨by decide, by decide,
   (Server.sendBuf_conserves 4 2 { recv_buf := [], fd := ⟨7⟩, send_queue := [[1, 2], [3]] }
      [.accepted 1, .eagain, .eintr, .accepted 9, .accepted 9]
      { outcome := .returned 0, client := { recv_buf := [], fd := ⟨7⟩, send_queue := [] },
        taken := [1, 2, 3], script := [] } (by decide) (by decide)).1.2⟩

/-! ## `Socket::recv`, `Socket::accept`, `Socket::close` and moves -/

/-- While the reads go on, `Socket::recv` appends each chunk and calls `::recv` again. -/
theorem Socket.recv_reading (max_len : Nat) :
    ∀ (reads tail : List RecvCall) (buf : Bytes), RecvCall.Reading max_len reads →
      Socket.recv max_len (reads ++ tail) buf =
        Socket.recv max_len tail (buf ++ RecvCall.bytes reads) := by
  intro reads
  induction reads with
  | nil => intro tail buf _; simp [RecvCall.bytes]
  | cons call reads ih =>
    intro tail buf hr
    have hr1 : RecvCall.Reading max_len reads := fun c hc => hr c (List.mem_cons_of_mem _ hc)
    rcases hr call (List.mem_cons_self _ _) with h | ⟨chunk, h, h0, h1⟩
    · subst h
      rw [List.cons_append]
      simp only [Socket.recv, RecvCall.bytes]
      exact ih tail buf hr1
    · subst h
      have ht : chunk.take max_len = chunk := List.take_of_length_le h1
      have hl : ¬ chunk.length = 0 := by omega
      rw [List.cons_append]
      simp only [Socket.recv, RecvCall.bytes, ht, hl, if_false]
      rw [ih tail _ hr1, List.append_assoc]

/-- C14 (`Socket::recv` result): for every initial buffer and every run of system results
made of interrupts and of reads of at least one and at most `max_len` bytes, `Socket::recv`
returns `0` when the run ends with `EAGAIN`, `-1` when it ends with a 0-byte read, `-2` when
it ends with `ECONNRESET` or `EPIPE`, and throws when it ends with any other error; in each
case it stops at that result, and the buffer is the initial buffer followed by the chunks
read, in order. -/
theorem Socket.recv_result (max_len : Nat) (reads rest : List RecvCall) (buf : Bytes)
    (hr : RecvCall.Reading max_len reads) :
    Socket.recv max_len (reads ++ .eagain :: rest) buf =
      some { outcome := .returned 0, buf := buf ++ RecvCall.bytes reads, script := rest } ∧
    Socket.recv max_len (reads ++ .data [] :: rest) buf =
      some { outcome := .returned (-1), buf := buf ++ RecvCall.bytes reads, script := rest } ∧
    Socket.recv max_len (reads ++ .reset :: rest) buf =
      some { outcome := .returned (-2), buf := buf ++ RecvCall.bytes reads, script := rest } ∧
    Socket.recv max_len (reads ++ .failed :: rest) buf =
      some { outcome := .raised, buf := buf ++ RecvCall.bytes reads, script := rest } := by
  refine ⟨?_, ?_, ?_, ?_⟩ <;> rw [Socket.recv_reading max_len reads _ buf hr] <;>
    simp [Socket.recv]

/-- C14 at the buffer `[1]` and the reads `[2, 3]`, interrupt, `[4]` with `max_len = 2`. -/
theorem Socket.recv_result_witness :
    RecvCall.Reading 2 [.data [2, 3], .eintr, .data [4]] ∧
    Socket.recv 2 [.data [2, 3], .eintr, .data [4], .data []] [1] =
      some { outcome := .returned (-1), buf := [1, 2, 3, 4], script := [] } :=
  ⟨by
    intro c hc
    simp only [List.mem_cons, List.mem_singleton, List.not_mem_nil, or_false] at hc
    rcases hc with h | h | h
    · exact Or.inr ⟨[2, 3], h, by decide, by decide⟩
    · exact Or.inl h
    · exact Or.inr ⟨[4], h, by decide, by decide⟩,
   (Socket.recv_result 2 [.data [2, 3], .eintr, .data [4]] [] [1] (by
    intro c hc
    simp only [List.mem_cons, List.mem_singleton, List.not_mem_nil, or_false] at hc
    rcases hc with h | h | h
    · exact Or.inr ⟨[2, 3], h, by decide, by decide⟩
    · exact Or.inl h
    · exact Or.inr ⟨[4], h, by decide, by decide⟩)).2.1⟩

theorem Socket.acceptLoop_conns (fds : List Nat) :
    ∀ (tail : List AcceptCall) (accepted : List Socket) (opened : List Int),
      Socket.acceptLoop (fds.map (fun fd => AcceptCall.conn fd true) ++ tail) accepted opened =
        Socket.acceptLoop tail (accepted ++ fds.map fun fd => { socket_fd_ := Int.ofNat fd })
          (opened ++ fds.map Int.ofNat) := by
  induction fds with
  | nil => intro tail accepted opened; simp
  | cons fd fds ih =>
    intro tail accepted opened
    rw [List.map_cons, List.cons_append]
    simp only [Socket.acceptLoop]
    rw [ih]
    simp

/-- C15 (`Socket::accept` failure) on the code: when the system accepts the connections `fds`
and the next `::accept` fails with an error other than `EAGAIN` and `EINTR`, `Socket::accept`
throws; the descriptors `fds` were opened during the call and none of them reaches the
caller, the exception carries no endpoint. For the two connections 5 and 6 the call ends in
the exception with both descriptors opened, while with `EAGAIN` in place of the failure it
returns both sockets. -/
theorem Socket.accept_failure_drops (fds : List Nat) (rest : List AcceptCall) :
    Socket.accept (fds.map (fun fd => AcceptCall.conn fd true) ++ .failed :: rest) =
      some { outcome := .raised, opened := fds.map Int.ofNat, script := rest } ∧
    Socket.accept [.conn 5 true, .conn 6 true, .failed] =
      some { outcome := .raised, opened := [5, 6], script := [] } ∧
    Socket.accept [.conn 5 true, .conn 6 true, .eagain] =
      some { outcome := .returned [⟨5⟩, ⟨6⟩], opened := [5, 6], script := [] } := by
  refine ⟨?_, by decide, by decide⟩
  rw [Socket.accept, Socket.acceptLoop_conns]
  simp [Socket.acceptLoop]

/-- C16 (`Socket::close` is idempotent): for every socket and kernel state, a second `close`
changes nothing after the first; after one `close` the descriptor member is `-1`; `::close`
is issued once, on the descriptor held, if that was not `-1`, and not at all otherwise, so at
most once over both calls; and `close` on a socket whose descriptor is `-1` leaves socket and
kernel state as they are. -/
theorem Socket.close_idempotent (sock : Socket) (os : Kernel) :
    Socket.close (Socket.close sock os).1 (Socket.close sock os).2 = Socket.close sock os ∧
    (Socket.close sock os).1.socket_fd_ = -1 ∧
    (Socket.close sock os).2.closed =
      os.closed ++ (if sock.socket_fd_ ≠ -1 then [sock.socket_fd_] else []) ∧
    (Socket.close (Socket.close sock os).1 (Socket.close sock os).2).2.closed =
      (Socket.close sock os).2.closed ∧
    (sock.socket_fd_ = -1 → Socket.close sock os = (sock, os)) := by
  by_cases h : sock.socket_fd_ = -1
  · simp [Socket.close, h]
  · simp [Socket.close, h, Kernel.close]

/-- C17 (move transfers ownership): for two distinct `Socket` objects, after move
construction and after move assignment the destination holds the descriptor the source held
and the source holds `-1`, every other object is untouched; a move assignment of an object to
itself leaves the whole store, and so its descriptor, unchanged. -/
theorem Socket.move_transfers (mem : Nat → Socket) (self other : Nat) (h : self ≠ other) :
    (Socket.moveConstruct mem self other self = { socket_fd_ := (mem other).socket_fd_ } ∧
      Socket.moveConstruct mem self other other = { socket_fd_ := -1 } ∧
      ∀ a, a ≠ self → a ≠ other → Socket.moveConstruct mem self other a = mem a) ∧
    (Socket.moveAssign mem self other self = { socket_fd_ := (mem other).socket_fd_ } ∧
      Socket.moveAssign mem self other other = { socket_fd_ := -1 } ∧
      ∀ a, a ≠ self → a ≠ other → Socket.moveAssign mem self other a = mem a) ∧
    Socket.moveAssign mem self self = mem := by
  refine ⟨⟨?_, ?_, ?_⟩, ⟨?_, ?_, ?_⟩, ?_⟩
  · simp [Socket.moveConstruct, Function.update, h]
  · simp [Socket.moveConstruct, Function.update]
  · intro a ha hb; simp [Socket.moveConstruct, Function.update, ha, hb]
  · simp [Socket.moveAssign, Function.update, h]
  · simp [Socket.moveAssign, Function.update, h]
  · intro a ha hb; simp [Socket.moveAssign, Function.update, h, ha, hb]
  · simp [Socket.moveAssign]

/-- C17 at a store whose object at address `a` holds the descriptor `a + 3`. -/
theorem Socket.move_transfers_witness :
    (0 : Nat) ≠ 1 ∧
    Socket.moveAssign (fun a => { socket_fd_ := (a : Int) + 3 }) 0 1 0 = { socket_fd_ := 4 } ∧
    Socket.moveAssign (fun a => { socket_fd_ := (a : Int) + 3 }) 0 1 1 = { socket_fd_ := -1 } :=
  ⟨by decide,
   (Socket.move_transfers (fun a => { socket_fd_ := (a : Int) + 3 }) 0 1 (by decide)).2.1.1,
   (Socket.move_transfers (fun a => { socket_fd_ := (a : Int) + 3 }) 0 1 (by decide)).2.1.2.1⟩

/-! ## The epoll control calls -/

/-- The do-while loop skips the interrupted calls and stops at the first other result. -/
theorem Epoll.ctlLoop_eintr (k : Nat) (c : CtlCall) (rest : List CtlCall) (hc : c ≠ .eintr) :
    Epoll.ctlLoop (List.replicate k .eintr ++ c :: rest) = some (c, rest) := by
  induction k with
  | zero => cases c <;> first | rfl | exact absurd rfl hc
  | succ k ih => rw [List.replicate_succ, List.cons_append, Epoll.ctlLoop, ih]

/-- C18 (reactor tolerant failures): let the `epoll_ctl` calls of one `Epoll::add`,
`Epoll::modify` or `Epoll::remove` on a descriptor other than `-1` be interrupted `k` times
and then give the result `c`. Each method stops at `c`. `Epoll::add` throws exactly when `c`
is a failure other than `EEXIST`, `Epoll::modify` and `Epoll::remove` throw exactly when `c`
is a failure other than `ENOENT`; in the tolerated case each returns with the interest list
unchanged, and on success the list carries the change. For the descriptor `-1` the three
methods return at once without any call. -/
theorem Epoll.tolerant_failures (interest : List (Int × Nat)) (fd : Int) (events : Nat)
    (k : Nat) (c : CtlCall) (rest : List CtlCall) (hfd : fd ≠ -1) (hc : c ≠ .eintr) :
    (∃ r, Epoll.addCall interest fd events (List.replicate k .eintr ++ c :: rest) = some r ∧
      r.script = rest ∧
      (r.outcome = .raised ↔ c ≠ .ok ∧ c ≠ .eexist) ∧
      (c = .eexist → r.outcome = .returned interest) ∧
      (c = .ok → r.outcome = .returned (interest ++ [(fd, events)]))) ∧
    (∃ r, Epoll.modifyCall interest fd events (List.replicate k .eintr ++ c :: rest) = some r ∧
      r.script = rest ∧
      (r.outcome = .raised ↔ c ≠ .ok ∧ c ≠ .enoent) ∧
      (c = .enoent → r.outcome = .returned interest) ∧
      (c = .ok → r.outcome =
        .returned (interest.map fun e => if e.1 = fd then (fd, events) else e))) ∧
    (∃ r, Epoll.removeCall interest fd (List.replicate k .eintr ++ c :: rest) = some r ∧
      r.script = rest ∧
      (r.outcome = .raised ↔ c ≠ .ok ∧ c ≠ .enoent) ∧
      (c = .enoent → r.outcome = .returned interest) ∧
      (c = .ok → r.outcome = .returned (interest.filter fun e => e.1 ≠ fd))) ∧
    Epoll.addCall interest (-1) events (List.replicate k .eintr ++ c :: rest) =
      some { outcome := .returned interest, script := List.replicate k .eintr ++ c :: rest } ∧
    Epoll.modifyCall interest (-1) events (List.replicate k .eintr ++ c :: rest) =
      some { outcome := .returned interest, script := List.replicate k .eintr ++ c :: rest } ∧
    Epoll.removeCall interest (-1) (List.replicate k .eintr ++ c :: rest) =
      some { outcome := .returned interest, script := List.replicate k .eintr ++ c :: rest } := by
  have hl := Epoll.ctlLoop_eintr k c rest hc
  refine ⟨?_, ?_, ?_, by simp [Epoll.addCall], by simp [Epoll.modifyCall],
    by simp [Epoll.removeCall]⟩
  · simp only [Epoll.addCall, hfd, if_false, hl]
    cases c <;> first | exact absurd rfl hc | simp
  · simp only [Epoll.modifyCall, hfd, if_false, hl]
    cases c <;> first | exact absurd rfl hc | simp
  · simp only [Epoll.removeCall, hfd, if_false, hl]
    cases c <;> first | exact absurd rfl hc | simp

/-- C18 at two interrupted calls followed by `EEXIST` for `add` on the descriptor 7. -/
theorem Epoll.tolerant_failures_witness :
    (7 : Int) ≠ -1 ∧ CtlCall.eexist ≠ CtlCall.eintr ∧
    ∃ r, Epoll.addCall [(3, 1)] 7 1 (List.replicate 2 .eintr ++ .eexist :: [.ok]) = some r ∧
      r.script = [.ok] ∧ r.outcome = .returned [(3, 1)] :=
  ⟨by decide, by decide,
   match (Epoll.tolerant_failures [(3, 1)] 7 1 2 .eexist [.ok] (by decide) (by decide)).1 with
   | ⟨r, h1, h2, _, h4, _⟩ => ⟨r, h1, h2, h4 rfl⟩⟩

theorem map_key_absent (fd : Int) (events : Nat) (l : List (Int × Nat))
    (h : lookup fd l = none) :
    (l.map fun e => if e.1 = fd then (fd, events) else e) = l := by
  induction l with
  | nil => rfl
  | cons e es ih =>
    by_cases he : e.1 = fd
    · simp [lookup, he] at h
    · simp only [lookup, he, if_false] at h
      simp only [List.map_cons, he, if_false, ih h]

/-- The method `Epoll::modify` of the handlers is `Epoll::modify` with the answer of the
kernel of the model as the result of its `epoll_ctl` call. -/
theorem Epoll.modify_eq_modifyCall (os : Kernel) (fd : Int) (events : Nat) (hfd : fd ≠ -1) :
    Epoll.modifyCall os.interest fd events [os.ctlAnswer fd] =
      some { outcome := .returned (Epoll.modify os fd events).interest, script := [] } := by
  simp only [Epoll.modifyCall, hfd, if_false, Kernel.ctlAnswer, Epoll.modify, Kernel.events]
  cases h : lookup fd os.interest with
  | none => simp [Epoll.ctlLoop, map_key_absent fd events _ h]
  | some m => simp [Epoll.ctlLoop]

theorem lookup_none_ne {β : Type} (key : Int) (l : List (Int × β))
    (h : lookup key l = none) : ∀ e ∈ l, e.1 ≠ key := by
  induction l with
  | nil => intro e he; simp at he
  | cons x xs ih =>
    intro e he
    by_cases hx : x.1 = key
    · simp [lookup, hx] at h
    · simp only [lookup, hx, if_false] at h
      rcases List.mem_cons.mp he with h1 | h1
      · rw [h1]; exact hx
      · exact ih h e h1

/-- The method `Epoll::remove` of the handlers is `Epoll::remove` with the answer of the
kernel of the model as the result of its `epoll_ctl` call. -/
theorem Epoll.remove_eq_removeCall (os : Kernel) (fd : Int) (hfd : fd ≠ -1) :
    Epoll.removeCall os.interest fd [os.ctlAnswer fd] =
      some { outcome := .returned (Epoll.remove os fd).interest, script := [] } := by
  simp only [Epoll.removeCall, hfd, if_false, Kernel.ctlAnswer, Epoll.remove, Kernel.events]
  cases h : lookup fd os.interest with
  | none =>
    rw [filter_absent fd os.interest (lookup_none_ne fd _ h)]
    simp [Epoll.ctlLoop]
  | some m => simp [Epoll.ctlLoop]

/-! ## Shutdown -/

/-- The loop of `Server::shutdown` issues `::close` once for each element whose descriptor
is not `-1`, in registry order. -/
theorem Server.shutdownLoop_closed :
    ∀ (l : List (Int × Server.Client)) (os : Kernel),
      (Server.shutdownLoop l os).closed =
        os.closed ++ (l.map fun e => e.2.fd.getFD).filter fun fd => fd ≠ -1 := by
  intro l
  induction l with
  | nil => intro os; simp [Server.shutdownLoop]
  | cons e es ih =>
    intro os
    simp only [Server.shutdownLoop, ih, List.map_cons]
    by_cases h : e.2.fd.socket_fd_ = -1
    · simp [Socket.close, Socket.getFD, h]
    · simp [Socket.close, Socket.getFD, h, Kernel.close]

/-- C19 (`Server::shutdown` is idempotent): for every server that is not shut down yet, with
both terminal calls succeeding `shutdown` returns; afterwards the registry is empty, the
flag `shutdown_` is set, the listening socket holds `-1`, and `::close` was issued exactly
once for each registry descriptor other than `-1`, in registry order, and then once for the
listening descriptor if it was not `-1`. A second `shutdown` returns the same state,
whatever the terminal calls would answer: it changes nothing and closes nothing. -/
theorem Server.shutdown_idempotent (p : ServerProcess) (hs : p.shutdown_ = false) :
    ∃ p1, Server.shutdown p true true = .returned p1 ∧
      p1.server.clients_ = [] ∧ p1.shutdown_ = true ∧ p1.socket_.socket_fd_ = -1 ∧
      p1.server.os.closed =
        p.server.os.closed ++
          ((p.server.clients_.map fun e => e.2.fd.getFD).filter fun fd => fd ≠ -1) ++
          (if p.socket_.socket_fd_ ≠ -1 then [p.socket_.socket_fd_] else []) ∧
      ∀ a b, Server.shutdown p1 a b = .returned p1 := by
  have hos : (if (!p.server.clients_.isEmpty) = true
        then Server.shutdownLoop p.server.clients_ p.server.os else p.server.os) =
      Server.shutdownLoop p.server.clients_ p.server.os := by
    cases hc : p.server.clients_ with
    | nil => simp [Server.shutdownLoop]
    | cons e es => simp
  refine ⟨ServerProcess.mk
      (Server.mk [] (Socket.close p.socket_
        (Server.shutdownLoop p.server.clients_ p.server.os)).2 p.server.useAfterErase)
      (Socket.close p.socket_ (Server.shutdownLoop p.server.clients_ p.server.os)).1
      p.launched_ true, ?_, rfl, rfl, ?_, ?_, ?_⟩
  · simp only [Server.shutdown, hs, Bool.false_eq_true, if_false, hos, Bool.not_true]
  · exact (Socket.close_idempotent _ _).2.1
  · simp only
    rw [(Socket.close_idempotent _ _).2.2.1, Server.shutdownLoop_closed]
  · intro a b
    simp [Server.shutdown]

/-- C19 at a registry of two connections and the listening descriptor 3. -/
theorem Server.shutdown_idempotent_witness :
    ∃ p1, Server.shutdown
        { server := { clients_ := [(7, ⟨[], ⟨7⟩, [[1]]⟩), (8, ⟨[2], ⟨8⟩, []⟩)],
                      os := ⟨[(0, 1), (3, 1), (7, 5), (8, 1)], []⟩ },
          socket_ := ⟨3⟩, launched_ := true, shutdown_ := false } true true = .returned p1 ∧
      p1.server.clients_ = [] ∧ p1.server.os.closed = [7, 8, 3] :=
  match Server.shutdown_idempotent
    { server := { clients_ := [(7, ⟨[], ⟨7⟩, [[1]]⟩), (8, ⟨[2], ⟨8⟩, []⟩)],
                  os := ⟨[(0, 1), (3, 1), (7, 5), (8, 1)], []⟩ },
      socket_ := ⟨3⟩, launched_ := true, shutdown_ := false } rfl with
  | ⟨p1, h1, h2, _, _, h5, _⟩ => ⟨p1, h1, h2, by rw [h5]; decide⟩

/-! ## Echo from the input line to the reply -/

theorem Client.extractLoop_eq (fuel : Nat) :
    ∀ (buf : Bytes) (pos : Nat) (messages : List Bytes),
      Client.extractLoop fuel buf pos messages = Server.extractLoop fuel buf pos messages := by
  induction fuel with
  | zero => intro buf pos messages; rfl
  | succ n ih =>
    intro buf pos messages
    simp only [Client.extractLoop, Server.extractLoop, ih]

theorem Client.extractMessage_eq (fuel : Nat) (buf : Bytes) :
    Client.extractMessage fuel buf = Server.extractMessage fuel buf := by
  simp only [Client.extractMessage, Server.extractMessage, Client.extractLoop_eq]

/-- The message of `Client::loadInput` for a line short enough that header and line fit
`uint32_t`. -/
theorem Client.loadInput_wellFramed (L : Bytes) (hL : sizeofHeader + L.length < 4294967296) :
    WellFramed (MessageHeader.ofTypeLen MsgType.ECHO_MSG L.length, L) := by
  simp only [sizeofHeader] at hL
  refine ⟨⟨?_, ?_, ?_⟩, ?_, hL⟩
  · simp only [MessageHeader.ofTypeLen]; omega
  · simp only [MessageHeader.ofTypeLen]; omega
  · simp only [MessageHeader.ofTypeLen]; omega
  · simp only [MessageHeader.ofTypeLen]; omega

/-- Echo end to end for a line below the wrap-around: the message built by
`Client::loadInput`, sitting in the receive buffer of the registered connection `A`, is
extracted and handled by the server, which appends it unaltered to the send queue of `A`; the
client extracts exactly that message from these bytes, and the message without its first
eight bytes is the line. -/
theorem Server.echo_end_to_end (fuel : Nat) (s : Server) (A : Int) (cA : Server.Client)
    (L : Bytes) (hL : sizeofHeader + L.length < 4294967296)
    (hA : s.find? A = some cA) (hbuf : cA.recv_buf = Client.loadInput L) :
    (∃ s1, Server.extractAndHandle (2 + fuel) s A = some s1 ∧
      s1.find? A = some { recv_buf := [], fd := cA.fd,
                          send_queue := cA.send_queue ++ [Client.loadInput L] }) ∧
    Client.extractMessage (2 + fuel) (Client.loadInput L) = some ([Client.loadInput L], []) ∧
    (Client.loadInput L).drop sizeofHeader = L := by
  have hw := Client.loadInput_wellFramed L hL
  have hext : Server.extractMessage (2 + fuel) (Client.loadInput L) =
      some ([Client.loadInput L], []) := by
    have h := Server.extractMessage_frames
      [(MessageHeader.ofTypeLen MsgType.ECHO_MSG L.length, L)]
      (fun e he => by rw [List.mem_singleton.mp he]; exact hw) fuel
    simpa [Client.loadInput, Nat.add_comm] using h
  have htype : (MessageHeader.read (Client.loadInput L) 0).msg_type = MsgType.ECHO_MSG := by
    rw [Client.loadInput, frameBytes, MessageHeader.read_write _ _ hw.1]
    rfl
  refine ⟨⟨(s.update A fun c => { c with recv_buf := [] }).handleMessage A
    (Client.loadInput L), ?_, ?_⟩, ?_, ?_⟩
  · simp only [Server.extractAndHandle, hA, hbuf, hext, List.foldl_cons, List.foldl_nil]
  · have h0 := Server.find?_update_self s A fun c => { c with recv_buf := [] }
    rw [hA] at h0
    have hm : (s.update A fun c => { c with recv_buf := [] }).handleMessage A
        (Client.loadInput L) =
        (s.update A fun c => { c with recv_buf := [] }).echoMsg A (Client.loadInput L) := by
      simp only [Server.handleMessage, htype, if_true]
    rw [hm, Server.echoMsg_registered _ A _ _ h0]
    have h1 := Server.find?_update_self
      (s.update A fun c => { c with recv_buf := [] }) A
      fun c => { c with send_queue := c.send_queue ++ [Client.loadInput L] }
    rw [h0] at h1
    exact h1
  · rw [Client.extractMessage_eq]; exact hext
  · rw [Client.loadInput, frameBytes]
    exact List.drop_left' (MessageHeader.write_length _)

/-- C20 (echo end to end) at its failing input: for the input line of `2^32 - 8` bytes the
message of `Client::loadInput` carries `msg_len = 2^32 - 8`, the length of the line; with
that message in the receive buffer of the connection 7, extraction and handling on the
server never return, whatever the other connections and the kernel state, so nothing reaches
the send queue; and `Client::extractMessage` on these bytes never returns either. -/
theorem Server.echo_end_to_end_wrap :
    (List.replicate 4294967288 (10 : Byte)).length = 4294967288 ∧
    Client.loadInput (List.replicate 4294967288 10) =
      frameBytes { msg_type := 1, reserved := 0, msg_len := 4294967288 }
        (List.replicate 4294967288 10) ∧
    (∀ (fuel : Nat) (others : List (Int × Server.Client)) (os : Kernel) (u : Bool),
      Server.extractAndHandle fuel
        (Server.mk ((7, ⟨Client.loadInput (List.replicate 4294967288 10), ⟨7⟩, []⟩) :: others)
          os u) 7 = none) ∧
    ∀ fuel, Client.extractMessage fuel (Client.loadInput (List.replicate 4294967288 10)) =
      none := by
  have hl : (List.replicate 4294967288 (10 : Byte)).length = 4294967288 :=
    List.length_replicate _ _
  have hf : Client.loadInput (List.replicate 4294967288 10) =
      frameBytes { msg_type := 1, reserved := 0, msg_len := 4294967288 }
        (List.replicate 4294967288 10) := by
    rw [Client.loadInput, hl]; rfl
  have hn : ∀ fuel, Server.extractMessage fuel
      (Client.loadInput (List.replicate 4294967288 10)) = none := by
    intro fuel
    rw [hf]
    exact Server.extractMessage_wrap_zero_frame _ hl fuel
  refine ⟨hl, hf, ?_, ?_⟩
  · intro fuel others os u
    simp only [Server.extractAndHandle, Server.find?, lookup, if_true, hn fuel]
  · intro fuel
    rw [Client.extractMessage_eq]; exact hn fuel

/-! ## The write-interest invariant -/

theorem lookup_map_pred {β : Type} (P : Int → Prop) [DecidablePred P] (v : β) (k : Int)
    (l : List (Int × β)) :
    lookup k (l.map fun e => if P e.1 then (e.1, v) else e) =
      if P k then (lookup k l).map (fun _ => v) else lookup k l := by
  induction l with
  | nil => simp [lookup]
  | cons e es ih =>
    obtain ⟨ke, ce⟩ := e
    by_cases hk : ke = k
    · subst hk
      by_cases hp : P ke
      · simp [lookup, hp]
      · simp [lookup, hp]
    · by_cases hp : P ke
      · simp only [List.map_cons, hp, if_true, lookup, hk, if_false, ih]
      · simp only [List.map_cons, hp, if_false, lookup, hk, ih]

theorem lookup_some_of_mem {β : Type} (l : List (Int × β)) (e : Int × β) (he : e ∈ l) :
    ∃ c, lookup e.1 l = some c := by
  induction l with
  | nil => simp at he
  | cons x xs ih =>
    by_cases hx : x.1 = e.1
    · exact ⟨x.2, by simp [lookup, hx]⟩
    · rcases List.mem_cons.mp he with h1 | h1
      · exact absurd (h1 ▸ rfl) hx
      · obtain ⟨c, hc⟩ := ih h1
        exact ⟨c, by simp [lookup, hx, hc]⟩

theorem Server.broadcastLoop_fst (senderFD : Int) (message : Bytes) :
    ∀ (l : List (Int × Server.Client)) (os : Kernel),
      (Server.broadcastLoop senderFD message l os).1 =
        l.map fun e =>
          if e.1 ≠ senderFD then (e.1, { e.2 with send_queue := e.2.send_queue ++ [message] })
          else e := by
  intro l
  induction l with
  | nil => intro os; rfl
  | cons e es ih =>
    intro os
    obtain ⟨ke, ce⟩ := e
    by_cases h : ke = senderFD
    · simp only [Server.broadcastLoop, h, ne_eq, not_true_eq_false, if_false, List.map_cons, ih]
    · simp only [Server.broadcastLoop, h, ne_eq, not_false_eq_true, if_true, List.map_cons, ih]

theorem Server.broadcastLoop_snd (senderFD : Int) (message : Bytes) :
    ∀ (l : List (Int × Server.Client)) (os : Kernel),
      (Server.broadcastLoop senderFD message l os).2 =
        { interest := Server.broadcastInterest senderFD (l.map Prod.fst) os.interest
          closed := os.closed } := by
  intro l
  induction l with
  | nil =>
    intro os
    simp [Server.broadcastLoop, Server.broadcastInterest]
  | cons e es ih =>
    intro os
    obtain ⟨ke, ce⟩ := e
    by_cases h : ke = senderFD
    · simp only [Server.broadcastLoop, h, ne_eq, not_true_eq_false, if_false, ih,
        Server.broadcastInterest, List.map_cons, Kernel.mk.injEq, and_true]
      apply List.map_congr_left
      intro x _
      apply if_congr _ rfl rfl
      constructor
      · rintro ⟨h1, h2, h3⟩
        exact ⟨h1, h2, List.mem_cons_of_mem _ h3⟩
      · rintro ⟨h1, h2, h3⟩
        refine ⟨h1, h2, ?_⟩
        rcases List.mem_cons.mp h3 with h4 | h4
        · exact absurd h4 h1
        · exact h4
    · simp only [Server.broadcastLoop, h, ne_eq, not_false_eq_true, if_true, ih,
        Server.broadcastInterest, List.map_cons]
      by_cases hm : ke = -1
      · simp only [Epoll.modify, hm, if_true, Kernel.mk.injEq, and_true]
        apply List.map_congr_left
        intro x _
        apply if_congr _ rfl rfl
        constructor
        · rintro ⟨h1, h2, h3⟩
          exact ⟨h1, h2, List.mem_cons_of_mem _ h3⟩
        · rintro ⟨h1, h2, h3⟩
          refine ⟨h1, h2, ?_⟩
          rcases List.mem_cons.mp h3 with h4 | h4
          · exact absurd h4 h2
          · exact h4
      · simp only [Epoll.modify, hm, if_false, List.map_map, Kernel.mk.injEq, and_true]
        apply List.map_congr_left
        intro x _
        by_cases hx : x.1 = ke
        · have hfull : ¬ ke = senderFD ∧ ¬ ke = -1 ∧ ke ∈ ke :: es.map Prod.fst :=
            ⟨h, hm, List.mem_cons_self _ _⟩
          simp only [Function.comp_apply, hx, if_true]
          rw [if_pos hfull]
          split <;> rfl
        · simp only [Function.comp_apply, hx, if_false]
          apply if_congr _ rfl rfl
          constructor
          · rintro ⟨h1, h2, h3⟩
            exact ⟨h1, h2, List.mem_cons_of_mem _ h3⟩
          · rintro ⟨h1, h2, h3⟩
            refine ⟨h1, h2, ?_⟩
            rcases List.mem_cons.mp h3 with h4 | h4
            · exact absurd h4 hx
            · exact h4

theorem Epoll.modify_events (os : Kernel) (fd : Int) (events : Nat) (k : Int) :
    (Epoll.modify os fd events).events k =
      if k = fd ∧ fd ≠ -1 then (os.events k).map (fun _ => events) else os.events k := by
  by_cases hm : fd = -1
  · simp [Epoll.modify, hm]
  · have hf : (os.interest.map fun e => if e.1 = fd then (fd, events) else e) =
        os.interest.map fun e => if e.1 = fd then (e.1, events) else e := by
      apply List.map_congr_left
      intro e _
      by_cases he : e.1 = fd
      · simp [he]
      · simp [he]
    simp only [Epoll.modify, hm, if_false, Kernel.events, hf, ne_eq, not_false_eq_true,
      and_true]
    exact lookup_map_pred (fun x => x = fd) events k os.interest

theorem Server.mem_update (s : Server) (key : Int) (f : Server.Client → Server.Client)
    (e1 : Int × Server.Client) (h : e1 ∈ (s.update key f).clients_) :
    ∃ e ∈ s.clients_, e1 = if e.1 = key then (e.1, f e.2) else e := by
  simp only [Server.update, List.mem_map] at h
  obtain ⟨e, he, heq⟩ := h
  exact ⟨e, he, heq.symm⟩

/-- A write through the reference that keeps descriptor and queue keeps both invariants. -/
theorem Server.update_inv (s : Server) (key : Int) (f : Server.Client → Server.Client)
    (hf : ∀ c, (f c).fd = c.fd ∧ (f c).send_queue = c.send_queue)
    (hk : s.KeyedByFD) (hw : s.WriteInterest) :
    (s.update key f).KeyedByFD ∧ (s.update key f).WriteInterest := by
  constructor
  · intro e1 h1
    obtain ⟨e, he, heq⟩ := Server.mem_update s key f e1 h1
    by_cases hke : e.1 = key
    · simp only [hke, if_true] at heq
      rw [heq]
      have := hk e he
      simp only [Socket.getFD, (hf e.2).1]
      exact ⟨hke ▸ this.1, hke ▸ this.2⟩
    · simp only [hke, if_false] at heq
      rw [heq]; exact hk e he
  · intro e1 h1
    obtain ⟨e, he, heq⟩ := Server.mem_update s key f e1 h1
    have hwe := hw e he
    by_cases hke : e.1 = key
    · simp only [hke, if_true] at heq
      rw [heq]
      simp only [(hf e.2).2]
      rw [← hke]; exact hwe
    · simp only [hke, if_false] at heq
      rw [heq]; exact hwe

/-- Both invariants speak of the registry and the kernel state only. -/
theorem Server.inv_of_eq (s t : Server) (hc : t.clients_ = s.clients_) (ho : t.os = s.os)
    (hk : s.KeyedByFD) (hw : s.WriteInterest) : t.KeyedByFD ∧ t.WriteInterest := by
  constructor
  · intro e he
    rw [hc] at he
    exact hk e he
  · intro e he
    rw [hc] at he
    rw [ho]
    exact hw e he

theorem Server.maskFor_push (q : List Bytes) (m : Bytes) :
    Server.maskFor (q ++ [m]) = EPOLLIN ||| EPOLLOUT := by
  cases q <;> rfl

/-- `Server::echoMsg` keeps both invariants. -/
theorem Server.echoMsg_inv (s : Server) (client : Int) (message : Bytes)
    (hk : s.KeyedByFD) (hw : s.WriteInterest) :
    (s.echoMsg client message).KeyedByFD ∧ (s.echoMsg client message).WriteInterest := by
  cases hc : s.find? client with
  | none =>
    rw [Server.echoMsg_dangling s client message hc]
    exact Server.inv_of_eq s _ rfl rfl hk hw
  | some c =>
    have hcm := lookup_mem client s.clients_ c hc
    have hcfd : c.fd.getFD = client := (hk _ hcm).1
    have hne : client ≠ -1 := (hk _ hcm).2
    rw [Server.echoMsg_registered s client c message hc, hcfd]
    have hkeys : ∀ e1 ∈ (s.update client fun c0 =>
        { c0 with send_queue := c0.send_queue ++ [message] }).clients_, ∃ e ∈ s.clients_,
        e1 = if e.1 = client
          then (e.1, { e.2 with send_queue := e.2.send_queue ++ [message] }) else e :=
      fun e1 h1 => Server.mem_update s client
        (fun c0 => { c0 with send_queue := c0.send_queue ++ [message] }) e1 h1
    constructor
    · intro e1 h1
      obtain ⟨e, he, heq⟩ := hkeys e1 h1
      by_cases hke : e.1 = client
      · simp only [hke, if_true] at heq
        rw [heq]; exact ⟨hke ▸ (hk e he).1, hke ▸ (hk e he).2⟩
      · simp only [hke, if_false] at heq
        rw [heq]; exact hk e he
    · intro e1 h1
      obtain ⟨e, he, heq⟩ := hkeys e1 h1
      have hwe := hw e he
      show (Epoll.modify s.os client (EPOLLIN ||| EPOLLOUT)).events e1.1 =
        some (Server.maskFor e1.2.send_queue)
      rw [Epoll.modify_events]
      by_cases hke : e.1 = client
      · simp only [hke, if_true] at heq
        have hwe1 : s.os.events client = some (Server.maskFor e.2.send_queue) := hke ▸ hwe
        rw [heq]
        simp only [true_and, hne, ne_eq, not_false_eq_true, if_true, Server.maskFor_push,
          hwe1, Option.map_some']
      · simp only [hke, if_false] at heq
        rw [heq, if_neg (fun h => hke h.1)]; exact hwe

/-- The loop of `Server::broadcast` keeps both invariants, whatever descriptor it takes for
the one of the sender. -/
theorem Server.broadcastLoop_inv (s : Server) (senderFD : Int) (message : Bytes) (u : Bool)
    (hk : s.KeyedByFD) (hw : s.WriteInterest) :
    (Server.mk (Server.broadcastLoop senderFD message s.clients_ s.os).1
      (Server.broadcastLoop senderFD message s.clients_ s.os).2 u).KeyedByFD ∧
    (Server.mk (Server.broadcastLoop senderFD message s.clients_ s.os).1
      (Server.broadcastLoop senderFD message s.clients_ s.os).2 u).WriteInterest := by
  have hmem : ∀ e1 ∈ (Server.broadcastLoop senderFD message s.clients_ s.os).1,
      ∃ e ∈ s.clients_,
      e1 = if e.1 ≠ senderFD
        then (e.1, { e.2 with send_queue := e.2.send_queue ++ [message] }) else e := by
    intro e1 h1
    simp only [Server.broadcastLoop_fst, List.mem_map] at h1
    obtain ⟨e, he, heq⟩ := h1
    exact ⟨e, he, heq.symm⟩
  constructor
  · intro e1 h1
    obtain ⟨e, he, heq⟩ := hmem e1 h1
    by_cases hke : e.1 = senderFD
    · simp only [hke, ne_eq, not_true_eq_false, if_false] at heq
      rw [heq]; exact hk e he
    · simp only [hke, ne_eq, not_false_eq_true, if_true] at heq
      rw [heq]; exact hk e he
  · intro e1 h1
    obtain ⟨e, he, heq⟩ := hmem e1 h1
    have hwe := hw e he
    have hev : (Server.broadcastLoop senderFD message s.clients_ s.os).2.events e.1 =
        if e.1 ≠ senderFD ∧ e.1 ≠ -1 ∧ e.1 ∈ s.clients_.map Prod.fst
        then (s.os.events e.1).map (fun _ => EPOLLIN ||| EPOLLOUT) else s.os.events e.1 := by
      simp only [Server.broadcastLoop_snd, Kernel.events, Server.broadcastInterest]
      exact lookup_map_pred
        (fun x => x ≠ senderFD ∧ x ≠ -1 ∧ x ∈ s.clients_.map Prod.fst) _ e.1 _
    show (Server.broadcastLoop senderFD message s.clients_ s.os).2.events e1.1 =
      some (Server.maskFor e1.2.send_queue)
    by_cases hke : e.1 = senderFD
    · have h1k : e1.1 = e.1 := by rw [heq]; simp [hke]
      rw [h1k, hev, if_neg (fun h => h.1 hke)]
      simp only [hke, ne_eq, not_true_eq_false, if_false] at heq
      rw [heq]; exact hwe
    · have h1k : e1.1 = e.1 := by rw [heq]; simp [hke]
      have hin : e.1 ∈ s.clients_.map Prod.fst := List.mem_map.mpr ⟨e, he, rfl⟩
      rw [h1k, hev, if_pos ⟨hke, (hk e he).2, hin⟩, hwe]
      simp only [hke, ne_eq, not_false_eq_true, if_true] at heq
      rw [heq]
      simp only [Option.map_some', Server.maskFor_push]

/-- `Server::broadcast` keeps both invariants. -/
theorem Server.broadcast_inv (s : Server) (sender : Int) (message : Bytes)
    (hk : s.KeyedByFD) (hw : s.WriteInterest) :
    (s.broadcast sender message).KeyedByFD ∧ (s.broadcast sender message).WriteInterest := by
  cases hc : s.find? sender with
  | none =>
    rw [Server.broadcast_dangling s sender message hc]
    exact Server.broadcastLoop_inv s (-1) message _ hk hw
  | some c =>
    rw [Server.broadcast_registered s sender c message hc]
    exact Server.broadcastLoop_inv s c.fd.getFD message _ hk hw

/-- `Server::userLogout` establishes both invariants from a registry keyed by descriptor in
which the write-interest invariant holds for the connections that stay. -/
theorem Server.userLogout_inv (s : Server) (client : Int) (hk : s.KeyedByFD)
    (hw : ∀ e ∈ s.clients_, e.1 ≠ client →
      s.os.events e.1 = some (Server.maskFor e.2.send_queue)) :
    (s.userLogout client).KeyedByFD ∧ (s.userLogout client).WriteInterest := by
  cases hc : s.find? client with
  | none =>
    rw [Server.userLogout_dangling s client hc]
    exact Server.inv_of_eq s _ rfl rfl hk
      (fun e he => hw e he (lookup_none_ne client s.clients_ hc e he))
  | some c =>
    have hcm := lookup_mem client s.clients_ c hc
    have hcfd : c.fd.getFD = client := (hk _ hcm).1
    obtain ⟨_, f1, _, _, f4⟩ := Server.userLogout_registered_facts s client c hc hcfd
    constructor
    · intro e1 h1
      rw [f1] at h1
      exact hk e1 (List.mem_filter.mp h1).1
    · intro e1 h1
      rw [f1] at h1
      have hne : e1.1 ≠ client := by simpa using (List.mem_filter.mp h1).2
      rw [f4 e1.1 hne]
      exact hw e1 (List.mem_filter.mp h1).1 hne

/-- `Server::handleMessage` keeps both invariants, for every message and every reference. -/
theorem Server.handleMessage_inv (s : Server) (client : Int) (message : Bytes)
    (hk : s.KeyedByFD) (hw : s.WriteInterest) :
    (s.handleMessage client message).KeyedByFD ∧
      (s.handleMessage client message).WriteInterest := by
  simp only [Server.handleMessage]
  split
  · exact Server.echoMsg_inv s client message hk hw
  · split
    · exact Server.broadcast_inv s client message hk hw
    · split
      · exact Server.userLogout_inv s client hk (fun e he _ => hw e he)
      · exact ⟨hk, hw⟩

theorem Server.handleMessages_inv (client : Int) :
    ∀ (messages : List Bytes) (s : Server), s.KeyedByFD → s.WriteInterest →
      (messages.foldl (fun st msg => st.handleMessage client msg) s).KeyedByFD ∧
      (messages.foldl (fun st msg => st.handleMessage client msg) s).WriteInterest := by
  intro messages
  induction messages with
  | nil => intro s hk hw; exact ⟨hk, hw⟩
  | cons m ms ih =>
    intro s hk hw
    obtain ⟨h1, h2⟩ := Server.handleMessage_inv s client m hk hw
    exact ih _ h1 h2

theorem Socket.send_codes (message not_send0 : Bytes) (script : List SendCall)
    (r : SendResult) (code : Int) (not_send : Bytes)
    (h : Socket.send message not_send0 script = some r)
    (ho : r.outcome = .returned (code, not_send)) : code = 0 ∨ code = -2 := by
  simp only [Socket.send] at h
  split at h
  · simp only [Option.some.injEq] at h
    rw [← h] at ho
    simp only [Outcome.returned.injEq, Prod.mk.injEq] at ho
    exact Or.inl ho.1.symm
  · split at h
    · simp at h
    · split at h
      · simp only [Option.some.injEq] at h
        rw [← h] at ho
        simp only [Outcome.returned.injEq, Prod.mk.injEq] at ho
        exact Or.inl ho.1.symm
      · simp only [Option.some.injEq] at h
        rw [← h] at ho
        simp only [Outcome.returned.injEq, Prod.mk.injEq] at ho
        exact Or.inl ho.1.symm
    · simp only [Option.some.injEq] at h
      rw [← h] at ho
      simp only [Outcome.returned.injEq, Prod.mk.injEq] at ho
      exact Or.inr ho.1.symm
    · simp only [Option.some.injEq] at h
      rw [← h] at ho
      simp at ho

/-- `Server::sendBuf` touches the queue only, and returns `0` or `-2`. -/
theorem Server.sendBuf_frame (fuel : Nat) :
    ∀ (client : Server.Client) (script : List SendCall) (q : SendBufResult),
      Server.sendBuf fuel client script = some q →
      q.client.fd = client.fd ∧ q.client.recv_buf = client.recv_buf ∧
      ∀ res, q.outcome = .returned res → res = 0 ∨ res = -2 := by
  induction fuel with
  | zero => intro client script q h; simp [Server.sendBuf] at h
  | succ n ih =>
    intro client script q h
    rw [Server.sendBuf] at h
    cases hq : client.send_queue with
    | nil =>
      simp only [hq, Option.some.injEq] at h
      rw [← h]
      exact ⟨rfl, rfl, fun res hr => by
        simp only [Outcome.returned.injEq] at hr; exact Or.inl hr.symm⟩
    | cons front rest =>
      simp only [hq] at h
      cases hs : Socket.send front [] script with
      | none => simp [hs] at h
      | some r =>
        simp only [hs] at h
        cases ho : r.outcome with
        | raised =>
          simp only [ho, Option.some.injEq] at h
          rw [← h]
          exact ⟨rfl, rfl, fun res hr => by simp at hr⟩
        | returned a =>
          obtain ⟨send_res, not_send⟩ := a
          have hcode := Socket.send_codes front [] script r send_res not_send hs ho
          simp only [ho] at h
          by_cases hneg : send_res < 0
          · simp only [hneg, if_true, Option.some.injEq] at h
            rw [← h]
            refine ⟨rfl, rfl, fun res hr => ?_⟩
            simp only [Outcome.returned.injEq] at hr
            rw [← hr]; exact hcode
          · simp only [hneg, if_false, Option.map_eq_some'] at h
            obtain ⟨q1, hq1, hq2⟩ := h
            obtain ⟨i1, i2, i3⟩ := ih _ _ q1 hq1
            rw [← hq2]
            refine ⟨?_, ?_, i3⟩
            · rw [i1]; split <;> rfl
            · rw [i2]; split <;> rfl

/-- Lines 208 to 211 keep both invariants. -/
theorem Server.extractAndHandle_inv (fuel : Nat) (s s1 : Server) (client : Int)
    (hk : s.KeyedByFD) (hw : s.WriteInterest)
    (h : s.extractAndHandle fuel client = some s1) : s1.KeyedByFD ∧ s1.WriteInterest := by
  simp only [Server.extractAndHandle] at h
  split at h
  · simp at h
  · rename_i messages rest _
    simp only [Option.some.injEq] at h
    rw [← h]
    obtain ⟨h1, h2⟩ := Server.update_inv s client (fun c => { c with recv_buf := rest })
      (fun c => ⟨rfl, rfl⟩) hk hw
    exact Server.handleMessages_inv client messages _ h1 h2

/-- The read-ready branch keeps both invariants. -/
theorem Server.readReady_inv (fuel max_recv_len : Nat) (s s1 : Server) (client : Int)
    (reads : List RecvCall) (b : Bool) (hk : s.KeyedByFD) (hw : s.WriteInterest)
    (h : s.readReady fuel max_recv_len client reads = some (.returned (b, s1))) :
    s1.KeyedByFD ∧ s1.WriteInterest := by
  simp only [Server.readReady] at h
  split at h
  · simp at h
  · rename_i r _
    obtain ⟨h1, h2⟩ := Server.update_inv s client (fun c => { c with recv_buf := r.buf })
      (fun c => ⟨rfl, rfl⟩) hk hw
    split at h
    · simp at h
    · rename_i recv_res _
      split at h
      · simp only [Option.some.injEq, Outcome.returned.injEq, Prod.mk.injEq] at h
        rw [← h.2]
        exact Server.userLogout_inv _ client h1 (fun e he _ => h2 e he)
      · split at h
        · simp only [Option.some.injEq, Outcome.returned.injEq, Prod.mk.injEq] at h
          rw [← h.2]
          exact Server.userLogout_inv _ client h1 (fun e he _ => h2 e he)
        · split at h
          · simp at h
          · rename_i s2 hs2
            simp only [Option.some.injEq, Outcome.returned.injEq, Prod.mk.injEq] at h
            rw [← h.2]
            exact Server.extractAndHandle_inv fuel _ s2 client h1 h2 hs2

/-- The write-ready branch, when it returns, leaves both invariants: after a drain that
returned `0` the queue is empty and the interest is demoted to read only, after `-2` the
connection is logged out. -/
theorem Server.writeReady_inv (fuel : Nat) (s s1 : Server) (client : Int)
    (sends : List SendCall) (hk : s.KeyedByFD) (hw : s.WriteInterest)
    (h : s.writeReady fuel client sends = some (.returned s1)) :
    s1.KeyedByFD ∧ s1.WriteInterest := by
  simp only [Server.writeReady] at h
  cases hc : s.find? client with
  | none => simp [hc] at h
  | some c =>
    simp only [hc] at h
    cases hq : Server.sendBuf fuel c sends with
    | none => simp [hq] at h
    | some q =>
      simp only [hq] at h
      obtain ⟨f1, _, f3⟩ := Server.sendBuf_frame fuel c sends q hq
      have hcm := lookup_mem client s.clients_ c hc
      have hcfd : c.fd.getFD = client := (hk _ hcm).1
      have hne : client ≠ -1 := (hk _ hcm).2
      have hmem : ∀ e1 ∈ (s.update client fun _ => q.client).clients_, ∃ e ∈ s.clients_,
          e1 = if e.1 = client then (e.1, q.client) else e :=
        fun e1 h1 => Server.mem_update s client (fun _ => q.client) e1 h1
      have hk1 : (s.update client fun _ => q.client).KeyedByFD := by
        intro e1 h1
        obtain ⟨e, he, heq⟩ := hmem e1 h1
        by_cases hke : e.1 = client
        · simp only [hke, if_true] at heq
          rw [heq]
          exact ⟨by simp only [Socket.getFD, f1]; exact hcfd, hne⟩
        · simp only [hke, if_false] at heq
          rw [heq]; exact hk e he
      cases ho : q.outcome with
      | raised => simp [ho] at h
      | returned res =>
        simp only [ho] at h
        by_cases hres : res = -2
        · simp only [hres, if_true, Option.some.injEq, Outcome.returned.injEq] at h
          rw [← h]
          apply Server.userLogout_inv _ client hk1
          intro e1 h1 hne1
          obtain ⟨e, he, heq⟩ := hmem e1 h1
          by_cases hke : e.1 = client
          · simp only [hke, if_true] at heq
            rw [heq] at hne1
            exact absurd rfl hne1
          · simp only [hke, if_false] at heq
            rw [heq]; exact hw e he
        · simp only [hres, if_false, Option.some.injEq, Outcome.returned.injEq] at h
          have hzero : res = 0 := (f3 res ho).resolve_right hres
          have hempty : q.client.send_queue = [] :=
            Server.sendBuf_zero_empty fuel c sends q hq (hzero ▸ ho)
          rw [← h]
          refine ⟨hk1, ?_⟩
          intro e1 h1
          obtain ⟨e, he, heq⟩ := hmem e1 h1
          have hwe := hw e he
          show (Epoll.modify s.os client EPOLLIN).events e1.1 = _
          rw [Epoll.modify_events]
          by_cases hke : e.1 = client
          · simp only [hke, if_true] at heq
            have hwe1 : s.os.events client = some (Server.maskFor e.2.send_queue) := hke ▸ hwe
            rw [heq]
            simp only [true_and, hne, ne_eq, not_false_eq_true, if_true, hwe1,
              Option.map_some', hempty]
            rfl
          · simp only [hke, if_false] at heq
            rw [heq, if_neg (fun hh => hke hh.1)]; exact hwe

theorem Server.index_registered (s : Server) (key : Int) (c : Server.Client)
    (h : s.find? key = some c) : s.index key = s := by
  simp [Server.index, h]

/-- C12 (write-interest invariant): start from a registry keyed by descriptor in which every
registered connection is on the interest list with read and write interest if its send queue
is non-empty and read interest only if it is empty. After `Server::handleClientEvent` has
handled one ready event of a registered connection and returned normally, whatever the event
bits, the bytes read, the messages extracted (echo, broadcast, logout or unsupported) and the
results of the drain, every connection still in the registry again has read and write
interest if its queue is non-empty and read interest only if it is empty, and the registry
is still keyed by descriptor. -/
theorem Server.write_interest_invariant (fuel max_recv_len : Nat) (s s1 : Server) (fd : Int)
    (events : Nat) (reads : List RecvCall) (sends : List SendCall) (c : Server.Client)
    (hk : s.KeyedByFD) (hw : s.WriteInterest) (hc : s.find? fd = some c)
    (h : s.handleClientEvent fuel max_recv_len fd events reads sends = some (.returned s1)) :
    s1.WriteInterest ∧ s1.KeyedByFD := by
  simp only [Server.handleClientEvent, Server.index_registered s fd c hc] at h
  split at h
  · split at h
    · simp at h
    · simp at h
    · rename_i s2 hr
      simp only [Option.some.injEq, Outcome.returned.injEq] at h
      rw [← h]
      exact (Server.readReady_inv fuel max_recv_len s s2 fd reads true hk hw hr).symm
    · rename_i s2 hr
      obtain ⟨h1, h2⟩ := Server.readReady_inv fuel max_recv_len s s2 fd reads false hk hw hr
      split at h
      · exact (Server.writeReady_inv fuel s2 s1 fd sends h1 h2 h).symm
      · simp only [Option.some.injEq, Outcome.returned.injEq] at h
        rw [← h]; exact ⟨h2, h1⟩
  · split at h
    · exact (Server.writeReady_inv fuel s s1 fd sends hk hw h).symm
    · simp only [Option.some.injEq, Outcome.returned.injEq] at h
      rw [← h]; exact ⟨hw, hk⟩

/-- C12 at a registry of two connections: connection 7, with one element queued, becomes
readable and writable, sends an echo and a broadcast message in two reads, and the drain
empties its queue. -/
theorem Server.write_interest_invariant_witness :
    Server.KeyedByFD { clients_ := [(7, ⟨[], ⟨7⟩, [[1, 2]]⟩), (8, ⟨[], ⟨8⟩, []⟩)],
                       os := ⟨[(0, 1), (3, 1), (7, 5), (8, 1)], []⟩ } ∧
    Server.WriteInterest { clients_ := [(7, ⟨[], ⟨7⟩, [[1, 2]]⟩), (8, ⟨[], ⟨8⟩, []⟩)],
                           os := ⟨[(0, 1), (3, 1), (7, 5), (8, 1)], []⟩ } ∧
    Server.handleClientEvent 5 1024
        { clients_ := [(7, ⟨[], ⟨7⟩, [[1, 2]]⟩), (8, ⟨[], ⟨8⟩, []⟩)],
          os := ⟨[(0, 1), (3, 1), (7, 5), (8, 1)], []⟩ } 7 5
        [.data [1, 0, 0, 0, 1, 0, 0], .eintr, .data [0, 9, 5, 0, 0, 0, 0, 0, 0, 0], .eagain]
        [.accepted 1, .eagain, .accepted 20, .accepted 20] =
      some (.returned
        { clients_ := [(7, ⟨[], ⟨7⟩, []⟩), (8, ⟨[], ⟨8⟩, [[5, 0, 0, 0, 0, 0, 0, 0]]⟩)],
          os := ⟨[(0, 1), (3, 1), (7, 1), (8, 5)], []⟩ }) ∧
    Server.WriteInterest
      { clients_ := [(7, ⟨[], ⟨7⟩, []⟩), (8, ⟨[], ⟨8⟩, [[5, 0, 0, 0, 0, 0, 0, 0]]⟩)],
        os := ⟨[(0, 1), (3, 1), (7, 1), (8, 5)], []⟩ } :=
  ⟨by decide, by decide, by decide,
   (Server.write_interest_invariant 5 1024
      { clients_ := [(7, ⟨[], ⟨7⟩, [[1, 2]]⟩), (8, ⟨[], ⟨8⟩, []⟩)],
        os := ⟨[(0, 1), (3, 1), (7, 5), (8, 1)], []⟩ }
      { clients_ := [(7, ⟨[], ⟨7⟩, []⟩), (8, ⟨[], ⟨8⟩, [[5, 0, 0, 0, 0, 0, 0, 0]]⟩)],
        os := ⟨[(0, 1), (3, 1), (7, 1), (8, 5)], []⟩ } 7 5
      [.data [1, 0, 0, 0, 1, 0, 0], .eintr, .data [0, 9, 5, 0, 0, 0, 0, 0, 0, 0], .eagain]
      [.accepted 1, .eagain, .accepted 20, .accepted 20] ⟨[], ⟨7⟩, [[1, 2]]⟩
      (by decide) (by decide) (by decide) (by decide)).1⟩

/-! ## Server and client extraction, the wire header -/

/-- C21 (server and client extraction agree): for every receive buffer and every number of
loop iterations allowed, `Client::extractMessage` and `Server::extractMessage` end alike:
either both are still running, or both return, with the same list of frames and the same
remainder left in the buffer. The two loops agree from every offset and every list of frames
collected so far. -/
theorem Client.extractMessage_agrees (fuel : Nat) (recv_buf : Bytes) :
    Client.extractMessage fuel recv_buf = Server.extractMessage fuel recv_buf ∧
    ∀ (pos : Nat) (messages : List Bytes),
      Client.extractLoop fuel recv_buf pos messages =
        Server.extractLoop fuel recv_buf pos messages :=
  ⟨Client.extractMessage_eq fuel recv_buf, Client.extractLoop_eq fuel recv_buf⟩

theorem MessageHeader.read_write_self (h : MessageHeader) (hr : h.InRange) :
    MessageHeader.read h.write 0 = h := by
  have := MessageHeader.read_write h [] hr
  simpa using this

theorem Client.loadInput_header (input_ : Bytes) (hl : input_.length < 4294967296) :
    MessageHeader.read (Client.loadInput input_) 0 =
      { msg_type := MsgType.ECHO_MSG, reserved := 0, msg_len := input_.length } := by
  have hr : (MessageHeader.ofTypeLen MsgType.ECHO_MSG input_.length).InRange := by
    simp only [MessageHeader.InRange, MessageHeader.ofTypeLen, MsgType.ECHO_MSG]
    omega
  rw [Client.loadInput, frameBytes, MessageHeader.read_write _ _ hr]
  simp only [MessageHeader.ofTypeLen, MsgType.ECHO_MSG, MessageHeader.mk.injEq, true_and]
  exact Nat.mod_eq_of_lt hl

/-- C22 (header wire round-trip): the header is 8 bytes long; its bytes 0 and 1 hold
`msg_type`, bytes 2 and 3 hold `reserved`, bytes 4 to 7 hold `msg_len`; for every header
whose three fields fit their 16, 16 and 32 bits, reading a header back from the 8 bytes
written (whatever follows them) gives the same `msg_type`, `reserved` and `msg_len`. The
message `Client::loadInput` assembles from an input line shorter than `2^32` bytes carries
`msg_len` equal to the length of the line, the header not counted: the message is 8 bytes
longer than the line, and the line is what follows the header. -/
theorem MessageHeader.wire_roundtrip (h : MessageHeader) (rest : Bytes) (hr : h.InRange) :
    sizeofHeader = 8 ∧ h.write.length = sizeofHeader ∧
    MessageHeader.read (h.write ++ rest) 0 = h ∧
    byteAt h.write 0 + 256 * byteAt h.write 1 = h.msg_type ∧
    byteAt h.write 2 + 256 * byteAt h.write 3 = h.reserved ∧
    byteAt h.write 4 + 256 * byteAt h.write 5 + 65536 * byteAt h.write 6
      + 16777216 * byteAt h.write 7 = h.msg_len ∧
    ∀ input_ : Bytes, input_.length < 4294967296 →
      MessageHeader.read (Client.loadInput input_) 0 =
        { msg_type := MsgType.ECHO_MSG, reserved := 0, msg_len := input_.length } ∧
      (Client.loadInput input_).length = sizeofHeader + input_.length ∧
      (Client.loadInput input_).drop sizeofHeader = input_ := by
  have hs := MessageHeader.read_write_self h hr
  refine ⟨rfl, rfl, MessageHeader.read_write h rest hr, ?_, ?_, ?_, ?_⟩
  · exact congrArg MessageHeader.msg_type hs
  · exact congrArg MessageHeader.reserved hs
  · exact congrArg MessageHeader.msg_len hs
  · intro input_ hl
    refine ⟨Client.loadInput_header input_ hl, ?_, ?_⟩
    · rw [Client.loadInput, frameBytes_length]; rfl
    · simp [Client.loadInput, frameBytes, sizeofHeader, MessageHeader.write]

/-- C22 at the header of a `GROUP_MSG` frame with a non-zero `reserved` field and a payload
length that uses all four length bytes. -/
theorem MessageHeader.wire_roundtrip_witness :
    MessageHeader.InRange { msg_type := 5, reserved := 513, msg_len := 16909060 } ∧
    MessageHeader.write { msg_type := 5, reserved := 513, msg_len := 16909060 } =
      [5, 0, 1, 2, 4, 3, 2, 1] ∧
    MessageHeader.read
        (MessageHeader.write { msg_type := 5, reserved := 513, msg_len := 16909060 } ++ [9, 9])
        0 = { msg_type := 5, reserved := 513, msg_len := 16909060 } :=
  ⟨by decide, by decide,
   (MessageHeader.wire_roundtrip { msg_type := 5, reserved := 513, msg_len := 16909060 }
      [9, 9] (by decide)).2.2.1⟩

/-! ## Conservation, termination and stability of the extraction loop -/

/-- Whatever `Server::extractMessage` returns, the frames in order followed by the remainder
are the buffer it was called on. -/
theorem Server.extractMessage_flatten (fuel : Nat) :
    ∀ (b : Bytes) (F : List Bytes) (R : Bytes),
      Server.extractMessage fuel b = some (F, R) → F.flatten ++ R = b := by
  induction fuel with
  | zero => intro b F R h; simp [Server.extractMessage_zero] at h
  | succ n ih =>
    intro b F R h
    rw [Server.extractMessage_succ] at h
    by_cases h1 : b.length < sizeofHeader
    · simp only [h1, if_true, Option.some.injEq, Prod.mk.injEq] at h
      rw [← h.1, ← h.2]; rfl
    · simp only [h1, if_false] at h
      by_cases h2 : (sizeofHeader + (MessageHeader.read b 0).msg_len) % 4294967296 ≤ b.length
      · simp only [h2, if_true] at h
        cases hrec : Server.extractMessage n
            (b.drop ((sizeofHeader + (MessageHeader.read b 0).msg_len) % 4294967296)) with
        | none => simp [hrec] at h
        | some q =>
          obtain ⟨F1, R1⟩ := q
          simp only [hrec, Option.map_some', Option.some.injEq, Prod.mk.injEq] at h
          have hq := ih _ F1 R1 hrec
          rw [← h.1, ← h.2, List.flatten_cons, List.append_assoc, hq, List.take_append_drop]
      · simp only [h2, if_false, Option.some.injEq, Prod.mk.injEq] at h
        rw [← h.1, ← h.2]; rfl

/-- Lists whose concatenation, followed by `R`, is `b` are consecutive slices of `b`: the
element at index `i` starts where the elements before it end. -/
theorem flatten_slices (R : Bytes) :
    ∀ (F : List Bytes) (i : Nat) (f : Bytes), F[i]? = some f →
      f = ((F.flatten ++ R).drop (F.take i).flatten.length).take f.length := by
  intro F
  induction F with
  | nil => intro i f h; simp at h
  | cons g G ih =>
    intro i f h
    cases i with
    | zero =>
      simp only [List.getElem?_cons_zero, Option.some.injEq] at h
      subst h
      simp
    | succ j =>
      simp only [List.getElem?_cons_succ] at h
      have hj := ih j f h
      simp only [List.take_succ_cons, List.flatten_cons, List.length_append, List.append_assoc]
      rw [List.drop_append]
      exact hj

/-- The remainder `Server::extractMessage` returns makes the loop stop at once: a second
call on it returns no frame and the same remainder. -/
theorem Server.extractMessage_rest_stable (fuel : Nat) :
    ∀ (b : Bytes) (F : List Bytes) (R : Bytes), Server.extractMessage fuel b = some (F, R) →
      ∀ k, Server.extractMessage (k + 1) R = some ([], R) := by
  induction fuel with
  | zero => intro b F R h; simp [Server.extractMessage_zero] at h
  | succ n ih =>
    intro b F R h k
    rw [Server.extractMessage_succ] at h
    by_cases h1 : b.length < sizeofHeader
    · simp only [h1, if_true, Option.some.injEq, Prod.mk.injEq] at h
      rw [← h.2, Server.extractMessage_succ, if_pos h1]
    · simp only [h1, if_false] at h
      by_cases h2 : (sizeofHeader + (MessageHeader.read b 0).msg_len) % 4294967296 ≤ b.length
      · simp only [h2, if_true] at h
        cases hrec : Server.extractMessage n
            (b.drop ((sizeofHeader + (MessageHeader.read b 0).msg_len) % 4294967296)) with
        | none => simp [hrec] at h
        | some q =>
          obtain ⟨F1, R1⟩ := q
          simp only [hrec, Option.map_some', Option.some.injEq, Prod.mk.injEq] at h
          rw [← h.2]
          exact ih _ F1 R1 hrec k
      · simp only [h2, if_false, Option.some.injEq, Prod.mk.injEq] at h
        rw [← h.2, Server.extractMessage_succ, if_neg h1, if_neg h2]

/-- The loop leaves within `b.length + 1` iterations when no header it can meet makes `len`
wrap to `0`: every emitted frame then consumes at least one byte. -/
theorem Server.extractMessage_terminates :
    ∀ (n : Nat) (b : Bytes), b.length ≤ n →
      (∀ pos, (sizeofHeader + (MessageHeader.read b pos).msg_len) % 4294967296 ≠ 0) →
      ∃ r, Server.extractMessage (n + 1) b = some r := by
  intro n
  induction n with
  | zero =>
    intro b hb _
    rw [Server.extractMessage_succ, if_pos (by simp only [sizeofHeader]; omega)]
    exact ⟨_, rfl⟩
  | succ n ih =>
    intro b hb hz
    rw [Server.extractMessage_succ]
    by_cases h1 : b.length < sizeofHeader
    · rw [if_pos h1]; exact ⟨_, rfl⟩
    · rw [if_neg h1]
      by_cases h2 : (sizeofHeader + (MessageHeader.read b 0).msg_len) % 4294967296 ≤ b.length
      · rw [if_pos h2]
        have h0 := hz 0
        obtain ⟨r, hr⟩ := ih
          (b.drop ((sizeofHeader + (MessageHeader.read b 0).msg_len) % 4294967296))
          (by rw [List.length_drop]; omega)
          (by
            intro pos
            have hd := MessageHeader.read_drop
              (b.drop ((sizeofHeader + (MessageHeader.read b 0).msg_len) % 4294967296)) pos
            rw [List.drop_drop] at hd
            rw [← hd, MessageHeader.read_drop]
            exact hz _)
        rw [hr]; exact ⟨_, rfl⟩
      · rw [if_neg h2]; exact ⟨_, rfl⟩

/-- C24 (extraction conserves bytes): whenever `Server::extractMessage` returns on a receive
buffer `b`, the returned frames concatenated in order, followed by the buffer contents left,
are `b`; the remainder is `b` without its first bytes, as many as the frames hold together;
and the frame at index `i` is the slice of `b` that starts where the frames before it end. -/
theorem Server.extractMessage_conserves (fuel : Nat) (b : Bytes) (F : List Bytes) (R : Bytes)
    (h : Server.extractMessage fuel b = some (F, R)) :
    F.flatten ++ R = b ∧ R = b.drop F.flatten.length ∧
    ∀ (i : Nat) (f : Bytes), F[i]? = some f →
      f = (b.drop (F.take i).flatten.length).take f.length := by
  have hfl := Server.extractMessage_flatten fuel b F R h
  refine ⟨hfl, ?_, ?_⟩
  · rw [← hfl]; simp
  · intro i f hf
    rw [← hfl]
    exact flatten_slices R F i f hf

/-- C24 at a buffer holding an echo frame with payload `hi`, a logout frame and two bytes of
a next header. -/
theorem Server.extractMessage_conserves_witness :
    Server.extractMessage 3
        [1, 0, 0, 0, 2, 0, 0, 0, 104, 105, 3, 0, 0, 0, 0, 0, 0, 0, 5, 0] =
      some ([[1, 0, 0, 0, 2, 0, 0, 0, 104, 105], [3, 0, 0, 0, 0, 0, 0, 0]], [5, 0]) ∧
    ([[1, 0, 0, 0, 2, 0, 0, 0, 104, 105], [3, 0, 0, 0, 0, 0, 0, 0]] : List Bytes).flatten
        ++ [5, 0] =
      [1, 0, 0, 0, 2, 0, 0, 0, 104, 105, 3, 0, 0, 0, 0, 0, 0, 0, 5, 0] :=
  ⟨by decide,
   (Server.extractMessage_conserves 3
      [1, 0, 0, 0, 2, 0, 0, 0, 104, 105, 3, 0, 0, 0, 0, 0, 0, 0, 5, 0]
      [[1, 0, 0, 0, 2, 0, 0, 0, 104, 105], [3, 0, 0, 0, 0, 0, 0, 0]] [5, 0] (by decide)).1⟩

/-- C27 (extraction terminates) at its failing input: on the 8-byte receive buffer
`01 00 00 00 f8 ff ff ff`, a header with `msg_len = 2^32 - 8`, the length `len` wraps to `0`;
each iteration of the loop of `Server::extractMessage` pushes an empty frame and leaves the
offset where it was, and neither `Server::extractMessage` nor `Client::extractMessage`
returns, whatever the number of iterations allowed. -/
theorem Server.extraction_diverges :
    (MessageHeader.read [1, 0, 0, 0, 248, 255, 255, 255] 0).msg_len = 4294967288 ∧
    (sizeofHeader + (MessageHeader.read [1, 0, 0, 0, 248, 255, 255, 255] 0).msg_len)
      % 4294967296 = 0 ∧
    (∀ (fuel : Nat) (messages : List Bytes),
      Server.extractLoop (fuel + 1) [1, 0, 0, 0, 248, 255, 255, 255] 0 messages =
        Server.extractLoop fuel [1, 0, 0, 0, 248, 255, 255, 255] 0 (messages ++ [[]])) ∧
    (∀ fuel, Server.extractMessage fuel [1, 0, 0, 0, 248, 255, 255, 255] = none) ∧
    ∀ fuel, Client.extractMessage fuel [1, 0, 0, 0, 248, 255, 255, 255] = none := by
  have h0 : ∀ fuel, Server.extractMessage fuel [1, 0, 0, 0, 248, 255, 255, 255] = none :=
    Server.extractMessage_len_zero _ (by decide) (by decide)
  refine ⟨by decide, by decide, ?_, h0, ?_⟩
  · intro fuel messages
    rfl
  · intro fuel
    rw [Client.extractMessage_eq]; exact h0 fuel

/-- C28 (extraction is idempotent on its remainder): whenever `Server::extractMessage`
returns on a receive buffer, with remainder `R`, a second call on `R` with nothing appended
returns after its first iteration, with no frame and the buffer `R` unchanged. -/
theorem Server.extractMessage_idempotent (fuel k : Nat) (b : Bytes) (F : List Bytes)
    (R : Bytes) (h : Server.extractMessage fuel b = some (F, R)) :
    Server.extractMessage (k + 1) R = some ([], R) :=
  Server.extractMessage_rest_stable fuel b F R h k

/-- C28 at a buffer holding one echo frame and five bytes of a next frame. -/
theorem Server.extractMessage_idempotent_witness :
    Server.extractMessage 2 [1, 0, 0, 0, 1, 0, 0, 0, 9, 5, 0, 0, 0, 7] =
      some ([[1, 0, 0, 0, 1, 0, 0, 0, 9]], [5, 0, 0, 0, 7]) ∧
    Server.extractMessage 1 [5, 0, 0, 0, 7] = some ([], [5, 0, 0, 0, 7]) :=
  ⟨by decide,
   Server.extractMessage_idempotent 2 0 [1, 0, 0, 0, 1, 0, 0, 0, 9, 5, 0, 0, 0, 7]
     [[1, 0, 0, 0, 1, 0, 0, 0, 9]] [5, 0, 0, 0, 7] (by decide)⟩

/-! ## Read-ready handling: peer gone, and dispatch in stream order -/

theorem RecvCall.Reading_single (max_len : Nat) (chunk : Bytes) (h0 : 0 < chunk.length)
    (h1 : chunk.length ≤ max_len) : RecvCall.Reading max_len [.data chunk] := by
  intro call hcall
  simp only [List.mem_singleton] at hcall
  exact Or.inr ⟨chunk, hcall, h0, h1⟩

/-- How `Socket::recv` ends after a run of reads that keep it in its loop. -/
theorem Socket.recv_ends (max_len : Nat) (reads rest : List RecvCall) (buf : Bytes)
    (hr : RecvCall.Reading max_len reads) :
    Socket.recv max_len (reads ++ .eagain :: rest) buf =
      some { outcome := .returned 0, buf := buf ++ RecvCall.bytes reads, script := rest } ∧
    Socket.recv max_len (reads ++ .data [] :: rest) buf =
      some { outcome := .returned (-1), buf := buf ++ RecvCall.bytes reads, script := rest } ∧
    Socket.recv max_len (reads ++ .reset :: rest) buf =
      some { outcome := .returned (-2), buf := buf ++ RecvCall.bytes reads, script := rest } := by
  refine ⟨?_, ?_, ?_⟩ <;> rw [Socket.recv_reading max_len reads _ buf hr] <;>
    simp [Socket.recv]

/-- The read-ready branch when `Socket::recv` returns `-1` or `-2`: the connection is logged
out and the handler returns; the number of iterations allowed to the extraction loop plays
no part. -/
theorem Server.readReady_peer_gone (fuel max_recv_len : Nat) (s : Server) (fd : Int)
    (c : Server.Client) (reads rest : List RecvCall) (hc : s.find? fd = some c)
    (hr : RecvCall.Reading max_recv_len reads) :
    s.readReady fuel max_recv_len fd (reads ++ .data [] :: rest) =
      some (.returned (true,
        (s.update fd fun c0 =>
          { c0 with recv_buf := c.recv_buf ++ RecvCall.bytes reads }).userLogout fd)) ∧
    s.readReady fuel max_recv_len fd (reads ++ .reset :: rest) =
      some (.returned (true,
        (s.update fd fun c0 =>
          { c0 with recv_buf := c.recv_buf ++ RecvCall.bytes reads }).userLogout fd)) := by
  obtain ⟨_, h1, h2⟩ := Socket.recv_ends max_recv_len reads rest c.recv_buf hr
  constructor
  · simp only [Server.readReady, hc, h1]
    simp
  · simp only [Server.readReady, hc, h2]
    simp

/-- C25 (peer closed or reset on read) at its defect: for a registered connection whose key
is its descriptor, an event with the read bit, and a receive that ends with a 0-byte read
(`-1`, peer closed) or with a reset (`-2`), whatever was read before,
`Server::handleClientEvent` runs the logout at once and returns, in both cases alike, with
the entries of that connection erased from the registry and every other entry unchanged
(receive buffer and outbound queue included); the number of iterations allowed to the
extraction loop plays no part, not even `0`, so no frame is extracted or dispatched. But the
endpoint is not closed by a defined statement: the logout calls `client.fd.close()` after
`clients_.erase` has destroyed the element `client` refers to, a use after erase. -/
theorem Server.peer_gone_uses_erased (fuel max_recv_len : Nat) (s : Server) (fd : Int)
    (c : Server.Client) (events : Nat) (reads rest : List RecvCall) (sends : List SendCall)
    (hc : s.find? fd = some c) (hfd : c.fd.getFD = fd)
    (hin : events &&& EPOLLIN ≠ 0) (hr : RecvCall.Reading max_recv_len reads) :
    ∃ s1,
      s.handleClientEvent fuel max_recv_len fd events (reads ++ .data [] :: rest) sends =
        some (.returned s1) ∧
      s.handleClientEvent fuel max_recv_len fd events (reads ++ .reset :: rest) sends =
        some (.returned s1) ∧
      s1.useAfterErase = true ∧
      s1.clients_ = (s.clients_.filter fun e => e.1 ≠ fd) ∧
      s1.find? fd = none ∧
      ∀ k, k ≠ fd → s1.find? k = s.find? k := by
  obtain ⟨g1, g2⟩ := Server.readReady_peer_gone fuel max_recv_len s fd c reads rest hc hr
  have hc1 : (s.update fd fun c0 =>
      { c0 with recv_buf := c.recv_buf ++ RecvCall.bytes reads }).find? fd =
      some { c with recv_buf := c.recv_buf ++ RecvCall.bytes reads } := by
    rw [Server.find?_update_self, hc]; rfl
  obtain ⟨u0, u1, u2, u3, _⟩ := Server.userLogout_registered_facts _ fd _ hc1 hfd
  refine ⟨_, ?_, ?_, u0, ?_, u2, ?_⟩
  · simp only [Server.handleClientEvent, Server.index_registered s fd c hc, hin, ne_eq,
      not_false_eq_true, if_true, g1]
  · simp only [Server.handleClientEvent, Server.index_registered s fd c hc, hin, ne_eq,
      not_false_eq_true, if_true, g2]
  · rw [u1]
    exact filter_map_key fd
      (fun c0 => { c0 with recv_buf := c.recv_buf ++ RecvCall.bytes reads }) s.clients_
  · intro k hk
    rw [u3 k hk]
    exact Server.find?_update_ne s fd k _ hk

/-- C25 at a registry of two connections: connection 7 holds a complete broadcast frame in
its receive buffer and reads one more byte before the 0-byte read; the extraction loop is
allowed no iteration. -/
theorem Server.peer_gone_uses_erased_witness :
    ∃ s1,
      Server.handleClientEvent 0 1024
          { clients_ := [(7, ⟨[5, 0, 0, 0, 1, 0, 0, 0, 9], ⟨7⟩, [[1]]⟩), (8, ⟨[2], ⟨8⟩, []⟩)],
            os := ⟨[(0, 1), (3, 1), (7, 5), (8, 1)], []⟩ } 7 5
          ([.data [4]] ++ .data [] :: []) [.accepted 1] = some (.returned s1) ∧
      Server.handleClientEvent 0 1024
          { clients_ := [(7, ⟨[5, 0, 0, 0, 1, 0, 0, 0, 9], ⟨7⟩, [[1]]⟩), (8, ⟨[2], ⟨8⟩, []⟩)],
            os := ⟨[(0, 1), (3, 1), (7, 5), (8, 1)], []⟩ } 7 5
          ([.data [4]] ++ .reset :: []) [.accepted 1] = some (.returned s1) ∧
      s1.useAfterErase = true ∧ s1.clients_ = [(8, ⟨[2], ⟨8⟩, []⟩)] := by
  obtain ⟨s1, h1, h2, h3, h4, _, _⟩ := Server.peer_gone_uses_erased 0 1024
    { clients_ := [(7, ⟨[5, 0, 0, 0, 1, 0, 0, 0, 9], ⟨7⟩, [[1]]⟩), (8, ⟨[2], ⟨8⟩, []⟩)],
      os := ⟨[(0, 1), (3, 1), (7, 5), (8, 1)], []⟩ } 7
    ⟨[5, 0, 0, 0, 1, 0, 0, 0, 9], ⟨7⟩, [[1]]⟩ 5 [.data [4]] [] [.accepted 1]
    (by decide) (by decide) (by decide)
    (RecvCall.Reading_single 1024 [4] (by decide) (by decide))
  exact ⟨s1, h1, h2, h3, by rw [h4]; decide⟩

theorem Server.echoMsg_find? (s : Server) (A k : Int) (message : Bytes) :
    (s.echoMsg A message).find? k =
      if k = A then
        (s.find? A).map fun c => { c with send_queue := c.send_queue ++ [message] }
      else s.find? k := by
  cases hA : s.find? A with
  | none =>
    rw [Server.echoMsg_dangling s A message hA]
    by_cases hk : k = A
    · rw [if_pos hk, hk]
      exact hA
    · rw [if_neg hk]
      rfl
  | some c =>
    rw [Server.echoMsg_registered s A c message hA]
    by_cases hk : k = A
    · subst hk
      rw [if_pos rfl, ← hA]
      exact Server.find?_update_self s k
        (fun c => { c with send_queue := c.send_queue ++ [message] })
    · rw [if_neg hk]
      exact Server.find?_update_ne s A k
        (fun c => { c with send_queue := c.send_queue ++ [message] }) hk

/-- A run of `ECHO_MSG` messages handled in order for the registered connection `A` appends
them, in that order, to the send queue of `A` and leaves every other entry as it was. -/
theorem Server.handleMessages_echo (A : Int) :
    ∀ (messages : List Bytes) (s : Server) (c : Server.Client),
      (∀ m ∈ messages, (MessageHeader.read m 0).msg_type = MsgType.ECHO_MSG) →
      s.find? A = some c →
      (messages.foldl (fun st msg => st.handleMessage A msg) s).find? A =
        some { c with send_queue := c.send_queue ++ messages } ∧
      ∀ k, k ≠ A →
        (messages.foldl (fun st msg => st.handleMessage A msg) s).find? k = s.find? k := by
  intro messages
  induction messages with
  | nil =>
    intro s c _ hc
    exact ⟨by simpa using hc, fun _ _ => rfl⟩
  | cons m rest ih =>
    intro s c hm hc
    have hm1 : (MessageHeader.read m 0).msg_type = MsgType.ECHO_MSG :=
      hm m (List.mem_cons_self _ _)
    have hstep : s.handleMessage A m = s.echoMsg A m := by
      simp only [Server.handleMessage, hm1, if_true]
    have hA : (s.handleMessage A m).find? A =
        some { c with send_queue := c.send_queue ++ [m] } := by
      rw [hstep, Server.echoMsg_find?, if_pos rfl, hc]; rfl
    obtain ⟨i1, i2⟩ := ih (s.handleMessage A m) _
      (fun x hx => hm x (List.mem_cons_of_mem _ hx)) hA
    rw [List.foldl_cons]
    refine ⟨?_, ?_⟩
    · rw [i1]; simp
    · intro k hk
      rw [i2 k hk, hstep, Server.echoMsg_find?, if_neg hk]

/-- The read-ready branch when `Socket::recv` ends on `EAGAIN`: the bytes read are in the
receive buffer and the complete messages are extracted and handled. -/
theorem Server.readReady_eagain (fuel max_recv_len : Nat) (s : Server) (A : Int)
    (c : Server.Client) (reads rest : List RecvCall) (hc : s.find? A = some c)
    (hr : RecvCall.Reading max_recv_len reads) :
    s.readReady fuel max_recv_len A (reads ++ .eagain :: rest) =
      ((s.update A fun c0 =>
          { c0 with recv_buf := c.recv_buf ++ RecvCall.bytes reads }).extractAndHandle
        fuel A).map fun s2 => Outcome.returned (false, s2) := by
  obtain ⟨h0, _, _⟩ := Socket.recv_ends max_recv_len reads rest c.recv_buf hr
  simp only [Server.readReady, hc, h0]
  cases (s.update A fun c0 =>
      { c0 with recv_buf := c.recv_buf ++ RecvCall.bytes reads }).extractAndHandle fuel A with
  | none => simp
  | some s2 => simp

/-- Extraction and handling for a connection whose receive buffer is known. -/
theorem Server.extractAndHandle_eq (fuel : Nat) (s : Server) (A : Int) (c : Server.Client)
    (hc : s.find? A = some c) :
    s.extractAndHandle fuel A =
      (Server.extractMessage fuel c.recv_buf).map fun r =>
        r.1.foldl (fun st msg => st.handleMessage A msg)
          (s.update A fun c0 => { c0 with recv_buf := r.2 }) := by
  simp only [Server.extractAndHandle, hc]
  cases Server.extractMessage fuel c.recv_buf with
  | none => rfl
  | some r => rfl

/-- Stream-order dispatch for frames below the wrap-around: `k` complete `ECHO_MSG` frames,
each shorter than `2^32` bytes, read in any chunks into the empty receive buffer of the
registered connection `A` by one read-ready handling without the write bit, are put on the
send queue of `A` after its previous contents, in stream order; the other entries are
unchanged. -/
theorem Server.stream_order_below_wrap (k max_recv_len : Nat) (s : Server) (A : Int)
    (cA : Server.Client) (fs : List (MessageHeader × Bytes)) (events : Nat)
    (reads rest : List RecvCall) (sends : List SendCall)
    (hA : s.find? A = some cA) (hbuf : cA.recv_buf = [])
    (hfs : ∀ e ∈ fs, WellFramed e ∧ e.1.msg_type = MsgType.ECHO_MSG)
    (hin : events &&& EPOLLIN ≠ 0) (hout : events &&& EPOLLOUT = 0)
    (hr : RecvCall.Reading max_recv_len reads)
    (hbytes : RecvCall.bytes reads = (fs.map fun e => frameBytes e.1 e.2).flatten) :
    ∃ s1, s.handleClientEvent (fs.length + 1 + k) max_recv_len A events
        (reads ++ .eagain :: rest) sends = some (.returned s1) ∧
      s1.find? A = some { recv_buf := [], fd := cA.fd,
                          send_queue := cA.send_queue ++ fs.map fun e => frameBytes e.1 e.2 } ∧
      ∀ j, j ≠ A → s1.find? j = s.find? j := by
  have hx := Server.extractMessage_frames fs (fun e he => (hfs e he).1) k
  have h1 : (s.update A fun c0 =>
      { c0 with recv_buf := cA.recv_buf ++ RecvCall.bytes reads }).find? A =
      some { cA with recv_buf := cA.recv_buf ++ RecvCall.bytes reads } := by
    rw [Server.find?_update_self, hA]; rfl
  have h2 : ((s.update A fun c0 =>
      { c0 with recv_buf := cA.recv_buf ++ RecvCall.bytes reads }).update A fun c0 =>
        { c0 with recv_buf := [] }).find? A = some { cA with recv_buf := [] } := by
    rw [Server.find?_update_self, h1]; rfl
  have hty : ∀ m ∈ fs.map (fun e => frameBytes e.1 e.2),
      (MessageHeader.read m 0).msg_type = MsgType.ECHO_MSG := by
    intro m hm
    obtain ⟨e, he, rfl⟩ := List.mem_map.mp hm
    rw [frameBytes, MessageHeader.read_write _ _ (hfs e he).1.1]
    exact (hfs e he).2
  obtain ⟨i1, i2⟩ := Server.handleMessages_echo A (fs.map fun e => frameBytes e.1 e.2) _ _
    hty h2
  refine ⟨_, ?_, i1, ?_⟩
  · simp only [Server.handleClientEvent, Server.index_registered s A cA hA, hin, ne_eq,
      not_false_eq_true, if_true, hout, not_true_eq_false, if_false]
    rw [Server.readReady_eagain _ max_recv_len s A cA reads rest hA hr,
      Server.extractAndHandle_eq _ _ A _ h1]
    simp only [hbuf, List.nil_append, hbytes, hx, Option.map_some']
  · intro j hj
    rw [i2 j hj, Server.find?_update_ne _ A j _ hj, Server.find?_update_ne _ A j _ hj]

/-- C26 (stream-order dispatch) at its failing input: the inbound stream of the registered
connection `A` is one complete `ECHO_MSG` frame whose payload has `2^32 - 8` bytes, read in
any chunks into the empty receive buffer by one read-ready handling. The length `len` wraps
to `0`, the extraction loop never leaves, and `Server::handleClientEvent` does not return,
whatever the number of iterations allowed: the frame is not put on the send queue of `A`. -/
theorem Server.stream_order_wrap (fuel max_recv_len : Nat) (s : Server) (A : Int)
    (cA : Server.Client) (payload : Bytes) (events : Nat)
    (reads rest : List RecvCall) (sends : List SendCall)
    (hA : s.find? A = some cA) (hbuf : cA.recv_buf = [])
    (hp : payload.length = 4294967288) (hin : events &&& EPOLLIN ≠ 0)
    (hr : RecvCall.Reading max_recv_len reads)
    (hbytes : RecvCall.bytes reads =
      frameBytes { msg_type := MsgType.ECHO_MSG, reserved := 0, msg_len := 4294967288 }
        payload) :
    s.handleClientEvent fuel max_recv_len A events (reads ++ .eagain :: rest) sends = none := by
  have h1 : (s.update A fun c0 =>
      { c0 with recv_buf := cA.recv_buf ++ RecvCall.bytes reads }).find? A =
      some { cA with recv_buf := cA.recv_buf ++ RecvCall.bytes reads } := by
    rw [Server.find?_update_self, hA]; rfl
  have hx := Server.extractMessage_wrap_zero_frame payload hp fuel
  simp only [Server.handleClientEvent, Server.index_registered s A cA hA, hin, ne_eq,
    not_false_eq_true, if_true]
  rw [Server.readReady_eagain _ max_recv_len s A cA reads rest hA hr,
    Server.extractAndHandle_eq _ _ A _ h1]
  simp only [hbuf, List.nil_append, hbytes, MsgType.ECHO_MSG, hx, Option.map_none']

/-- C26 at a registry holding connection 7 and the frame `01 00 00 00 f8 ff ff ff` followed
by `2^32 - 8` bytes `0a`, read in one chunk. -/
theorem Server.stream_order_wrap_witness :
    (List.replicate 4294967288 (10 : Byte)).length = 4294967288 ∧
    ∀ fuel, Server.handleClientEvent fuel 4294967296
        { clients_ := [(7, ⟨[], ⟨7⟩, []⟩)], os := ⟨[(0, 1), (3, 1), (7, 1)], []⟩ } 7 1
        ([.data (frameBytes { msg_type := MsgType.ECHO_MSG, reserved := 0,
                              msg_len := 4294967288 } (List.replicate 4294967288 10))]
          ++ .eagain :: []) [] = none :=
  ⟨List.length_replicate _ _, fun fuel =>
    Server.stream_order_wrap fuel 4294967296
      { clients_ := [(7, ⟨[], ⟨7⟩, []⟩)], os := ⟨[(0, 1), (3, 1), (7, 1)], []⟩ } 7
      ⟨[], ⟨7⟩, []⟩ (List.replicate 4294967288 10) 1 _ [] []
      rfl rfl (List.length_replicate _ _) (by decide)
      (RecvCall.Reading_single 4294967296 _
        (by rw [frameBytes_length]; omega)
        (by rw [frameBytes_length, List.length_replicate]))
      (List.append_nil _)⟩

/-! ## The connection attempt of the client -/

/-- When `Client::connect2Server` returns after writing `"Chatroom connected"`, the
connection attempt went one of three ways: `::connect` returned `0`; or the first ready event
has the write bit and the socket error state was read as `0`; or the first ready event has
neither the write bit nor the error bit. -/
theorem Client.connect2Server_connected (p : ClientProcess) (conn : ConnectCall)
    (wait : WaitCall) (opt : SockoptCall)
    (ht : (Client.connect2Server p conn wait opt).threw = false)
    (hl : (Client.connect2Server p conn wait opt).client.cout =
      p.cout ++ [.chatroomConnected]) :
    conn = .connected ∨
    (conn = .inProgress ∧ ∃ ev more, wait = .ready (ev :: more) ∧
      ((ev.2 &&& EPOLLOUT ≠ 0 ∧ opt = .value 0) ∨
       (ev.2 &&& EPOLLOUT = 0 ∧ ev.2 &&& EPOLLERR = 0))) := by
  cases conn with
  | connected => exact Or.inl rfl
  | failed => simp [Client.connect2Server] at ht
  | inProgress =>
    refine Or.inr ⟨rfl, ?_⟩
    cases wait with
    | failed => simp [Client.connect2Server] at ht
    | ready events =>
      cases events with
      | nil => simp [Client.connect2Server] at hl
      | cons ev more =>
        refine ⟨ev, more, rfl, ?_⟩
        by_cases ho : ev.2 &&& EPOLLOUT = 0
        · by_cases he : ev.2 &&& EPOLLERR = 0
          · exact Or.inr ⟨ho, he⟩
          · simp [Client.connect2Server, ho, he] at ht
        · refine Or.inl ⟨ho, ?_⟩
          cases opt with
          | failed => simp [Client.connect2Server, ho] at ht
          | value err =>
            by_cases h0 : err = 0
            · rw [h0]
            · simp [Client.connect2Server, ho, h0] at ht

/-- C23 (client connect outcome) at its failing input: the connect is in progress and the
bounded poll returns for the connection an event whose bits are `EPOLLHUP` only. The ready
event carries no write bit and the socket error state is not read, yet
`Client::connect2Server` returns normally after writing `"Chatroom connected"`, with the
endpoint and the reactor still open. With the bits `EPOLLERR | EPOLLHUP` it throws, again
with both still open. After a timeout it closes both and writes `"Connect time out"`, and it
returns normally. -/
theorem Client.connect2Server_hangup (p : ClientProcess) (fd : Int)
    (more : List (Int × Nat)) (opt : SockoptCall) :
    EPOLLHUP &&& EPOLLOUT = 0 ∧
    Client.connect2Server p .inProgress (.ready ((fd, EPOLLHUP) :: more)) opt =
      { client :=
          { p with os := Epoll.add p.os p.conn_fd_.getFD (EPOLLOUT ||| EPOLLERR ||| EPOLLHUP),
                   cout := p.cout ++ [.chatroomConnected] },
        threw := false } ∧
    Client.connect2Server p .inProgress (.ready ((fd, EPOLLERR ||| EPOLLHUP) :: more)) opt =
      { client :=
          { p with os := Epoll.add p.os p.conn_fd_.getFD (EPOLLOUT ||| EPOLLERR ||| EPOLLHUP) },
        threw := true } ∧
    Client.connect2Server ⟨⟨4⟩, ⟨5⟩, ⟨[], []⟩, []⟩ .inProgress (.ready [(4, 16)]) (.value 111) =
      { client := ⟨⟨4⟩, ⟨5⟩, ⟨[(4, 28)], []⟩, [.chatroomConnected]⟩, threw := false } ∧
    Client.connect2Server ⟨⟨4⟩, ⟨5⟩, ⟨[], []⟩, []⟩ .inProgress (.ready []) (.value 111) =
      { client := ⟨⟨-1⟩, ⟨-1⟩, ⟨[], [4, 5]⟩, [.connectTimeOut]⟩, threw := false } := by
  refine ⟨by decide, ?_, ?_, by decide, by decide⟩
  · have h1 : EPOLLHUP &&& EPOLLOUT = 0 := by decide
    have h2 : EPOLLHUP &&& EPOLLERR = 0 := by decide
    simp only [Client.connect2Server, h1, h2, ne_eq, not_true_eq_false, if_false]
  · have h1 : (EPOLLERR ||| EPOLLHUP) &&& EPOLLOUT = 0 := by decide
    have h2 : (EPOLLERR ||| EPOLLHUP) &&& EPOLLERR ≠ 0 := by decide
    simp only [Client.connect2Server, h1, h2, ne_eq, not_true_eq_false, if_false,
      not_false_eq_true, if_true]

/-! ## Messages that follow a logout in the same batch -/

/-- C29 (nothing is dispatched after a logout) at its failing input: the connections 7 and 8
are registered with empty send queues, and one read on connection 7 delivers a `LOGOUT` frame
followed by a `GROUP_MSG` frame with the payload `09`. Both frames are extracted in the same
batch; the logout removes connection 7, and the `GROUP_MSG` frame that follows it is still
dispatched, through the reference to the erased element: it is put on the send queue of
connection 8, whose interest becomes read and write. Connection 7 is not stored again,
neither here nor when the frame that follows the logout is an `ECHO_MSG` frame. -/
theorem Server.dispatch_after_logout :
    Server.extractMessage 3 [3, 0, 0, 0, 0, 0, 0, 0, 5, 0, 0, 0, 1, 0, 0, 0, 9] =
      some ([[3, 0, 0, 0, 0, 0, 0, 0], [5, 0, 0, 0, 1, 0, 0, 0, 9]], []) ∧
    Server.handleClientEvent 3 1024
        { clients_ := [(7, ⟨[], ⟨7⟩, []⟩), (8, ⟨[], ⟨8⟩, []⟩)],
          os := ⟨[(0, 1), (3, 1), (7, 1), (8, 1)], []⟩ } 7 1
        [.data [3, 0, 0, 0, 0, 0, 0, 0, 5, 0, 0, 0, 1, 0, 0, 0, 9], .eagain] [] =
      some (.returned
        { clients_ := [(8, ⟨[], ⟨8⟩, [[5, 0, 0, 0, 1, 0, 0, 0, 9]]⟩)],
          os := ⟨[(0, 1), (3, 1), (8, 5)], [7]⟩, useAfterErase := true }) ∧
    Server.handleClientEvent 3 1024
        { clients_ := [(7, ⟨[], ⟨7⟩, []⟩), (8, ⟨[], ⟨8⟩, []⟩)],
          os := ⟨[(0, 1), (3, 1), (7, 1), (8, 1)], []⟩ } 7 1
        [.data [3, 0, 0, 0, 0, 0, 0, 0], .eagain] [] =
      some (.returned
        { clients_ := [(8, ⟨[], ⟨8⟩, []⟩)], os := ⟨[(0, 1), (3, 1), (8, 1)], [7]⟩,
          useAfterErase := true }) ∧
    Server.handleClientEvent 3 1024
        { clients_ := [(7, ⟨[], ⟨7⟩, []⟩), (8, ⟨[], ⟨8⟩, []⟩)],
          os := ⟨[(0, 1), (3, 1), (7, 1), (8, 1)], []⟩ } 7 1
        [.data [3, 0, 0, 0, 0, 0, 0, 0, 1, 0, 0, 0, 1, 0, 0, 0, 9], .eagain] [] =
      some (.returned
        { clients_ := [(8, ⟨[], ⟨8⟩, []⟩)], os := ⟨[(0, 1), (3, 1), (8, 1)], [7]⟩,
          useAfterErase := true }) := by
  refine ⟨by decide, by decide, by decide, by decide⟩

/-! ## The registry stays keyed by descriptor -/

theorem Server.update_keyed (s : Server) (key : Int) (f : Server.Client → Server.Client)
    (hf : ∀ c, (f c).fd = c.fd) (hk : s.KeyedByFD) : (s.update key f).KeyedByFD := by
  intro e1 h1
  obtain ⟨e, he, heq⟩ := Server.mem_update s key f e1 h1
  by_cases hke : e.1 = key
  · simp only [hke, if_true] at heq
    rw [heq]
    exact ⟨by simp only [Socket.getFD, hf]; exact hke ▸ (hk e he).1, hke ▸ (hk e he).2⟩
  · simp only [hke, if_false] at heq
    rw [heq]; exact hk e he

theorem Server.echoMsg_keyed (s : Server) (client : Int) (message : Bytes)
    (hk : s.KeyedByFD) : (s.echoMsg client message).KeyedByFD := by
  cases hc : s.find? client with
  | none =>
    rw [Server.echoMsg_dangling s client message hc]
    exact hk
  | some c =>
    rw [Server.echoMsg_registered s client c message hc]
    exact Server.update_keyed s client
      (fun c => { c with send_queue := c.send_queue ++ [message] }) (fun _ => rfl) hk

theorem Server.broadcastLoop_keyed (s : Server) (senderFD : Int) (message : Bytes)
    (hk : s.KeyedByFD) :
    ∀ e1 ∈ (Server.broadcastLoop senderFD message s.clients_ s.os).1,
      e1.2.fd.getFD = e1.1 ∧ e1.1 ≠ -1 := by
  intro e1 h1
  simp only [Server.broadcastLoop_fst, List.mem_map] at h1
  obtain ⟨e, he, heq⟩ := h1
  by_cases hke : e.1 ≠ senderFD
  · simp only [hke, ne_eq, not_false_eq_true, if_true] at heq
    rw [← heq]; exact hk e he
  · simp only [hke, if_false] at heq
    rw [← heq]; exact hk e he

theorem Server.broadcast_keyed (s : Server) (sender : Int) (message : Bytes)
    (hk : s.KeyedByFD) : (s.broadcast sender message).KeyedByFD := by
  cases hc : s.find? sender with
  | none =>
    rw [Server.broadcast_dangling s sender message hc]
    exact Server.broadcastLoop_keyed s (-1) message hk
  | some c =>
    rw [Server.broadcast_registered s sender c message hc]
    exact Server.broadcastLoop_keyed s c.fd.getFD message hk

theorem Server.userLogout_keyed (s : Server) (client : Int) (hk : s.KeyedByFD) :
    (s.userLogout client).KeyedByFD := by
  cases hc : s.find? client with
  | none =>
    rw [Server.userLogout_dangling s client hc]
    exact hk
  | some c =>
    have hcfd : c.fd.getFD = client := (hk _ (lookup_mem client s.clients_ c hc)).1
    obtain ⟨_, f1, _, _, _⟩ := Server.userLogout_registered_facts s client c hc hcfd
    intro e1 h1
    rw [f1] at h1
    exact hk e1 (List.mem_filter.mp h1).1

/-- `Server::handleMessage` keeps the registry keyed by descriptor, whatever the message and
whether or not the connection is still registered. -/
theorem Server.handleMessage_keyed (s : Server) (client : Int) (message : Bytes)
    (hk : s.KeyedByFD) : (s.handleMessage client message).KeyedByFD := by
  simp only [Server.handleMessage]
  split
  · exact Server.echoMsg_keyed s client message hk
  · split
    · exact Server.broadcast_keyed s client message hk
    · split
      · exact Server.userLogout_keyed s client hk
      · exact hk

theorem Server.handleMessages_keyed (client : Int) :
    ∀ (messages : List Bytes) (s : Server), s.KeyedByFD →
      (messages.foldl (fun st msg => st.handleMessage client msg) s).KeyedByFD := by
  intro messages
  induction messages with
  | nil => intro s hk; exact hk
  | cons m rest ih =>
    intro s hk
    exact ih _ (Server.handleMessage_keyed s client m hk)

theorem Server.readReady_keyed (fuel max_recv_len : Nat) (s s1 : Server) (client : Int)
    (reads : List RecvCall) (b : Bool) (hk : s.KeyedByFD)
    (h : s.readReady fuel max_recv_len client reads = some (.returned (b, s1))) :
    s1.KeyedByFD := by
  simp only [Server.readReady] at h
  split at h
  · simp at h
  · rename_i r _
    have h1 := Server.update_keyed s client (fun c => { c with recv_buf := r.buf })
      (fun _ => rfl) hk
    split at h
    · simp at h
    · split at h
      · simp only [Option.some.injEq, Outcome.returned.injEq, Prod.mk.injEq] at h
        rw [← h.2]
        exact Server.userLogout_keyed _ client h1
      · split at h
        · simp only [Option.some.injEq, Outcome.returned.injEq, Prod.mk.injEq] at h
          rw [← h.2]
          exact Server.userLogout_keyed _ client h1
        · split at h
          · simp at h
          · rename_i s2 hs2
            simp only [Option.some.injEq, Outcome.returned.injEq, Prod.mk.injEq] at h
            rw [← h.2]
            simp only [Server.extractAndHandle] at hs2
            split at hs2
            · simp at hs2
            · rename_i messages rest _
              simp only [Option.some.injEq] at hs2
              rw [← hs2]
              exact Server.handleMessages_keyed client messages _
                (Server.update_keyed _ client (fun c => { c with recv_buf := rest })
                  (fun _ => rfl) h1)

theorem Server.writeReady_keyed (fuel : Nat) (s s1 : Server) (client : Int)
    (sends : List SendCall) (hk : s.KeyedByFD)
    (h : s.writeReady fuel client sends = some (.returned s1)) : s1.KeyedByFD := by
  simp only [Server.writeReady] at h
  cases hc : s.find? client with
  | none => simp [hc] at h
  | some c =>
    simp only [hc] at h
    cases hq : Server.sendBuf fuel c sends with
    | none => simp [hq] at h
    | some q =>
      simp only [hq] at h
      obtain ⟨f1, _, _⟩ := Server.sendBuf_frame fuel c sends q hq
      have hcm := lookup_mem client s.clients_ c hc
      have hk1 : (s.update client fun _ => q.client).KeyedByFD := by
        intro e1 h1
        obtain ⟨e, he, heq⟩ := Server.mem_update s client (fun _ => q.client) e1 h1
        by_cases hke : e.1 = client
        · simp only [hke, if_true] at heq
          rw [heq]
          exact ⟨by simp only [Socket.getFD, f1]; exact (hk _ hcm).1, (hk _ hcm).2⟩
        · simp only [hke, if_false] at heq
          rw [heq]; exact hk e he
      cases ho : q.outcome with
      | raised => simp [ho] at h
      | returned res =>
        simp only [ho] at h
        by_cases hres : res = -2
        · simp only [hres, if_true, Option.some.injEq, Outcome.returned.injEq] at h
          rw [← h]
          exact Server.userLogout_keyed _ client hk1
        · simp only [hres, if_false, Option.some.injEq, Outcome.returned.injEq] at h
          rw [← h]
          exact hk1

/-- `Server::handleClientEvent` for a registered descriptor keeps the registry keyed by
descriptor. -/
theorem Server.handleClientEvent_keyed (fuel max_recv_len : Nat) (s s1 : Server) (fd : Int)
    (events : Nat) (reads : List RecvCall) (sends : List SendCall) (c : Server.Client)
    (hk : s.KeyedByFD) (hc : s.find? fd = some c)
    (h : s.handleClientEvent fuel max_recv_len fd events reads sends = some (.returned s1)) :
    s1.KeyedByFD := by
  simp only [Server.handleClientEvent, Server.index_registered s fd c hc] at h
  split at h
  · split at h
    · simp at h
    · simp at h
    · rename_i s2 hr
      simp only [Option.some.injEq, Outcome.returned.injEq] at h
      rw [← h]
      exact Server.readReady_keyed fuel max_recv_len s s2 fd reads true hk hr
    · rename_i s2 hr
      have h1 := Server.readReady_keyed fuel max_recv_len s s2 fd reads false hk hr
      split at h
      · exact Server.writeReady_keyed fuel s2 s1 fd sends h1 h
      · simp only [Option.some.injEq, Outcome.returned.injEq] at h
        rw [← h]; exact h1
  · split at h
    · exact Server.writeReady_keyed fuel s s1 fd sends hk h
    · simp only [Option.some.injEq, Outcome.returned.injEq] at h
      rw [← h]; exact hk

theorem Server.assign_keyed (s : Server) (key : Int) (value : Server.Client)
    (hk : s.KeyedByFD) (hv : value.fd.getFD = key) (hne : key ≠ -1) :
    (s.assign key value).KeyedByFD := by
  simp only [Server.assign]
  split
  · intro e1 h1
    obtain ⟨e, he, heq⟩ := Server.mem_update s key (fun _ => value) e1 h1
    by_cases hke : e.1 = key
    · simp only [hke, if_true] at heq
      rw [heq]; exact ⟨hv, hne⟩
    · simp only [hke, if_false] at heq
      rw [heq]; exact hk e he
  · intro e1 h1
    simp only [List.mem_append, List.mem_singleton] at h1
    rcases h1 with h1 | h1
    · exact hk e1 h1
    · rw [h1]; exact ⟨hv, hne⟩

theorem Socket.acceptLoop_fds :
    ∀ (script : List AcceptCall) (accepted : List Socket) (opened : List Int)
      (r : AcceptResult) (connections : List Socket),
      Socket.acceptLoop script accepted opened = some r →
      r.outcome = .returned connections →
      (∀ c ∈ accepted, c.socket_fd_ ≠ -1) → ∀ c ∈ connections, c.socket_fd_ ≠ -1 := by
  intro script
  induction script with
  | nil => intro accepted opened r connections h; simp [Socket.acceptLoop] at h
  | cons call rest ih =>
    intro accepted opened r connections h ho ha
    cases call with
    | conn fd ok =>
      cases ok with
      | true =>
        simp only [Socket.acceptLoop] at h
        refine ih _ _ r connections h ho ?_
        intro c hc
        simp only [List.mem_append, List.mem_singleton] at hc
        rcases hc with hc | hc
        · exact ha c hc
        · rw [hc]; show (fd : Int) ≠ -1; omega
      | false =>
        simp only [Socket.acceptLoop, Option.some.injEq] at h
        rw [← h] at ho; simp at ho
    | eagain =>
      simp only [Socket.acceptLoop, Option.some.injEq] at h
      rw [← h] at ho
      simp only [Outcome.returned.injEq] at ho
      rw [← ho]; exact ha
    | eintr =>
      simp only [Socket.acceptLoop] at h
      exact ih _ _ r connections h ho ha
    | failed =>
      simp only [Socket.acceptLoop, Option.some.injEq] at h
      rw [← h] at ho; simp at ho

theorem Server.handleNewSocketLoop_keyed :
    ∀ (connections : List Socket) (s : Server) (ctl : List CtlCall) (s1 : Server),
      (∀ c ∈ connections, c.socket_fd_ ≠ -1) → s.KeyedByFD →
      Server.handleNewSocketLoop connections s ctl = some (.returned s1) → s1.KeyedByFD := by
  intro connections
  induction connections with
  | nil =>
    intro s ctl s1 _ hk h
    simp only [Server.handleNewSocketLoop, Option.some.injEq, Outcome.returned.injEq] at h
    rw [← h]; exact hk
  | cons connection rest ih =>
    intro s ctl s1 hc hk h
    simp only [Server.handleNewSocketLoop] at h
    split at h
    · simp at h
    · rename_i r _
      split at h
      · simp at h
      · rename_i interest _
        refine ih _ _ s1 (fun c hcr => hc c (List.mem_cons_of_mem _ hcr)) ?_ h
        exact Server.assign_keyed
          (Server.mk s.clients_ { s.os with interest := interest } s.useAfterErase)
          connection.getFD _ hk rfl (hc connection (List.mem_cons_self _ _))

/-- `Server::handleNewSocket`, when it returns, keeps the registry keyed by descriptor: each
accepted connection is stored under its own descriptor, which is not `-1`. -/
theorem Server.handleNewSocket_keyed (s s1 : Server) (accepts : List AcceptCall)
    (ctl : List CtlCall) (hk : s.KeyedByFD)
    (h : s.handleNewSocket accepts ctl = some (.returned s1)) : s1.KeyedByFD := by
  simp only [Server.handleNewSocket] at h
  split at h
  · simp at h
  · rename_i a ha
    split at h
    · simp at h
    · rename_i connections ho
      exact Server.handleNewSocketLoop_keyed connections s ctl s1
        (Socket.acceptLoop_fds accepts [] [] a connections ha ho (fun _ hc => by simp at hc))
        hk h

/-- The expression `clients_[key]` for an absent key. -/
theorem Server.index_absent (s : Server) (key : Int) (h : s.find? key = none) :
    s.index key =
      { s with clients_ := s.clients_ ++
          [(key, { recv_buf := [], fd := { socket_fd_ := -1 }, send_queue := [] })] } := by
  simp only [Server.index, h]

/-- An event with neither the read bit nor the write bit: the handler evaluates
`clients_[ev.data.fd]` and nothing else. -/
theorem Server.handleClientEvent_idle (fuel max_recv_len : Nat) (s : Server) (fd : Int)
    (events : Nat) (reads : List RecvCall) (sends : List SendCall)
    (hin : events &&& EPOLLIN = 0) (hout : events &&& EPOLLOUT = 0) :
    s.handleClientEvent fuel max_recv_len fd events reads sends =
      some (.returned (s.index fd)) := by
  simp only [Server.handleClientEvent, hin, hout, ne_eq, not_true_eq_false, if_false]

/-- C30 (registry key invariant), the claim as worded refuted at a concrete call: the
registry holds connection 7 under its descriptor, nothing is stored under 9, and
`Server::handleClientEvent` is called for the descriptor 9 with the event bits `EPOLLHUP`.
The expression `clients_[ev.data.fd]` on its first line stores a default-constructed `Client`
under 9; neither branch of the handler runs, and it returns with a registry that has one
entry more, whose key 9 is not the descriptor `-1` its endpoint holds. -/
theorem Server.unregistered_event_stores_entry :
    Server.KeyedByFD { clients_ := [(7, ⟨[], ⟨7⟩, []⟩)], os := ⟨[(0, 1), (3, 1), (7, 1)], []⟩ } ∧
    Server.find? { clients_ := [(7, ⟨[], ⟨7⟩, []⟩)], os := ⟨[(0, 1), (3, 1), (7, 1)], []⟩ } 9 =
      none ∧
    EPOLLHUP &&& EPOLLIN = 0 ∧ EPOLLHUP &&& EPOLLOUT = 0 ∧
    Server.handleClientEvent 0 1024
        { clients_ := [(7, ⟨[], ⟨7⟩, []⟩)], os := ⟨[(0, 1), (3, 1), (7, 1)], []⟩ } 9 EPOLLHUP
        [] [] =
      some (.returned
        { clients_ := [(7, ⟨[], ⟨7⟩, []⟩), (9, ⟨[], ⟨-1⟩, []⟩)],
          os := ⟨[(0, 1), (3, 1), (7, 1)], []⟩ }) ∧
    ¬ Server.KeyedByFD
      { clients_ := [(7, ⟨[], ⟨7⟩, []⟩), (9, ⟨[], ⟨-1⟩, []⟩)],
        os := ⟨[(0, 1), (3, 1), (7, 1)], []⟩ } := by
  refine ⟨by decide, by decide, by decide, by decide, by decide, by decide⟩

/-- C30 (registry key invariant), as the code has it: from a registry in which the key of
each entry is the descriptor its endpoint holds and is not `-1`, `Server::handleNewSocket`,
whenever it returns, and `Server::handleClientEvent` for a descriptor that is in the
registry and `Server::handleMessage`, whenever they return without having used an erased
element, leave such a registry again. `Server::userLogout` for a registered connection
erases the entries of that connection, which leaves such a registry, and then uses the
erased element. `Server::handleClientEvent` for a descriptor that is not in the registry,
with neither the read bit nor the write bit, returns with a default-constructed entry stored
under that descriptor, whose endpoint holds `-1`: the registry is no longer of that kind. -/
theorem Server.registry_stays_keyed (s : Server) (hk : s.KeyedByFD) :
    (∀ (accepts : List AcceptCall) (ctl : List CtlCall) (s1 : Server),
      s.handleNewSocket accepts ctl = some (.returned s1) → s1.KeyedByFD) ∧
    (∀ (fuel max_recv_len : Nat) (fd : Int) (events : Nat) (reads : List RecvCall)
        (sends : List SendCall) (c : Server.Client) (s1 : Server),
      s.find? fd = some c →
      s.handleClientEvent fuel max_recv_len fd events reads sends = some (.returned s1) →
      s1.useAfterErase = false → s1.KeyedByFD) ∧
    (∀ (client : Int) (message : Bytes),
      (s.handleMessage client message).useAfterErase = false →
      (s.handleMessage client message).KeyedByFD) ∧
    (∀ (client : Int) (c : Server.Client), s.find? client = some c →
      (s.userLogout client).clients_ = (s.clients_.filter fun e => e.1 ≠ client) ∧
      (∀ e ∈ s.clients_.filter fun e => e.1 ≠ client, e.2.fd.getFD = e.1 ∧ e.1 ≠ -1) ∧
      (s.userLogout client).useAfterErase = true) ∧
    ∀ (fuel max_recv_len : Nat) (fd : Int) (events : Nat) (reads : List RecvCall)
        (sends : List SendCall),
      s.find? fd = none → events &&& EPOLLIN = 0 → events &&& EPOLLOUT = 0 →
      s.handleClientEvent fuel max_recv_len fd events reads sends =
        some (.returned (s.index fd)) ∧
      (s.index fd).clients_ = s.clients_ ++
        [(fd, { recv_buf := [], fd := { socket_fd_ := -1 }, send_queue := [] })] ∧
      ¬ (s.index fd).KeyedByFD := by
  refine ⟨?_, ?_, ?_, ?_, ?_⟩
  · intro accepts ctl s1 h
    exact Server.handleNewSocket_keyed s s1 accepts ctl hk h
  · intro fuel max_recv_len fd events reads sends c s1 hc h _
    exact Server.handleClientEvent_keyed fuel max_recv_len s s1 fd events reads sends c hk hc h
  · intro client message _
    exact Server.handleMessage_keyed s client message hk
  · intro client c hc
    have hcfd : c.fd.getFD = client := (hk _ (lookup_mem client s.clients_ c hc)).1
    obtain ⟨f0, f1, _, _, _⟩ := Server.userLogout_registered_facts s client c hc hcfd
    exact ⟨f1, fun e he => hk e (List.mem_filter.mp he).1, f0⟩
  · intro fuel max_recv_len fd events reads sends hc hin hout
    have hidx := Server.index_absent s fd hc
    refine ⟨Server.handleClientEvent_idle fuel max_recv_len s fd events reads sends hin hout,
      by rw [hidx], ?_⟩
    intro hk1
    have := hk1 (fd, { recv_buf := [], fd := { socket_fd_ := -1 }, send_queue := [] })
      (by rw [hidx]; simp)
    exact this.2 this.1.symm

/-- C30 at a registry of two connections: connection 7 reads an `ECHO_MSG` frame, no erased
element is used, and the registry is keyed by descriptor afterwards. -/
theorem Server.registry_stays_keyed_witness :
    Server.KeyedByFD { clients_ := [(7, ⟨[], ⟨7⟩, []⟩), (8, ⟨[], ⟨8⟩, []⟩)],
                       os := ⟨[(0, 1), (3, 1), (7, 1), (8, 1)], []⟩ } ∧
    Server.handleClientEvent 3 1024
        { clients_ := [(7, ⟨[], ⟨7⟩, []⟩), (8, ⟨[], ⟨8⟩, []⟩)],
          os := ⟨[(0, 1), (3, 1), (7, 1), (8, 1)], []⟩ } 7 1
        [.data [1, 0, 0, 0, 1, 0, 0, 0, 9], .eagain] [] =
      some (.returned
        { clients_ := [(7, ⟨[], ⟨7⟩, [[1, 0, 0, 0, 1, 0, 0, 0, 9]]⟩), (8, ⟨[], ⟨8⟩, []⟩)],
          os := ⟨[(0, 1), (3, 1), (7, 5), (8, 1)], []⟩ }) ∧
    Server.KeyedByFD
      { clients_ := [(7, ⟨[], ⟨7⟩, [[1, 0, 0, 0, 1, 0, 0, 0, 9]]⟩), (8, ⟨[], ⟨8⟩, []⟩)],
        os := ⟨[(0, 1), (3, 1), (7, 5), (8, 1)], []⟩ } :=
  ⟨by decide, by decide,
   (Server.registry_stays_keyed
      { clients_ := [(7, ⟨[], ⟨7⟩, []⟩), (8, ⟨[], ⟨8⟩, []⟩)],
        os := ⟨[(0, 1), (3, 1), (7, 1), (8, 1)], []⟩ } (by decide)).2.1 3 1024 7 1
      [.data [1, 0, 0, 0, 1, 0, 0, 0, 9], .eagain] [] ⟨[], ⟨7⟩, []⟩
      { clients_ := [(7, ⟨[], ⟨7⟩, [[1, 0, 0, 0, 1, 0, 0, 0, 9]]⟩), (8, ⟨[], ⟨8⟩, []⟩)],
        os := ⟨[(0, 1), (3, 1), (7, 5), (8, 1)], []⟩ }
      (by decide) (by decide) (by decide)⟩

end Chatroom
